import Mathlib

/-!
# The will keeper: creation, lookup, claims and the begin-block scheduler

A shallow embedding of `x/will/keeper/keeper.go`.

* Go strings and byte slices are lists of bytes (`GoString`, `Bytes`).
* The key-value store is a function from keys to optional values.  The
  serialized form of a record is kept abstract (type `B`); the codec, the key
  function `types.GetWillKey`, the curve libraries and the host modules are
  fields of `Env`, because their code is not part of the keeper.
* A Go panic (the `Must...` codec calls, `sdk.NewCoins`) is the outer `none`
  of an operation's result.
* Error values carry no text: one constructor of `Err` per error site.
-/

namespace Keeper

/-! ## Strings and bytes -/

/-- A Go string: a sequence of bytes. -/
abbrev GoString := List UInt8

/-- A Go byte slice. -/
abbrev Bytes := List UInt8

/-- The bytes of an ASCII literal. -/
def lit (s : String) : GoString := s.toList.map (fun c => UInt8.ofNat c.toNat)

/-- One lower-case hexadecimal digit, as `encoding/hex` writes it. -/
def hexDigit (n : Nat) : UInt8 :=
  if n < 10 then UInt8.ofNat (48 + n) else UInt8.ofNat (87 + n)

/-- The function `hex.EncodeToString`: two digits per byte, high nibble first. -/
def hexEncode : Bytes → GoString
  | [] => []
  | b :: bs => hexDigit (b.toNat / 16) :: hexDigit (b.toNat % 16) :: hexEncode bs

/-- The value of a hexadecimal digit, upper or lower case; `none` for any
other byte (the `reverseHexTable` of `encoding/hex`). -/
def fromHexChar (c : UInt8) : Option Nat :=
  let n := c.toNat
  if 48 ≤ n ∧ n ≤ 57 then some (n - 48)
  else if 97 ≤ n ∧ n ≤ 102 then some (n - 87)
  else if 65 ≤ n ∧ n ≤ 70 then some (n - 55)
  else none

/-- The function `hex.DecodeString`: the decoded bytes together with the error
flag.  On malformed input it returns the bytes decoded before the error. -/
def hexDecode : GoString → Bytes × Bool
  | [] => ([], false)
  | [_] => ([], true)
  | p :: q :: rest =>
    match fromHexChar p, fromHexChar q with
    | some a, some b =>
      let r := hexDecode rest
      (UInt8.ofNat (a * 16 + b) :: r.1, r.2)
    | _, _ => ([], true)

/-- Decimal digits of a natural number, most significant first. -/
def natDigits (n : Nat) : GoString :=
  (Nat.toDigits 10 n).map (fun c => UInt8.ofNat c.toNat)

/-- The function `strconv.Itoa`. -/
def Itoa : Int → GoString
  | Int.ofNat n => natDigits n
  | Int.negSucc n => 45 :: natDigits (n + 1)

/-- The function `createWillId`: `fmt.Sprintf("%s-%s-%s-%s", ...)`. -/
def createWillId (creator name beneficiary : GoString) (height : Int) : GoString :=
  creator ++ lit "-" ++ name ++ lit "-" ++ beneficiary ++ lit "-" ++ Itoa height

/-- The function `contains`: membership in a slice of strings. -/
def contains : List GoString → GoString → Bool
  | [], _ => false
  | s :: rest, item => if s = item then true else contains rest item

/-! ## Messages (package `types`, reconstructed from the fields the keeper uses) -/

/-- The type `sdk.Coin`. -/
structure Coin where
  Denom : GoString
  Amount : Int
deriving DecidableEq, Repr

/-- The payload `TransferComponent`.  The amount is a pointer in the Go
message: `none` is the nil pointer of a request that carries no amount. -/
structure TransferComponent where
  To : GoString
  Amount : Option Coin
deriving DecidableEq, Repr

/-- Modelled from the spec: the Schnorr proof requirement stored in a claim
component ("a stored public key"); the keeper never reads its fields. -/
structure SchnorrSpec where
  PublicKey : Bytes
deriving DecidableEq, Repr

/-- The Pedersen requirement stored in a claim component. -/
structure PedersenSpec where
  Commitment : Bytes
  TargetCommitment : Bytes
deriving DecidableEq, Repr

/-- The oneof of a claim component's scheme. -/
inductive SchemeType where
  | unset
  | schnorr (spec : SchnorrSpec)
  | pedersen (spec : PedersenSpec)
deriving DecidableEq, Repr

/-- The payload `ContractComponent`. -/
structure ContractComponent where
  Address : GoString
  Data : Bytes
deriving DecidableEq, Repr

/-- Modelled from the spec: the cross-chain message payload
(`CrossChainMessage{channel, port, payload}`); the keeper never reads it. -/
structure IbcMsgComponent where
  Channel : GoString
  Port : GoString
  Data : Bytes
deriving DecidableEq, Repr

/-- The oneof `ExecutionComponent.ComponentType`. -/
inductive ComponentType where
  | unset
  | transfer (c : TransferComponent)
  | claim (scheme : SchemeType)
  | contract (c : ContractComponent)
  | ibcMsg (c : IbcMsgComponent)
deriving DecidableEq, Repr

/-- The message `ExecutionComponent`. -/
structure ExecutionComponent where
  Id : GoString
  Name : GoString
  Status : GoString
  ComponentType : ComponentType
deriving DecidableEq, Repr

/-- The message `Will`. -/
structure Will where
  ID : GoString
  Creator : GoString
  Name : GoString
  Beneficiary : GoString
  Height : Int
  Status : GoString
  Components : List ExecutionComponent
deriving DecidableEq, Repr

/-- The zero value of `Will`, what unmarshalling no bytes leaves. -/
def Will.zero : Will :=
  { ID := [], Creator := [], Name := [], Beneficiary := [], Height := 0,
    Status := [], Components := [] }

/-- The message `MsgCreateWillRequest`. -/
structure MsgCreateWillRequest where
  Creator : GoString
  Name : GoString
  Beneficiary : GoString
  Height : Int
  Components : List ExecutionComponent
deriving DecidableEq, Repr

/-- The payload of a Schnorr claim. -/
structure SchnorrClaim where
  PublicKey : GoString
  Signature : GoString
  Message : GoString
deriving DecidableEq, Repr

/-- The payload of a Pedersen claim. -/
structure PedersenClaim where
  Commitment : Bytes
  BlindingFactor : Bytes
  Value : Bytes
deriving DecidableEq, Repr

/-- The payload of a Gnark claim. -/
structure GnarkClaim where
  Proof : Bytes
  PublicInputs : Bytes
deriving DecidableEq, Repr

/-- The oneof `MsgClaimRequest.ClaimType`. -/
inductive ClaimType where
  | unset
  | schnorrClaim (c : SchnorrClaim)
  | pedersenClaim (c : PedersenClaim)
  | gnarkClaim (c : GnarkClaim)
deriving DecidableEq, Repr

/-- The message `MsgClaimRequest`. -/
structure MsgClaimRequest where
  Claimer : GoString
  WillId : GoString
  ComponentId : GoString
  ClaimType : ClaimType
deriving DecidableEq, Repr

/-- The error sites of the keeper. -/
inductive Err where
  | willNotFound
  | willBlank
  | notExpired
  | componentNotFound
  | componentNotActive
  | unknownClaimType
  | unmarshalPublicKey
  | unmarshalR
  | schnorrVerificationFailed
  | pedersenNotFound
  | deserializeStored
  | deserializeClaimed
  | deserializeTarget
  | commitmentVerificationFailed
  | storeSet
  | fetchWillIds
  | unmarshalWillIds
  | notTransfer
  | parseFromAddress
  | parseToAddress
  | sendCoins
  | contractExecute
  | sequenceNotFound
  | capabilityNotFound
  | sendPacket
deriving DecidableEq, Repr

deriving instance DecidableEq for Except

/-- The external calls the scheduler makes, in the order it makes them. -/
inductive Call where
  | sendCoins (fromAddr toAddr : Bytes) (coins : List Coin)
  | emitEvent (name willId fromAddr toAddr : GoString) (coins : List Coin)
  | execute (contractAddr callerAddr : Bytes) (msg : Bytes) (funds : List Coin)
  | getNextSequenceSend (portID channelID : GoString)
  | getCapability (portID channelID : GoString)
  | sendPacket (portID channelID : GoString) (data : Bytes)
deriving DecidableEq, Repr

/-! ## The environment: what the keeper calls and does not define -/

/-- The libraries behind the keeper's store access and claim checks.
`B` is the serialized form of a record, `E` a point of the Edwards curve of
the Schnorr scheme, `S` a scalar, `P` a Ristretto point. -/
structure Env (B E S P : Type) where
  /-- The key function `types.GetWillKey`, used for the will record, the height
  index and the creator index alike. -/
  GetWillKey : GoString → Bytes
  /-- The keys for which the store's `Get` and `Set` return an error. -/
  invalidKey : Bytes → Bool
  /-- The codec call `MustMarshal` on a will. -/
  marshalWill : Will → B
  /-- The codec call `Unmarshal` into a will; `none` is its error, a panic
  under `MustUnmarshal`. -/
  unmarshalWill : B → Option Will
  /-- The codec call `MustMarshal` on a `WillIds` list. -/
  marshalIds : List GoString → B
  /-- The codec call `Unmarshal` into a `WillIds` list; `none` is its error, a
  panic under `MustUnmarshal`. -/
  unmarshalIds : B → Option (List GoString)
  /-- The call `curve.Point().UnmarshalBinary`; `none` is its error. -/
  edUnmarshal : Bytes → Option E
  /-- The call `curve.Scalar().SetBytes`. -/
  scalarSetBytes : Bytes → S
  /-- The function `schnorr.Hash`. -/
  schnorrHash : GoString → S
  /-- The function `schnorr.Verify` on the message scalar, the signature parts
  `R` and `S`, and the public key. -/
  schnorrVerify : S → E → S → E → Bool
  /-- The call `ristretto.Point.UnmarshalBinary`; `none` is its error. -/
  ristrettoUnmarshal : Bytes → Option P
  /-- The call `ristretto.Point.Add`. -/
  ristrettoAdd : P → P → P
  /-- The call `ristretto.Point.Equals`. -/
  ristrettoEquals : P → P → Bool

/-- The host modules the scheduler drives.  Each answer may depend on the
calls made before it. -/
structure Host where
  /-- The function `sdk.AccAddressFromBech32`; `none` is its error. -/
  accAddressFromBech32 : GoString → Option Bytes
  /-- The function `sdk.NewCoins`; `none` is its panic on an invalid coin. -/
  newCoins : List Coin → Option (List Coin)
  /-- Whether `bankKeeper.SendCoins` returns an error. -/
  sendCoinsFails : List Call → Bytes → Bytes → List Coin → Bool
  /-- Whether `permissionedWasmKeeper.Execute` returns an error. -/
  executeFails : List Call → Bytes → Bytes → Bool
  /-- Whether `GetNextSequenceSend` finds a sequence. -/
  sequenceFound : List Call → GoString → GoString → Bool
  /-- Whether `scopedKeeper.GetCapability` finds the channel capability. -/
  capabilityFound : List Call → GoString → GoString → Bool
  /-- Whether `SendPacket` returns an error. -/
  sendPacketFails : List Call → GoString → GoString → Bytes → Bool

/-! ## The store -/

/-- The key-value store: the value under each key, if any. -/
abbrev KVStore (B : Type) := Bytes → Option B

/-- The store with nothing written. -/
def emptyStore (B : Type) : KVStore B := fun _ => none

section Operations

variable {B E S P : Type}

/-- The call `store.Get`: the bytes (nil when the key is absent) and whether an
error is returned. -/
def storeGet (env : Env B E S P) (s : KVStore B) (key : Bytes) : Option B × Bool :=
  if env.invalidKey key then (none, true) else (s key, false)

/-- The call `store.Set`: the store afterwards and whether an error is
returned; a failed write changes nothing. -/
def storeSet (env : Env B E S P) (s : KVStore B) (key : Bytes) (value : B) :
    KVStore B × Bool :=
  if env.invalidKey key then (s, true)
  else (fun k => if k = key then some value else s k, false)

/-- The functions `errors.Wrap` and `errors.Wrapf` of `cosmossdk.io/errors`:
wrapping a nil error returns nil. -/
def errorsWrap : Option Err → Option Err
  | none => none
  | some e => some e

/-! ## Lookup and creation -/

/-- The method `GetWillByID`.  Only a store error gives "not found"; for an
absent key `MustUnmarshal` runs on nil bytes and leaves the zero will. -/
def GetWillByID (env : Env B E S P) (s : KVStore B) (id : GoString) :
    Option (Except Err Will) :=
  match storeGet env s (env.GetWillKey id) with
  | (_, true) => some (Except.error Err.willNotFound)
  | (none, false) => some (Except.ok Will.zero)
  | (some willBz, false) =>
    match env.unmarshalWill willBz with
    | none => none
    | some will => some (Except.ok will)

/-- The will identifier computed from a will's fields:
`hex.EncodeToString([]byte(createWillId(...)))`. -/
def idString (creator name beneficiary : GoString) (height : Int) : GoString :=
  hexEncode (createWillId creator name beneficiary height)

/-- The ids of an index entry read with errors ignored: empty when the bytes
are nil, `MustUnmarshal` otherwise (`none` is its panic). -/
def readIds (env : Env B E S P) (bz : Option B) : Option (List GoString) :=
  match bz with
  | none => some []
  | some b => env.unmarshalIds b

/-- The method `CreateWill`: the returned will and error, and the store
afterwards.  `MustMarshal` never returns nil, so the `willBz == nil` branch is
not taken. -/
def CreateWill (env : Env B E S P) (s : KVStore B) (msg : MsgCreateWillRequest) :
    Option ((Option Will × Option Err) × KVStore B) :=
  let id := idString msg.Creator msg.Name msg.Beneficiary msg.Height
  let will : Will :=
    { ID := id, Creator := msg.Creator, Name := msg.Name,
      Beneficiary := msg.Beneficiary, Height := msg.Height,
      Status := lit "live", Components := msg.Components }
  let willBz := env.marshalWill will
  let key := env.GetWillKey id
  let r1 := storeSet env s key willBz
  if r1.2 then some ((none, errorsWrap (some Err.storeSet)), r1.1)
  else
    let heightKey := env.GetWillKey (Itoa will.Height)
    match readIds env (storeGet env r1.1 heightKey).1 with
    | none => none
    | some idsAtHeight =>
      if idsAtHeight.length > 10 then some ((none, errorsWrap none), r1.1)
      else
        let r2 := storeSet env r1.1 heightKey (env.marshalIds (idsAtHeight ++ [will.ID]))
        let creatorKey := env.GetWillKey msg.Creator
        match readIds env (storeGet env r2.1 creatorKey).1 with
        | none => none
        | some idsAtCreator =>
          let idsAtCreator1 :=
            if !contains idsAtCreator will.ID then idsAtCreator ++ [will.ID]
            else idsAtCreator
          let r3 := storeSet env r2.1 creatorKey (env.marshalIds idsAtCreator1)
          some ((some will, none), r3.1)

/-- The loop of `ListWillsByAddress`: ids whose will cannot be fetched are
skipped. -/
def collectWills (env : Env B E S P) (s : KVStore B) :
    List GoString → Option (List Will)
  | [] => some []
  | willID :: rest =>
    match GetWillByID env s willID with
    | none => none
    | some (Except.error _) => collectWills env s rest
    | some (Except.ok will) =>
      match collectWills env s rest with
      | none => none
      | some wills => some (will :: wills)

/-- The method `ListWillsByAddress`. -/
def ListWillsByAddress (env : Env B E S P) (s : KVStore B) (address : GoString) :
    Option (Except Err (List Will)) :=
  match storeGet env s (env.GetWillKey address) with
  | (_, true) => some (Except.error Err.fetchWillIds)
  | (none, false) => some (Except.ok [])
  | (some willIDsBz, false) =>
    match env.unmarshalIds willIDsBz with
    | none => some (Except.error Err.unmarshalWillIds)
    | some ids =>
      match collectWills env s ids with
      | none => none
      | some wills => some (Except.ok wills)

/-! ## Claims -/

/-- The method `updateWillStatusAndStore`: the will is written under the key
recomputed from its own fields. -/
def updateWillStatusAndStore (env : Env B E S P) (s : KVStore B) (will : Will) :
    KVStore B × Option Err :=
  let willID := idString will.Creator will.Name will.Beneficiary will.Height
  let key := env.GetWillKey willID
  let r := storeSet env s key (env.marshalWill will)
  if r.2 then (r.1, errorsWrap (some Err.storeSet)) else (r.1, none)

/-- The search loop of `Claim`: the index of the first component with the
requested id, `none` for the index -1. -/
def findComponent : List ExecutionComponent → GoString → Option Nat
  | [], _ => none
  | c :: cs, componentId =>
    if c.Id = componentId then some 0
    else
      match findComponent cs componentId with
      | none => none
      | some i => some (i + 1)

/-- The assignment `components[i].Status = status`. -/
def setStatusAt : List ExecutionComponent → Nat → GoString → List ExecutionComponent
  | [], _, _ => []
  | c :: cs, 0, status => { c with Status := status } :: cs
  | c :: cs, i + 1, status => c :: setStatusAt cs i status

/-- The will with the status of component `i` set to "claimed". -/
def markClaimed (will : Will) (i : Nat) : Will :=
  { will with Components := setStatusAt will.Components i (lit "claimed") }

/-- The slice expression `b[:n]`, which panics (`none`) when `n` is out of
range.  Go allows `n` up to the capacity; the length is the bound that every
slice guarantees. -/
def sliceTo (b : Bytes) (n : Nat) : Option Bytes :=
  if n ≤ b.length then some (b.take n) else none

/-- The slice expression `b[n:]`, which panics (`none`) when `n` exceeds the
length. -/
def sliceFrom (b : Bytes) (n : Nat) : Option Bytes :=
  if n ≤ b.length then some (b.drop n) else none

/-- The method `processSchnorrClaim`; `none` is a panic: a slice out of range,
or the assignment `will.Components[componentIndex].Status = "claimed"` with the
index out of range.  Both hex decodings drop their error; the key checked is
the one submitted with the claim. -/
def processSchnorrClaim (env : Env B E S P) (s : KVStore B) (claim : SchnorrClaim)
    (will : Will) (componentIndex : Nat) : Option (KVStore B × Option Err) :=
  let publicKeyBytes := (hexDecode claim.PublicKey).1
  let signatureBytes := (hexDecode claim.Signature).1
  let message := claim.Message
  match env.edUnmarshal publicKeyBytes with
  | none => some (s, some Err.unmarshalPublicKey)
  | some publicKeyPoint =>
    let sigLen := signatureBytes.length / 2
    match sliceTo signatureBytes sigLen, sliceFrom signatureBytes sigLen with
    | some rBytes, some sBytes =>
      match env.edUnmarshal rBytes with
      | none => some (s, some Err.unmarshalR)
      | some r =>
        let sc := env.scalarSetBytes sBytes
        let messageScalar := env.schnorrHash (message ++ hexEncode publicKeyBytes)
        if !env.schnorrVerify messageScalar r sc publicKeyPoint then
          some (s, some Err.schnorrVerificationFailed)
        else if componentIndex < will.Components.length then
          some (updateWillStatusAndStore env s (markClaimed will componentIndex))
        else none
    | _, _ => none

/-- The getter chain `GetClaim().GetPedersen()`: nil unless the component is a
claim component with a Pedersen scheme. -/
def getPedersen (c : ExecutionComponent) : Option PedersenSpec :=
  match c.ComponentType with
  | ComponentType.claim (SchemeType.pedersen spec) => some spec
  | _ => none

/-- The method `DeserializeCommitment`. -/
def DeserializeCommitment (env : Env B E S P) (data : Bytes) : Option P :=
  env.ristrettoUnmarshal data

/-- The method `AddCommitments`. -/
def AddCommitments (env : Env B E S P) (a b : P) : P :=
  env.ristrettoAdd a b

/-- The method `processPedersenClaim`, on the component that `Claim` has read
at `componentIndex`. -/
def processPedersenClaim (env : Env B E S P) (s : KVStore B) (will : Will)
    (componentIndex : Nat) (component : ExecutionComponent) (claim : PedersenClaim) :
    KVStore B × Option Err :=
  match getPedersen component with
  | none => (s, some Err.pedersenNotFound)
  | some storedCommitment =>
    match DeserializeCommitment env storedCommitment.Commitment with
    | none => (s, some Err.deserializeStored)
    | some storedCommitmentPoint =>
      match DeserializeCommitment env claim.Commitment with
      | none => (s, some Err.deserializeClaimed)
      | some claimCommitmentPoint =>
        match DeserializeCommitment env storedCommitment.TargetCommitment with
        | none => (s, some Err.deserializeTarget)
        | some targetCommitmentPoint =>
          let resultCommitment := AddCommitments env storedCommitmentPoint claimCommitmentPoint
          if !env.ristrettoEquals resultCommitment targetCommitmentPoint then
            (s, some Err.commitmentVerificationFailed)
          else updateWillStatusAndStore env s (markClaimed will componentIndex)

/-- The type switch of `Claim` on the proof variant, run on an expired will
whose component at `componentIndex` is active. -/
def dispatchClaim (env : Env B E S P) (s : KVStore B) (msg : MsgClaimRequest)
    (will : Will) (componentIndex : Nat) (component : ExecutionComponent) :
    Option (KVStore B × Option Err) :=
  match msg.ClaimType with
  | ClaimType.schnorrClaim claim => processSchnorrClaim env s claim will componentIndex
  | ClaimType.pedersenClaim claim =>
    some (processPedersenClaim env s will componentIndex component claim)
  | ClaimType.gnarkClaim _ => some (s, none)
  | ClaimType.unset => some (s, some Err.unknownClaimType)

/-- The method `Claim`: the returned error (`none` for nil) and the store
afterwards.  `GetWillByID` never returns a nil will without an error, so the
`will == nil` branch is not taken. -/
def Claim (env : Env B E S P) (s : KVStore B) (msg : MsgClaimRequest) :
    Option (Option Err × KVStore B) :=
  match GetWillByID env s msg.WillId with
  | none => none
  | some (Except.error e) => some (some e, s)
  | some (Except.ok will) =>
    if will.ID = [] ∨ will.Creator = [] then some (some Err.willBlank, s)
    else if will.Status ≠ lit "expired" then some (some Err.notExpired, s)
    else
      match findComponent will.Components msg.ComponentId with
      | none => some (some Err.componentNotFound, s)
      | some componentIndex =>
        match will.Components.get? componentIndex with
        | none => none
        | some component =>
          if component.Status ≠ lit "active" then some (some Err.componentNotActive, s)
          else
            match dispatchClaim env s msg will componentIndex component with
            | none => none
            | some r => some (r.2, r.1)

/-! ## The scheduler -/

/-- The expression `sdk.NewCoins(*transfer.Amount)`: dereferencing a nil
amount panics, and so does `sdk.NewCoins` on an invalid coin. -/
def amountCoins (host : Host) (transfer : TransferComponent) : Option (List Coin) :=
  match transfer.Amount with
  | none => none
  | some amount => host.newCoins [amount]

/-- The method `ExecuteTransfer`: the returned error and the calls made. -/
def ExecuteTransfer (host : Host) (calls : List Call) (component : ExecutionComponent)
    (will : Will) : Option (Option Err × List Call) :=
  match component.ComponentType with
  | ComponentType.transfer transfer =>
    match amountCoins host transfer with
    | none => none
    | some coins =>
      match host.accAddressFromBech32 will.Creator with
      | none => some (some Err.parseFromAddress, calls)
      | some fromAddr =>
        match host.accAddressFromBech32 transfer.To with
        | none => some (some Err.parseToAddress, calls)
        | some toAddr =>
          let calls1 := calls ++ [Call.sendCoins fromAddr toAddr coins]
          if host.sendCoinsFails calls fromAddr toAddr coins then
            some (some Err.sendCoins, calls1)
          else
            some (none, calls1 ++
              [Call.emitEvent component.Name will.ID will.Creator transfer.To coins])
  | _ => some (some Err.notTransfer, calls)

/-- The method `ExecuteContract`: an address that does not parse is passed on
as the empty address; the caller is the empty address and no funds are sent. -/
def ExecuteContract (host : Host) (calls : List Call) (c : ContractComponent) :
    Option Err × List Call :=
  let contractAddr := (host.accAddressFromBech32 c.Address).getD []
  let callerAddr : Bytes := []
  let calls1 := calls ++ [Call.execute contractAddr callerAddr c.Data []]
  if host.executeFails calls contractAddr c.Data then (some Err.contractExecute, calls1)
  else (none, calls1)

/-- The method `SendIBCMessage`. -/
def SendIBCMessage (host : Host) (calls : List Call) (channelID portID : GoString)
    (data : Bytes) : Option Err × List Call :=
  let calls1 := calls ++ [Call.getNextSequenceSend portID channelID]
  if !host.sequenceFound calls portID channelID then (some Err.sequenceNotFound, calls1)
  else
    let calls2 := calls1 ++ [Call.getCapability portID channelID]
    if !host.capabilityFound calls1 portID channelID then
      (some Err.capabilityNotFound, calls2)
    else
      let calls3 := calls2 ++ [Call.sendPacket portID channelID data]
      if host.sendPacketFails calls2 portID channelID data then (some Err.sendPacket, calls3)
      else (none, calls3)

/-- The channel the scheduler sends on, whatever the component says. -/
def devChannelID : GoString := lit "channel-0"

/-- The port the scheduler sends on, whatever the component says. -/
def devPortID : GoString :=
  lit "wasm.w3ll14hj2tavq8fpesdwxxcu44rty3hh90vhujrvcmstl4zr3txmfvw9srdqyxn"

/-- The data the scheduler sends, whatever the component says. -/
def devData : Bytes := lit "testData"

/-- One pass of the component loop of `BeginBlocker`: the component afterwards
and the calls made.  The result of `ExecuteTransfer` and of `SendIBCMessage` is
dropped; a failed contract call leaves the status as it was.  The transfer
case first prints `c.Transfer.Amount.String()`, which panics on a nil amount. -/
def runComponent (host : Host) (will : Will) (calls : List Call)
    (component : ExecutionComponent) : Option (ExecutionComponent × List Call) :=
  match component.ComponentType with
  | ComponentType.transfer c =>
    match c.Amount with
    | none => none
    | some _ =>
      match ExecuteTransfer host calls component will with
      | none => none
      | some r => some ({ component with Status := lit "executed" }, r.2)
  | ComponentType.claim _ => some ({ component with Status := lit "active" }, calls)
  | ComponentType.contract c =>
    let r := ExecuteContract host calls c
    match r.1 with
    | some _ => some (component, r.2)
    | none => some ({ component with Status := lit "executed" }, r.2)
  | ComponentType.ibcMsg _ =>
    let r := SendIBCMessage host calls devChannelID devPortID devData
    some ({ component with Status := lit "executed" }, r.2)
  | ComponentType.unset => some (component, calls)

/-- The component loop of `BeginBlocker`, in stored order. -/
def runComponents (host : Host) (will : Will) :
    List Call → List ExecutionComponent → Option (List ExecutionComponent × List Call)
  | calls, [] => some ([], calls)
  | calls, component :: rest =>
    match runComponent host will calls component with
    | none => none
    | some r =>
      match runComponents host will r.2 rest with
      | none => none
      | some rs => some (r.1 :: rs.1, rs.2)

/-- The will loop of `BeginBlocker`: the returned error, the store and the
calls made.  A write error ends the whole run. -/
def processWills (env : Env B E S P) (host : Host) :
    List GoString → KVStore B → List Call → Option (Option Err × KVStore B × List Call)
  | [], s, calls => some (none, s, calls)
  | willID :: rest, s, calls =>
    match GetWillByID env s willID with
    | none => none
    | some (Except.error _) => processWills env host rest s calls
    | some (Except.ok will) =>
      if will.Status ≠ lit "live" then processWills env host rest s calls
      else
        match runComponents host will calls will.Components with
        | none => none
        | some r =>
          let will1 : Will := { will with Components := r.1, Status := lit "expired" }
          let willID1 := idString will1.Creator will1.Name will1.Beneficiary will1.Height
          let key := env.GetWillKey willID1
          let w := storeSet env s key (env.marshalWill will1)
          if w.2 then some (errorsWrap (some Err.storeSet), w.1, r.2)
          else processWills env host rest w.1 r.2

/-- The method `BeginBlocker` at block height `blockHeight`. -/
def BeginBlocker (env : Env B E S P) (host : Host) (s : KVStore B) (blockHeight : Int) :
    Option (Option Err × KVStore B × List Call) :=
  let heightKey := env.GetWillKey (Itoa blockHeight)
  match storeGet env s heightKey with
  | (_, true) => some (none, s, [])
  | (none, false) => some (none, s, [])
  | (some willIDsBz, false) =>
    match env.unmarshalIds willIDsBz with
    | none => some (none, s, [])
    | some ids => processWills env host ids s []

end Operations

/-! ## A small concrete environment

Records are stored as tagged values, keys are the string behind a fixed
tag, and both curves are the additive group of integers modulo 101 with
generator 1 and one-byte encodings.  It is used to run the operations on
concrete requests. -/

/-- A stored value: a marshalled will or a marshalled id list. -/
inductive Val where
  | will (w : Will)
  | ids (l : List GoString)
deriving DecidableEq, Repr

/-- A one-byte encoding of a group element below 101. -/
def toyPoint : Bytes → Option Nat
  | [b] => if b.toNat < 101 then some b.toNat else none
  | _ => none

/-- A byte string read as a little-endian number, reduced modulo 101. -/
def toyScalar (bs : Bytes) : Nat :=
  (bs.foldr (fun b acc => b.toNat + 256 * acc) 0) % 101

/-- The Schnorr relation `s * G = R + c * P` in the toy group. -/
def toyVerify (c r s pk : Nat) : Bool :=
  decide (s % 101 = (r + c * pk) % 101)

/-- The concrete environment. -/
def env0 : Env Val Nat Nat Nat :=
  { GetWillKey := fun id => lit "will/" ++ id
    invalidKey := fun key => decide (key = [])
    marshalWill := Val.will
    unmarshalWill := fun b => match b with
      | Val.will w => some w
      | Val.ids _ => none
    marshalIds := Val.ids
    unmarshalIds := fun b => match b with
      | Val.ids l => some l
      | Val.will _ => none
    edUnmarshal := toyPoint
    scalarSetBytes := toyScalar
    schnorrHash := toyScalar
    schnorrVerify := toyVerify
    ristrettoUnmarshal := toyPoint
    ristrettoAdd := fun a b => (a + b) % 101
    ristrettoEquals := fun a b => decide (a = b) }

/-- A host in which every address parses, every coin is valid and every call
succeeds. -/
def host0 : Host :=
  { accAddressFromBech32 := fun a => some a
    newCoins := fun coins => some coins
    sendCoinsFails := fun _ _ _ _ => false
    executeFails := fun _ _ _ => false
    sequenceFound := fun _ _ _ => true
    capabilityFound := fun _ _ _ => true
    sendPacketFails := fun _ _ _ _ => false }

/-- A claim component with a Pedersen requirement: stored commitment 5,
target commitment 12. -/
def pedersenComponent : ExecutionComponent :=
  { Id := lit "c1", Name := lit "grant", Status := lit "pending",
    ComponentType := ComponentType.claim
      (SchemeType.pedersen { Commitment := [5], TargetCommitment := [12] }) }

/-- A creation request by "alice" maturing at height 7. -/
def aliceRequest : MsgCreateWillRequest :=
  { Creator := lit "alice", Name := lit "w", Beneficiary := lit "bob", Height := 7,
    Components := [pedersenComponent] }

/-- The id of the will of `aliceRequest`. -/
def aliceId : GoString := idString (lit "alice") (lit "w") (lit "bob") 7

/-- The will that `CreateWill` builds from `aliceRequest`. -/
def aliceWill : Will :=
  { ID := aliceId, Creator := lit "alice", Name := lit "w", Beneficiary := lit "bob",
    Height := 7, Status := lit "live", Components := [pedersenComponent] }

/-- The store after `CreateWill`; a panic leaves it as it is. -/
def storeAfterCreate (s : KVStore Val) (msg : MsgCreateWillRequest) : KVStore Val :=
  match CreateWill env0 s msg with
  | none => s
  | some r => r.2

/-- The store after `BeginBlocker` at height `h`; a panic leaves it as it is. -/
def storeAfterBlock (s : KVStore Val) (h : Int) : KVStore Val :=
  match BeginBlocker env0 host0 s h with
  | none => s
  | some r => r.2.1

/-- The store after a claim; a panic leaves it as it is. -/
def storeAfterClaim (s : KVStore Val) (msg : MsgClaimRequest) : KVStore Val :=
  match Claim env0 s msg with
  | none => s
  | some r => r.2

/-- The store after alice's will was created in the empty store. -/
def aliceLive : KVStore Val := storeAfterCreate (emptyStore Val) aliceRequest

/-- The store after alice's will was created and the scheduler ran at its
maturity height 7. -/
def aliceExpired : KVStore Val := storeAfterBlock aliceLive 7

/-- A claim by "eve" on component "c1" of the will `willId`. -/
def claimOn (willId : GoString) (proof : ClaimType) : MsgClaimRequest :=
  { Claimer := lit "eve", WillId := willId, ComponentId := lit "c1", ClaimType := proof }

/-- A Schnorr claim on alice's will under the key pair with secret 3 and
public key 3: nonce 10, so `R = 10`; the challenge of the empty message is
75, so `S = 10 + 75 * 3 = 33` modulo 101. -/
def schnorrGood : MsgClaimRequest :=
  claimOn aliceId (ClaimType.schnorrClaim
    { PublicKey := lit "03", Signature := lit "0a21", Message := [] })

/-- The claim `schnorrGood` with the last bit of the signature flipped. -/
def schnorrBad : MsgClaimRequest :=
  claimOn aliceId (ClaimType.schnorrClaim
    { PublicKey := lit "03", Signature := lit "0a20", Message := [] })

/-- A claim on alice's will with a proof of the third scheme. -/
def gnarkRequest : MsgClaimRequest :=
  claimOn aliceId (ClaimType.gnarkClaim { Proof := [], PublicInputs := [] })

/-- Alice's request under the name `i`, so that each `i` gives another will at
height 7. -/
def numbered (i : Nat) : MsgCreateWillRequest :=
  { aliceRequest with Name := natDigits i }

/-- The id of the will of `numbered i`. -/
def numberedId (i : Nat) : GoString := idString (lit "alice") (natDigits i) (lit "bob") 7

/-- The store after the wills `numbered 0`, ..., `numbered (n - 1)` were
created in the empty store. -/
def bucket (n : Nat) : KVStore Val :=
  (List.range n).foldl (fun s i => storeAfterCreate s (numbered i)) (emptyStore Val)

/-- The ids listed in the store under the key of the string `name`. -/
def idsUnder (s : KVStore Val) (name : GoString) : Option (List GoString) :=
  readIds env0 (s (env0.GetWillKey name))

/-- Alice's request made by a creator whose address is the string "5". -/
def fiveRequest : MsgCreateWillRequest :=
  { aliceRequest with Creator := lit "5" }

/-- The id of the will of `fiveRequest`. -/
def fiveId : GoString := idString (lit "5") (lit "w") (lit "bob") 7

/-- The store after the will of `fiveRequest` was created in the empty store. -/
def fiveLive : KVStore Val := storeAfterCreate (emptyStore Val) fiveRequest

/-- The component statuses of a fetched will. -/
def componentStatuses (r : Option (Except Err Will)) : Option (List GoString) :=
  match r with
  | some (Except.ok w) => some (w.Components.map (fun c => c.Status))
  | _ => none

/-- The status and maturity height of a fetched will. -/
def statusAndHeight (r : Option (Except Err Will)) : Option (GoString × Int) :=
  match r with
  | some (Except.ok w) => some (w.Status, w.Height)
  | _ => none

/-- A claim component with a Schnorr requirement: stored public key 3. -/
def schnorrComponent : ExecutionComponent :=
  { Id := lit "c1", Name := lit "grant", Status := lit "pending",
    ComponentType := ComponentType.claim (SchemeType.schnorr { PublicKey := [3] }) }

/-- A creation request by "carol" with one Schnorr claim component. -/
def carolRequest : MsgCreateWillRequest :=
  { Creator := lit "carol", Name := lit "w", Beneficiary := lit "bob", Height := 7,
    Components := [schnorrComponent] }

/-- The id of the will of `carolRequest`. -/
def carolId : GoString := idString (lit "carol") (lit "w") (lit "bob") 7

/-- The store after carol's will was created and the scheduler ran at height 7. -/
def carolExpired : KVStore Val :=
  storeAfterBlock (storeAfterCreate (emptyStore Val) carolRequest) 7

/-- The signed claim of `schnorrGood` on carol's will, with both hex fields
malformed: the key ends in two characters that are not hex digits, the
signature has odd length. -/
def schnorrMalformed : MsgClaimRequest :=
  claimOn carolId (ClaimType.schnorrClaim
    { PublicKey := lit "03zz", Signature := lit "0a21z", Message := [] })

/-- Alice's request with maturity height 5. -/
def aliceAtFive : MsgCreateWillRequest :=
  { aliceRequest with Height := 5 }

/-- The store after the will of `aliceAtFive` was created in the empty store. -/
def aliceAtFiveLive : KVStore Val := storeAfterCreate (emptyStore Val) aliceAtFive

/-- The store `aliceLive` with the creator index of "alice" listing, after
alice's will, an id "ghost" that has no record. -/
def ghostStore : KVStore Val :=
  fun k => if k = env0.GetWillKey (lit "alice") then some (Val.ids [aliceId, lit "ghost"])
    else aliceLive k

/-- A transfer of 5 w3ll to "bob". -/
def transferComponent : ExecutionComponent :=
  { Id := lit "t1", Name := lit "pay", Status := lit "pending",
    ComponentType := ComponentType.transfer
      { To := lit "bob", Amount := some { Denom := lit "w3ll", Amount := 5 } } }

/-- A creation request by "dave" with one transfer component. -/
def daveRequest : MsgCreateWillRequest :=
  { Creator := lit "dave", Name := lit "w", Beneficiary := lit "bob", Height := 7,
    Components := [transferComponent] }

/-- The id of the will of `daveRequest`. -/
def daveId : GoString := idString (lit "dave") (lit "w") (lit "bob") 7

/-- The will that `CreateWill` builds from `daveRequest`. -/
def daveWill : Will :=
  { ID := daveId, Creator := lit "dave", Name := lit "w", Beneficiary := lit "bob",
    Height := 7, Status := lit "live", Components := [transferComponent] }

/-- The store after dave's will was created in the empty store. -/
def daveLive : KVStore Val := storeAfterCreate (emptyStore Val) daveRequest

/-- The host `host0` with a bank whose `SendCoins` always returns an error. -/
def hostBankDown : Host :=
  { host0 with sendCoinsFails := fun _ _ _ _ => true }

/-- A cross-chain message on channel "channel-7" and port "transfer" with
payload "hello". -/
def ibcComponent : ExecutionComponent :=
  { Id := lit "m1", Name := lit "notify", Status := lit "pending",
    ComponentType := ComponentType.ibcMsg
      { Channel := lit "channel-7", Port := lit "transfer", Data := lit "hello" } }

/-- A creation request by "erin" with one cross-chain message component. -/
def erinRequest : MsgCreateWillRequest :=
  { Creator := lit "erin", Name := lit "w", Beneficiary := lit "bob", Height := 7,
    Components := [ibcComponent] }

/-- The store after erin's will was created in the empty store. -/
def erinLive : KVStore Val := storeAfterCreate (emptyStore Val) erinRequest

/-- The calls of a scheduler run. -/
def callsOf (r : Option (Option Err × KVStore Val × List Call)) : Option (List Call) :=
  match r with
  | some out => some out.2.2
  | none => none

/-- The store after a scheduler run; `none` for a panic. -/
def storeOf (r : Option (Option Err × KVStore Val × List Call)) : Option (KVStore Val) :=
  match r with
  | some out => some out.2.1
  | none => none

/-- A Pedersen claim on alice's will whose commitment 7 completes the stored
commitment 5 to the target 12. -/
def pedersenGood : MsgClaimRequest :=
  claimOn aliceId (ClaimType.pedersenClaim
    { Commitment := [7], BlindingFactor := [], Value := [] })

/-- The only component of alice's will once the scheduler made it active. -/
def pedersenActive : ExecutionComponent :=
  { pedersenComponent with Status := lit "active" }

/-- Alice's will as stored after the scheduler ran at height 7. -/
def aliceExpiredWill : Will :=
  { aliceWill with Status := lit "expired", Components := [pedersenActive] }

/-- A Schnorr claim whose public key field is not hex at all. -/
def schnorrNoKey : SchnorrClaim :=
  { PublicKey := lit "zz", Signature := lit "0a21", Message := [] }

/-- A transfer component whose request already carries the status "claimed". -/
def presetComponent : ExecutionComponent :=
  { transferComponent with Status := lit "claimed" }

/-- A creation request by "frank" whose one component carries the status
"claimed". -/
def frankRequest : MsgCreateWillRequest :=
  { Creator := lit "frank", Name := lit "w", Beneficiary := lit "bob", Height := 7,
    Components := [presetComponent] }

/-- The id of the will of `frankRequest`. -/
def frankId : GoString := idString (lit "frank") (lit "w") (lit "bob") 7

/-- The will that `CreateWill` builds from `frankRequest`. -/
def frankWill : Will :=
  { ID := frankId, Creator := lit "frank", Name := lit "w", Beneficiary := lit "bob",
    Height := 7, Status := lit "live", Components := [presetComponent] }

/-- The store after frank's will was created in the empty store. -/
def frankLive : KVStore Val := storeAfterCreate (emptyStore Val) frankRequest

/-- A request of creator "a-b" for a will named "c". -/
def dashCreator : MsgCreateWillRequest :=
  { Creator := lit "a-b", Name := lit "c", Beneficiary := lit "bob", Height := 7,
    Components := [pedersenComponent] }

/-- A request of creator "a" for a will named "b-c". -/
def dashName : MsgCreateWillRequest :=
  { Creator := lit "a", Name := lit "b-c", Beneficiary := lit "bob", Height := 7,
    Components := [transferComponent] }

/-- The store after alice's request was served twice. -/
def aliceTwice : KVStore Val := storeAfterCreate aliceLive aliceRequest

/-- The store after dave's request was served twice. -/
def daveTwice : KVStore Val := storeAfterCreate daveLive daveRequest

/-- A call of the contract at "vault" with the message "run". -/
def contractComponent : ExecutionComponent :=
  { Id := lit "k1", Name := lit "call", Status := lit "pending",
    ComponentType := ComponentType.contract { Address := lit "vault", Data := lit "run" } }

/-- A creation request by "grace": a contract call, then a transfer, then a
claim. -/
def graceRequest : MsgCreateWillRequest :=
  { Creator := lit "grace", Name := lit "w", Beneficiary := lit "bob", Height := 7,
    Components := [contractComponent, transferComponent, schnorrComponent] }

/-- The id of the will of `graceRequest`. -/
def graceId : GoString := idString (lit "grace") (lit "w") (lit "bob") 7

/-- The will that `CreateWill` builds from `graceRequest`. -/
def graceWill : Will :=
  { ID := graceId, Creator := lit "grace", Name := lit "w", Beneficiary := lit "bob",
    Height := 7, Status := lit "live",
    Components := [contractComponent, transferComponent, schnorrComponent] }

/-- The store after grace's will was created in the empty store. -/
def graceLive : KVStore Val := storeAfterCreate (emptyStore Val) graceRequest

/-- The store after grace's will and then dave's will were created. -/
def graceAndDave : KVStore Val := storeAfterCreate graceLive daveRequest

/-- The host `host0` with a contract engine whose `Execute` always returns an
error. -/
def hostContractDown : Host :=
  { host0 with executeFails := fun _ _ _ => true }

/-- The claim `pedersenGood` made by the beneficiary "bob" instead of "eve". -/
def pedersenByBob : MsgClaimRequest :=
  { pedersenGood with Claimer := lit "bob" }

/-! ## Stores of whole runs -/

section RunDefinitions

variable {B E S P : Type}

/-- The key under which a will is written back: the key of the id recomputed
from its fields. -/
def ownKey (env : Env B E S P) (w : Will) : Bytes :=
  env.GetWillKey (idString w.Creator w.Name w.Beneficiary w.Height)

/-- What the proofs about whole runs ask of the key function and the codec,
whose code is not part of the keeper: keys of different strings differ, a
marshalled will is read back as it was, and a marshalled id list is never read
back as a live will. -/
structure Lawful (env : Env B E S P) : Prop where
  keyInjective : Function.Injective env.GetWillKey
  willRoundTrip : ∀ w, env.unmarshalWill (env.marshalWill w) = some w
  idsNotLive : ∀ l w, env.unmarshalWill (env.marshalIds l) = some w → w.Status ≠ lit "live"

/-- The shape of the stores the keeper writes: every value is a marshalled
will under the key of its own fields, or a marshalled id list. -/
def Consistent (env : Env B E S P) (s : KVStore B) : Prop :=
  ∀ k b, s k = some b →
    (∃ w, b = env.marshalWill w ∧ k = ownKey env w) ∨ (∃ l, b = env.marshalIds l)

/-- The stores reachable from the empty store by `CreateWill`, `Claim` and
`BeginBlocker` calls that return (a panic aborts the transaction or the
block). -/
inductive Reachable (env : Env B E S P) : KVStore B → Prop where
  | empty : Reachable env (emptyStore B)
  | create (s : KVStore B) (msg : MsgCreateWillRequest)
      (r : (Option Will × Option Err) × KVStore B) :
      Reachable env s → CreateWill env s msg = some r → Reachable env r.2
  | claim (s : KVStore B) (msg : MsgClaimRequest) (r : Option Err × KVStore B) :
      Reachable env s → Claim env s msg = some r → Reachable env r.2
  | block (host : Host) (s : KVStore B) (h : Int)
      (r : Option Err × KVStore B × List Call) :
      Reachable env s → BeginBlocker env host s h = some r → Reachable env r.2.1

/-- An id whose will the scheduler skips: the lookup returns, and not a live
will. -/
def Settled (env : Env B E S P) (s : KVStore B) (id : GoString) : Prop :=
  ∃ r, GetWillByID env s id = some r ∧ ∀ w, r = Except.ok w → w.Status ≠ lit "live"

/-- The will as the scheduler stores it after its run: the components as run
and the status "expired". -/
def expireWith (w : Will) (components : List ExecutionComponent) : Will :=
  { w with Components := components, Status := lit "expired" }

/-- How one scheduler run may change a store: a key keeps its value, or held
the record of a live will and now holds the record of an expired will. -/
def RunChange (env : Env B E S P) (s s1 : KVStore B) : Prop :=
  ∀ k, s1 k = s k ∨
    ∃ w w1, s k = some (env.marshalWill w) ∧ w.Status = lit "live" ∧ k = ownKey env w ∧
      s1 k = some (env.marshalWill w1) ∧ w1.Status = lit "expired"

/-- What a run of the will loop over `ids` from store `s` and calls `calls`
does when it ends with error `e`, store `s1` and calls `calls1`: no error, the
calls only grow, only records of live wills change, every listed id is settled
afterwards, and every listed id that held a live will had that will's
components run once and the result stored as expired. -/
def RunSpec (env : Env B E S P) (host : Host) (ids : List GoString) (s : KVStore B)
    (calls : List Call) (e : Option Err) (s1 : KVStore B) (calls1 : List Call) : Prop :=
  e = none ∧ calls <+: calls1 ∧ RunChange env s s1 ∧
    (∀ id ∈ ids, Settled env s1 id) ∧
    (∀ id ∈ ids, ∀ w, GetWillByID env s id = some (Except.ok w) →
      w.Status = lit "live" →
      ∃ c0 rs, calls <+: c0 ∧ rs.2 <+: calls1 ∧
        runComponents host w c0 w.Components = some rs ∧
        s1 (env.GetWillKey id) = some (env.marshalWill (expireWith w rs.1)))

/-- Whether a call is a call of the transfer primitive `bankKeeper.SendCoins`. -/
def Call.isSendCoins : Call → Bool
  | Call.sendCoins _ _ _ => true
  | _ => false

/-- The call of the transfer primitive that a component of will `w` stands
for: for a transfer component whose coin is valid and whose sender (the will's
creator) and recipient parse, the sending of the component's amount from the
creator to the component's `To`; nothing otherwise. -/
def bankCall (host : Host) (w : Will) (c : ExecutionComponent) : Option Call :=
  match c.ComponentType with
  | ComponentType.transfer t =>
    match amountCoins host t, host.accAddressFromBech32 w.Creator,
      host.accAddressFromBech32 t.To with
    | some coins, some fromAddr, some toAddr => some (Call.sendCoins fromAddr toAddr coins)
    | _, _, _ => none
  | _ => none

/-- The live wills of the store `s` among the listed ids, in list order, each
id taken at its first occurrence only (`seen` holds the ids already taken). -/
def liveWills (env : Env B E S P) (s : KVStore B) : List GoString → List GoString → List Will
  | [], _ => []
  | id :: rest, seen =>
    if id ∈ seen then liveWills env s rest seen
    else
      match GetWillByID env s id with
      | some (Except.ok w) =>
        if w.Status = lit "live" then w :: liveWills env s rest (id :: seen)
        else liveWills env s rest seen
      | _ => liveWills env s rest seen

/-- The calls made when the components of the wills `ws` are run one will
after the other, starting from the calls `calls`; `none` for a panic. -/
def traceOf (host : Host) : List Will → List Call → Option (List Call)
  | [], calls => some calls
  | w :: ws, calls =>
    match runComponents host w calls w.Components with
    | none => none
    | some rs => traceOf host ws rs.2

/-- The ids listed under the key of height `h`, as `BeginBlocker` reads them:
`none` when the key is invalid or absent or its value is not an id list. -/
def heightIndex (env : Env B E S P) (s : KVStore B) (h : Int) : Option (List GoString) :=
  match storeGet env s (env.GetWillKey (Itoa h)) with
  | (some b, false) => env.unmarshalIds b
  | _ => none

/-- The id recomputed from a will's fields, under which it is written back. -/
def ownId (w : Will) : GoString :=
  idString w.Creator w.Name w.Beneficiary w.Height

/-- The local `publicKeyBytes` of `processSchnorrClaim`: the decoded key field. -/
def publicKeyBytes (claim : SchnorrClaim) : Bytes :=
  (hexDecode claim.PublicKey).1

/-- The local `rBytes` of `processSchnorrClaim`: the first half of the decoded
signature field. -/
def rBytes (claim : SchnorrClaim) : Bytes :=
  (hexDecode claim.Signature).1.take ((hexDecode claim.Signature).1.length / 2)

/-- The local `sBytes` of `processSchnorrClaim`: the rest of the decoded
signature field. -/
def sBytes (claim : SchnorrClaim) : Bytes :=
  (hexDecode claim.Signature).1.drop ((hexDecode claim.Signature).1.length / 2)

end RunDefinitions

/-! ## The command-line parser (`client/cli/tx.go`) -/

/-- The string up to the first separator byte, and what follows that byte;
`none` when the byte does not occur. -/
def cutAt (sep : UInt8) : GoString → Option (GoString × GoString)
  | [] => none
  | c :: rest =>
    if c = sep then some ([], rest)
    else
      match cutAt sep rest with
      | none => none
      | some r => some (c :: r.1, r.2)

/-- The call `strings.SplitN(s, sep, 2)` for a one-byte separator: the whole
string when the separator does not occur, otherwise the part before its first
occurrence and the unsplit rest. -/
def SplitN2 (s : GoString) (sep : UInt8) : List GoString :=
  match cutAt sep s with
  | none => [s]
  | some r => [r.1, r.2]

/-- The call `strings.Split(s, sep)` for a one-byte separator: the pieces
between all occurrences, one more than there are separators. -/
def Split (sep : UInt8) : GoString → List GoString
  | [] => [[]]
  | c :: rest =>
    if c = sep then [] :: Split sep rest
    else
      match Split sep rest with
      | [] => [[c]]
      | piece :: pieces => (c :: piece) :: pieces

/-- The digit loop of `strconv.Atoi` and `strconv.ParseUint` in base 10: any
byte that is not a decimal digit is a syntax error. -/
def parseDigits : List UInt8 → Nat → Option Nat
  | [], n => some n
  | ch :: rest, n =>
    if 48 ≤ ch.toNat ∧ ch.toNat ≤ 57 then parseDigits rest (n * 10 + (ch.toNat - 48))
    else none

/-- The function `strconv.Atoi` on a 64-bit platform: an optional sign, at
least one digit, decimal digits only, and a value that fits `int64`; `none`
for its syntax and range errors. -/
def Atoi (s : GoString) : Option Int :=
  match s with
  | [] => none
  | c :: rest =>
    let neg := decide (c = 45)
    let body := if c = 45 ∨ c = 43 then rest else s
    if body = [] then none
    else
      match parseDigits body 0 with
      | none => none
      | some n =>
        let v : Int := if neg then -(n : Int) else (n : Int)
        if -(2 : Int) ^ 63 ≤ v ∧ v ≤ (2 : Int) ^ 63 - 1 then some v else none

/-- Whether a byte is an ASCII letter. -/
def isLetter (c : UInt8) : Bool :=
  (65 ≤ c.toNat && c.toNat ≤ 90) || (97 ≤ c.toNat && c.toNat ≤ 122)

/-- Whether a byte may follow the first byte of a denomination: a letter, a
digit or one of `/ : . _ -`. -/
def isDenomChar (c : UInt8) : Bool :=
  isLetter c || (48 ≤ c.toNat && c.toNat ≤ 57) ||
    c = 47 || c = 58 || c = 46 || c = 95 || c = 45

/-- The function `sdk.ValidateDenom`: the pattern
`[a-zA-Z][a-zA-Z0-9/:._-]{2,127}`. -/
def ValidateDenom : GoString → Bool
  | [] => false
  | c :: rest =>
    isLetter c && decide (2 ≤ rest.length) && decide (rest.length ≤ 127) &&
      rest.all isDenomChar

/-- The function `sdk.NewInt64Coin`: it panics (`none`) when the denomination
is invalid or the amount is negative. -/
def NewInt64Coin (denom : GoString) (amount : Int) : Option Coin :=
  if ValidateDenom denom ∧ 0 ≤ amount then some { Denom := denom, Amount := amount }
  else none

/-- The error returns of `parseComponentFromString`. -/
inductive CliErr where
  | invalidFormat
  | transferParams
  | invalidAmount
  | unsupportedType
deriving DecidableEq, Repr

/-- The transfer component that `parseComponentFromString` builds: only the
oneof is set (`recipient` is the local `to`). -/
def transferTo (recipient : GoString) (amountCoin : Coin) : ExecutionComponent :=
  { Id := [], Name := [], Status := [],
    ComponentType := ComponentType.transfer { To := recipient, Amount := some amountCoin } }

/-- The function `parseComponentFromString`; `none` is a panic. -/
def parseComponentFromString (compArg : GoString) :
    Option (Except CliErr ExecutionComponent) :=
  match SplitN2 compArg 58 with
  | [componentType, paramsStr] =>
    if componentType = lit "transfer" then
      match Split 44 paramsStr with
      | [recipient, amountStr] =>
        match Atoi amountStr with
        | none => some (Except.error CliErr.invalidAmount)
        | some atoi =>
          match NewInt64Coin (lit "w3ll") atoi with
          | none => none
          | some amountCoin => some (Except.ok (transferTo recipient amountCoin))
      | _ => some (Except.error CliErr.transferParams)
    else some (Except.error CliErr.unsupportedType)
  | _ => some (Except.error CliErr.invalidFormat)

/-! ## Requests with an empty creator, a bad coin or no amount -/

/-- Alice's request sent with an empty creator. -/
def nobodyRequest : MsgCreateWillRequest :=
  { aliceRequest with Creator := [] }

/-- The id of the will of `nobodyRequest`. -/
def nobodyId : GoString := idString [] (lit "w") (lit "bob") 7

/-- The will that `CreateWill` builds from `nobodyRequest`. -/
def nobodyWill : Will :=
  { ID := nobodyId, Creator := [], Name := lit "w", Beneficiary := lit "bob",
    Height := 7, Status := lit "live", Components := [pedersenComponent] }

/-- The store after the will of `nobodyRequest` was created in the empty store. -/
def nobodyLive : KVStore Val := storeAfterCreate (emptyStore Val) nobodyRequest

/-- The store after that will was created and the scheduler ran at height 7. -/
def nobodyExpired : KVStore Val := storeAfterBlock nobodyLive 7

/-- A transfer of -5 w3ll to "bob". -/
def badCoinComponent : ExecutionComponent :=
  { Id := lit "t1", Name := lit "pay", Status := lit "pending",
    ComponentType := ComponentType.transfer
      { To := lit "bob", Amount := some { Denom := lit "w3ll", Amount := -5 } } }

/-- A creation request by "mallory" whose transfer carries a negative amount. -/
def malloryRequest : MsgCreateWillRequest :=
  { Creator := lit "mallory", Name := lit "w", Beneficiary := lit "bob", Height := 7,
    Components := [badCoinComponent] }

/-- The id of the will of `malloryRequest`. -/
def malloryId : GoString := idString (lit "mallory") (lit "w") (lit "bob") 7

/-- The will that `CreateWill` builds from `malloryRequest`. -/
def malloryWill : Will :=
  { ID := malloryId, Creator := lit "mallory", Name := lit "w", Beneficiary := lit "bob",
    Height := 7, Status := lit "live", Components := [badCoinComponent] }

/-- A transfer to "bob" that carries no amount. -/
def noAmountComponent : ExecutionComponent :=
  { Id := lit "t1", Name := lit "pay", Status := lit "pending",
    ComponentType := ComponentType.transfer { To := lit "bob", Amount := none } }

/-- A creation request by "nemo" whose transfer carries no amount. -/
def nemoRequest : MsgCreateWillRequest :=
  { Creator := lit "nemo", Name := lit "w", Beneficiary := lit "bob", Height := 7,
    Components := [noAmountComponent] }

/-- The id of the will of `nemoRequest`. -/
def nemoId : GoString := idString (lit "nemo") (lit "w") (lit "bob") 7

/-- The will that `CreateWill` builds from `nemoRequest`. -/
def nemoWill : Will :=
  { ID := nemoId, Creator := lit "nemo", Name := lit "w", Beneficiary := lit "bob",
    Height := 7, Status := lit "live", Components := [noAmountComponent] }

/-- The host `host0` with a `sdk.NewCoins` that panics on a coin with a
negative amount, as the SDK's does. -/
def hostChecked : Host :=
  { host0 with newCoins := fun coins =>
      if coins.any (fun c => decide (c.Amount < 0)) then none else some coins }

/-- The store after mallory's will and then dave's will were created. -/
def malloryAndDave : KVStore Val :=
  storeAfterCreate (storeAfterCreate (emptyStore Val) malloryRequest) daveRequest

/-- The store after nemo's will and then dave's will were created. -/
def nemoAndDave : KVStore Val :=
  storeAfterCreate (storeAfterCreate (emptyStore Val) nemoRequest) daveRequest

/-- The store after alice's will and then mallory's will were created. -/
def aliceAndMallory : KVStore Val := storeAfterCreate aliceLive malloryRequest

/-- The store after grace's, mallory's and dave's wills were created, in this
order. -/
def graceMalloryDave : KVStore Val :=
  storeAfterCreate (storeAfterCreate graceLive malloryRequest) daveRequest

/-! ## A concrete environment whose points form a group -/

section Lemmas

variable {B E S P : Type}

theorem storeSet_fst_of_err (env : Env B E S P) (s : KVStore B) (key : Bytes) (v : B)
    (h : (storeSet env s key v).2 = true) : (storeSet env s key v).1 = s := by
  unfold storeSet at h ⊢
  split at h
  · rename_i hk; simp [hk]
  · simp at h

theorem storeSet_other (env : Env B E S P) (s : KVStore B) (key k : Bytes) (v : B)
    (hk : k ≠ key) : (storeSet env s key v).1 k = s k := by
  unfold storeSet
  split
  · rfl
  · simp [hk]

theorem storeSet_same (env : Env B E S P) (s : KVStore B) (key : Bytes) (v : B)
    (hok : (storeSet env s key v).2 = false) :
    (storeSet env s key v).1 key = some v ∧ env.invalidKey key = false := by
  unfold storeSet at hok ⊢
  split at hok
  · simp at hok
  · rename_i hk; simp [hk]

theorem hexEncode_length (b : Bytes) : (hexEncode b).length = 2 * b.length := by
  induction b with
  | nil => rfl
  | cons x xs ih => simp [hexEncode, ih]; omega

theorem lit_dash_length : (lit "-").length = 1 := by decide

theorem idString_length (c n b : GoString) (h : Int) :
    (idString c n b h).length
      = 2 * (c.length + n.length + b.length + (Itoa h).length + 3) := by
  unfold idString createWillId
  rw [hexEncode_length]
  simp only [List.length_append, lit_dash_length]
  omega

/-- A will id is never the creator string it was built from: it is longer. -/
theorem idString_ne_creator (c n b : GoString) (h : Int) : idString c n b h ≠ c := by
  intro heq
  have := congrArg List.length heq
  rw [idString_length] at this
  omega

/-- A will id is never the decimal string of its height: it is longer. -/
theorem idString_ne_Itoa (c n b : GoString) (h : Int) : idString c n b h ≠ Itoa h := by
  intro heq
  have := congrArg List.length heq
  rw [idString_length] at this
  omega

theorem updateWillStatusAndStore_err (env : Env B E S P) (s : KVStore B) (will : Will)
    (e : Err) (h : (updateWillStatusAndStore env s will).2 = some e) :
    (updateWillStatusAndStore env s will).1 = s := by
  generalize hr : updateWillStatusAndStore env s will = r at h ⊢
  unfold updateWillStatusAndStore at hr
  simp only at hr
  split at hr
  · rename_i hs
    subst hr
    exact storeSet_fst_of_err env s _ _ hs
  · subst hr; simp at h

theorem sliceTo_half (b : Bytes) : sliceTo b (b.length / 2) = some (b.take (b.length / 2)) := by
  unfold sliceTo
  simp [Nat.div_le_self]

theorem sliceFrom_half (b : Bytes) :
    sliceFrom b (b.length / 2) = some (b.drop (b.length / 2)) := by
  unfold sliceFrom
  simp [Nat.div_le_self]

/-- What `processSchnorrClaim` returns when it returns: one of its three error
returns with the store untouched, or the result of the final write. -/
theorem processSchnorrClaim_result (env : Env B E S P) (s : KVStore B) (claim : SchnorrClaim)
    (will : Will) (i : Nat) (r : KVStore B × Option Err)
    (h : processSchnorrClaim env s claim will i = some r) :
    r = (s, some Err.unmarshalPublicKey) ∨ r = (s, some Err.unmarshalR) ∨
      r = (s, some Err.schnorrVerificationFailed) ∨
      r = updateWillStatusAndStore env s (markClaimed will i) := by
  unfold processSchnorrClaim at h
  simp only [sliceTo_half, sliceFrom_half] at h
  split at h
  · simp only [Option.some.injEq] at h
    exact Or.inl h.symm
  · split at h
    · simp only [Option.some.injEq] at h
      exact Or.inr (Or.inl h.symm)
    · split at h
      · simp only [Option.some.injEq] at h
        exact Or.inr (Or.inr (Or.inl h.symm))
      · split at h
        · simp only [Option.some.injEq] at h
          exact Or.inr (Or.inr (Or.inr h.symm))
        · simp at h

theorem processSchnorrClaim_err (env : Env B E S P) (s : KVStore B) (claim : SchnorrClaim)
    (will : Will) (i : Nat) (e : Err) (r : KVStore B × Option Err)
    (hr : processSchnorrClaim env s claim will i = some r) (h : r.2 = some e) :
    r.1 = s := by
  rcases processSchnorrClaim_result env s claim will i r hr with h1 | h1 | h1 | h1
  · rw [h1]
  · rw [h1]
  · rw [h1]
  · rw [h1] at h ⊢
    exact updateWillStatusAndStore_err env s _ e h

theorem processPedersenClaim_err (env : Env B E S P) (s : KVStore B) (will : Will)
    (i : Nat) (c : ExecutionComponent) (claim : PedersenClaim) (e : Err)
    (h : (processPedersenClaim env s will i c claim).2 = some e) :
    (processPedersenClaim env s will i c claim).1 = s := by
  generalize hr : processPedersenClaim env s will i c claim = r at h ⊢
  unfold processPedersenClaim at hr
  simp only at hr
  split at hr
  · subst hr; rfl
  · split at hr
    · subst hr; rfl
    · split at hr
      · subst hr; rfl
      · split at hr
        · subst hr; rfl
        · split at hr
          · subst hr; rfl
          · subst hr; exact updateWillStatusAndStore_err env s _ e h

theorem dispatchClaim_err (env : Env B E S P) (s : KVStore B) (msg : MsgClaimRequest)
    (will : Will) (i : Nat) (c : ExecutionComponent) (e : Err) (r : KVStore B × Option Err)
    (hr : dispatchClaim env s msg will i c = some r) (h : r.2 = some e) :
    r.1 = s := by
  unfold dispatchClaim at hr
  split at hr
  · exact processSchnorrClaim_err env s _ will i e r hr h
  · simp only [Option.some.injEq] at hr
    subst hr; exact processPedersenClaim_err env s will i c _ e h
  · simp only [Option.some.injEq] at hr
    subst hr; rfl
  · simp only [Option.some.injEq] at hr
    subst hr; rfl


/-! ## Consistent stores -/

theorem Consistent.set_will {env : Env B E S P} {s : KVStore B} (hs : Consistent env s)
    (w : Will) : Consistent env (storeSet env s (ownKey env w) (env.marshalWill w)).1 := by
  intro k b hb
  unfold storeSet at hb
  split at hb
  · exact hs k b hb
  · simp only at hb
    split at hb
    · rename_i hk
      simp only [Option.some.injEq] at hb
      exact Or.inl ⟨w, hb.symm, hk⟩
    · exact hs k b hb

theorem Consistent.set_ids {env : Env B E S P} {s : KVStore B} (hs : Consistent env s)
    (key : Bytes) (l : List GoString) :
    Consistent env (storeSet env s key (env.marshalIds l)).1 := by
  intro k b hb
  unfold storeSet at hb
  split at hb
  · exact hs k b hb
  · simp only at hb
    split at hb
    · simp only [Option.some.injEq] at hb
      exact Or.inr ⟨l, hb.symm⟩
    · exact hs k b hb

theorem Consistent.empty (env : Env B E S P) : Consistent env (emptyStore B) := by
  intro k b hb
  simp [emptyStore] at hb

theorem Consistent.createWill {env : Env B E S P} {s : KVStore B} (hs : Consistent env s)
    (msg : MsgCreateWillRequest) (r : (Option Will × Option Err) × KVStore B)
    (h : CreateWill env s msg = some r) : Consistent env r.2 := by
  unfold CreateWill at h
  simp only at h
  have h1 := hs.set_will
    { ID := idString msg.Creator msg.Name msg.Beneficiary msg.Height, Creator := msg.Creator,
      Name := msg.Name, Beneficiary := msg.Beneficiary, Height := msg.Height,
      Status := lit "live", Components := msg.Components }
  simp only [ownKey] at h1
  split at h
  · simp only [Option.some.injEq] at h; subst h; exact h1
  · split at h
    · simp at h
    · split at h
      · simp only [Option.some.injEq] at h; subst h; exact h1
      · split at h
        · simp at h
        · simp only [Option.some.injEq] at h
          subst h
          exact (h1.set_ids _ _).set_ids _ _

theorem Consistent.update {env : Env B E S P} {s : KVStore B} (hs : Consistent env s)
    (w : Will) : Consistent env (updateWillStatusAndStore env s w).1 := by
  unfold updateWillStatusAndStore
  simp only
  split
  · exact hs.set_will w
  · exact hs.set_will w

theorem Consistent.dispatchClaim {env : Env B E S P} {s : KVStore B}
    (hs : Consistent env s) (msg : MsgClaimRequest) (will : Will) (i : Nat)
    (c : ExecutionComponent) (r : KVStore B × Option Err)
    (h : dispatchClaim env s msg will i c = some r) : Consistent env r.1 := by
  unfold Keeper.dispatchClaim at h
  split at h
  · rcases processSchnorrClaim_result env s _ will i r h with h1 | h1 | h1 | h1
    · rw [h1]; exact hs
    · rw [h1]; exact hs
    · rw [h1]; exact hs
    · rw [h1]; exact hs.update _
  · simp only [Option.some.injEq] at h
    subst h
    unfold processPedersenClaim
    simp only
    split
    · exact hs
    · split
      · exact hs
      · split
        · exact hs
        · split
          · exact hs
          · split
            · exact hs
            · exact hs.update _
  · simp only [Option.some.injEq] at h
    subst h; exact hs
  · simp only [Option.some.injEq] at h
    subst h; exact hs

theorem Consistent.claim {env : Env B E S P} {s : KVStore B} (hs : Consistent env s)
    (msg : MsgClaimRequest) (r : Option Err × KVStore B)
    (h : Claim env s msg = some r) : Consistent env r.2 := by
  unfold Claim at h
  split at h
  · simp at h
  · simp only [Option.some.injEq] at h; subst h; exact hs
  · split at h
    · simp only [Option.some.injEq] at h; subst h; exact hs
    · split at h
      · simp only [Option.some.injEq] at h; subst h; exact hs
      · split at h
        · simp only [Option.some.injEq] at h; subst h; exact hs
        · split at h
          · simp at h
          · split at h
            · simp only [Option.some.injEq] at h; subst h; exact hs
            · split at h
              · simp at h
              · rename_i r' hd
                simp only [Option.some.injEq] at h
                subst h
                exact hs.dispatchClaim msg _ _ _ r' hd

theorem Consistent.processWills {env : Env B E S P} (host : Host) (ids : List GoString) :
    ∀ (s : KVStore B) (calls : List Call) (r : Option Err × KVStore B × List Call),
      Consistent env s → processWills env host ids s calls = some r → Consistent env r.2.1 := by
  induction ids with
  | nil =>
    intro s calls r hs h
    simp only [Keeper.processWills, Option.some.injEq] at h
    subst h; exact hs
  | cons id rest ih =>
    intro s calls r hs h
    unfold Keeper.processWills at h
    split at h
    · simp at h
    · exact ih s calls r hs h
    · rename_i will hget
      split at h
      · exact ih s calls r hs h
      · split at h
        · simp at h
        · rename_i rs hrun
          have hw := hs.set_will
            ({ will with Components := rs.1, Status := lit "expired" } : Will)
          simp only at h
          split at h
          · simp only [Option.some.injEq] at h
            subst h
            exact hw
          · exact ih _ _ r hw h

theorem Consistent.beginBlocker {env : Env B E S P} {s : KVStore B} (hs : Consistent env s)
    (host : Host) (h : Int) (r : Option Err × KVStore B × List Call)
    (hr : BeginBlocker env host s h = some r) : Consistent env r.2.1 := by
  unfold BeginBlocker at hr
  simp only at hr
  split at hr
  · simp only [Option.some.injEq] at hr; subst hr; exact hs
  · simp only [Option.some.injEq] at hr; subst hr; exact hs
  · split at hr
    · simp only [Option.some.injEq] at hr; subst hr; exact hs
    · exact Consistent.processWills host _ s [] r hs hr

theorem Reachable.consistent {env : Env B E S P} {s : KVStore B} (h : Reachable env s) :
    Consistent env s := by
  induction h with
  | empty => exact Consistent.empty env
  | create s msg r _ hr ih => exact ih.createWill msg r hr
  | claim s msg r _ hr ih => exact ih.claim msg r hr
  | block host s h r _ hr ih => exact ih.beginBlocker host h r hr

theorem GetWillByID_invalid (env : Env B E S P) (s : KVStore B) (id : GoString)
    (hk : env.invalidKey (env.GetWillKey id) = true) :
    GetWillByID env s id = some (Except.error Err.willNotFound) := by
  unfold GetWillByID storeGet
  simp [hk]

theorem GetWillByID_absent (env : Env B E S P) (s : KVStore B) (id : GoString)
    (hk : env.invalidKey (env.GetWillKey id) = false) (hv : s (env.GetWillKey id) = none) :
    GetWillByID env s id = some (Except.ok Will.zero) := by
  unfold GetWillByID storeGet
  simp [hk, hv]

theorem GetWillByID_present (env : Env B E S P) (s : KVStore B) (id : GoString) (b : B)
    (hk : env.invalidKey (env.GetWillKey id) = false)
    (hv : s (env.GetWillKey id) = some b) :
    GetWillByID env s id = (env.unmarshalWill b).map Except.ok := by
  unfold GetWillByID storeGet
  simp only [hk, hv, Bool.false_eq_true, if_false]
  cases env.unmarshalWill b <;> rfl

theorem GetWillByID_congr (env : Env B E S P) (s s' : KVStore B) (id id' : GoString)
    (hk : env.GetWillKey id = env.GetWillKey id')
    (hv : s (env.GetWillKey id) = s' (env.GetWillKey id')) :
    GetWillByID env s id = GetWillByID env s' id' := by
  unfold GetWillByID storeGet
  rw [hv, hk]

theorem GetWillByID_of_record (env : Env B E S P) (hlaw : Lawful env) (s : KVStore B)
    (id : GoString) (w : Will) (hk : env.invalidKey (env.GetWillKey id) = false)
    (hv : s (env.GetWillKey id) = some (env.marshalWill w)) :
    GetWillByID env s id = some (Except.ok w) := by
  rw [GetWillByID_present env s id _ hk hv, hlaw.willRoundTrip]
  rfl

theorem zero_not_live : Will.zero.Status ≠ lit "live" := by decide

theorem expired_ne_live : lit "expired" ≠ lit "live" := by decide

theorem marshalWill_injective (env : Env B E S P) (hlaw : Lawful env) (w w' : Will)
    (h : env.marshalWill w = env.marshalWill w') : w = w' := by
  have h1 := hlaw.willRoundTrip w
  rw [h, hlaw.willRoundTrip w'] at h1
  exact (Option.some.inj h1).symm

/-- In a consistent store a live will is read from its own record, stored under
the key of its own fields, and that key is valid. -/
theorem live_record (env : Env B E S P) (hlaw : Lawful env) (s : KVStore B)
    (hs : Consistent env s) (id : GoString) (w : Will)
    (hget : GetWillByID env s id = some (Except.ok w)) (hlive : w.Status = lit "live") :
    s (env.GetWillKey id) = some (env.marshalWill w) ∧ env.GetWillKey id = ownKey env w ∧
      env.invalidKey (env.GetWillKey id) = false := by
  by_cases hk : env.invalidKey (env.GetWillKey id) = true
  · rw [GetWillByID_invalid env s id hk] at hget
    simp at hget
  · have hk' : env.invalidKey (env.GetWillKey id) = false := by simpa using hk
    rcases Option.eq_none_or_eq_some (s (env.GetWillKey id)) with hv | ⟨b, hv⟩
    · rw [GetWillByID_absent env s id hk' hv] at hget
      simp only [Option.some.injEq, Except.ok.injEq] at hget
      rw [← hget] at hlive
      exact absurd hlive zero_not_live
    · rw [GetWillByID_present env s id b hk' hv] at hget
      rcases Option.eq_none_or_eq_some (env.unmarshalWill b) with hu | ⟨w', hu⟩
      · rw [hu] at hget; simp at hget
      · rw [hu] at hget
        simp only [Option.map_some', Option.some.injEq, Except.ok.injEq] at hget
        subst hget
        rcases hs _ _ hv with ⟨w0, hb, hk0⟩ | ⟨l, hb⟩
        · rw [hb, hlaw.willRoundTrip] at hu
          have := Option.some.inj hu
          subst this
          exact ⟨by rw [hv, hb], hk0, hk'⟩
        · rw [hb] at hu
          exact absurd hlive (hlaw.idsNotLive l _ hu)

/-! ## The will loop -/

theorem ExecuteTransfer_extends (host : Host) (calls : List Call) (c : ExecutionComponent)
    (w : Will) (r : Option Err × List Call) (h : ExecuteTransfer host calls c w = some r) :
    calls <+: r.2 := by
  unfold ExecuteTransfer at h
  split at h
  · split at h
    · simp at h
    · split at h
      · simp only [Option.some.injEq] at h; subst h; exact List.prefix_refl _
      · split at h
        · simp only [Option.some.injEq] at h; subst h; exact List.prefix_refl _
        · simp only at h
          split at h
          · simp only [Option.some.injEq] at h; subst h; exact List.prefix_append _ _
          · simp only [Option.some.injEq] at h; subst h
            simp only [List.append_assoc]
            exact List.prefix_append _ _
  · simp only [Option.some.injEq] at h; subst h; exact List.prefix_refl _

theorem ExecuteContract_extends (host : Host) (calls : List Call) (c : ContractComponent) :
    calls <+: (ExecuteContract host calls c).2 := by
  unfold ExecuteContract
  simp only
  split <;> exact List.prefix_append _ _

theorem SendIBCMessage_extends (host : Host) (calls : List Call) (ch po : GoString)
    (data : Bytes) : calls <+: (SendIBCMessage host calls ch po data).2 := by
  unfold SendIBCMessage
  simp only
  split
  · exact List.prefix_append _ _
  · split
    · simp only [List.append_assoc]; exact List.prefix_append _ _
    · split <;> (simp only [List.append_assoc]; exact List.prefix_append _ _)

/-- The transfer case of the component loop is the call of `ExecuteTransfer`
with its error dropped: the nil amount that stops the printing stops
`ExecuteTransfer` as well. -/
theorem runComponent_transfer_eq (host : Host) (w : Will) (calls : List Call)
    (c : ExecutionComponent) (t : TransferComponent)
    (hty : c.ComponentType = ComponentType.transfer t) :
    runComponent host w calls c
      = (ExecuteTransfer host calls c w).map
          (fun r => ({ c with Status := lit "executed" }, r.2)) := by
  unfold runComponent
  rw [hty]
  simp only
  rcases ha : t.Amount with _ | a
  · simp only
    unfold ExecuteTransfer amountCoins
    rw [hty]
    simp only [ha, Option.map_none']
  · simp only
    cases ExecuteTransfer host calls c w <;> rfl

theorem runComponent_extends (host : Host) (w : Will) (calls : List Call)
    (c : ExecutionComponent) (r : ExecutionComponent × List Call)
    (h : runComponent host w calls c = some r) : calls <+: r.2 := by
  unfold runComponent at h
  split at h
  · split at h
    · simp at h
    · split at h
      · simp at h
      · rename_i r' hr
        simp only [Option.some.injEq] at h; subst h
        exact ExecuteTransfer_extends host calls c w r' hr
  · simp only [Option.some.injEq] at h; subst h; exact List.prefix_refl _
  · simp only at h
    split at h <;>
      (simp only [Option.some.injEq] at h; subst h; exact ExecuteContract_extends host calls _)
  · simp only [Option.some.injEq] at h; subst h
    exact SendIBCMessage_extends host calls _ _ _
  · simp only [Option.some.injEq] at h; subst h; exact List.prefix_refl _

theorem runComponents_extends (host : Host) (w : Will) (cs : List ExecutionComponent) :
    ∀ (calls : List Call) (r : List ExecutionComponent × List Call),
      runComponents host w calls cs = some r → calls <+: r.2 := by
  induction cs with
  | nil =>
    intro calls r h
    simp only [runComponents, Option.some.injEq] at h
    subst h; exact List.prefix_refl _
  | cons c rest ih =>
    intro calls r h
    unfold runComponents at h
    split at h
    · simp at h
    · rename_i r1 h1
      split at h
      · simp at h
      · rename_i rs hrs
        simp only [Option.some.injEq] at h; subst h
        exact (runComponent_extends host w calls c r1 h1).trans (ih _ rs hrs)

theorem RunChange.refl (env : Env B E S P) (s : KVStore B) : RunChange env s s :=
  fun _ => Or.inl rfl

theorem RunChange.settled {env : Env B E S P} (hlaw : Lawful env) {s s1 : KVStore B}
    (hc : RunChange env s s1) (id : GoString) (h : Settled env s id) : Settled env s1 id := by
  rcases hc (env.GetWillKey id) with heq | ⟨w, w1, -, -, -, h1, hexp⟩
  · rw [Settled, GetWillByID_congr env s1 s id id rfl heq]
    exact h
  · by_cases hk : env.invalidKey (env.GetWillKey id) = true
    · exact ⟨_, GetWillByID_invalid env s1 id hk, by intro w hw; simp at hw⟩
    · have hk' : env.invalidKey (env.GetWillKey id) = false := by simpa using hk
      refine ⟨_, GetWillByID_of_record env hlaw s1 id w1 hk' h1, ?_⟩
      intro w' hw'
      simp only [Except.ok.injEq] at hw'
      subst hw'
      rw [hexp]
      exact expired_ne_live

theorem storeSet_valid (env : Env B E S P) (s : KVStore B) (key : Bytes) (v : B)
    (hk : env.invalidKey key = false) :
    storeSet env s key v = (fun k => if k = key then some v else s k, false) := by
  unfold storeSet; simp [hk]

/-- The run of the will loop on a consistent store meets `RunSpec`. -/
theorem processWills_run {env : Env B E S P} (hlaw : Lawful env) (host : Host)
    (ids : List GoString) :
    ∀ (s : KVStore B) (calls : List Call) (e : Option Err) (s1 : KVStore B)
      (calls1 : List Call),
      Consistent env s → processWills env host ids s calls = some (e, s1, calls1) →
      RunSpec env host ids s calls e s1 calls1 := by
  induction ids with
  | nil =>
    intro s calls e s1 calls1 _ h
    simp only [processWills, Option.some.injEq, Prod.mk.injEq] at h
    obtain ⟨rfl, rfl, rfl⟩ := h
    exact ⟨rfl, List.prefix_refl _, RunChange.refl env _, by simp, by simp⟩
  | cons id rest ih =>
    intro s calls e s1 calls1 hs h
    -- a step that skips the head id
    have skip : processWills env host rest s calls = some (e, s1, calls1) →
        Settled env s id →
        (∀ w, GetWillByID env s id = some (Except.ok w) → w.Status ≠ lit "live") →
        RunSpec env host (id :: rest) s calls e s1 calls1 := fun h' hset hnl => by
      obtain ⟨he, hp, hc, hsett, hrun⟩ := ih s calls e s1 calls1 hs h'
      refine ⟨he, hp, hc, ?_, ?_⟩
      · intro id' hid'
        rcases List.mem_cons.1 hid' with rfl | hm
        · exact hc.settled hlaw _ hset
        · exact hsett id' hm
      · intro id' hid' w hget hlive
        rcases List.mem_cons.1 hid' with rfl | hm
        · exact absurd hlive (hnl w hget)
        · exact hrun id' hm w hget hlive
    unfold processWills at h
    split at h
    · simp at h
    · rename_i err hget
      exact skip h ⟨_, hget, by intro w hw; simp at hw⟩ (by intro w hw; rw [hget] at hw; simp at hw)
    · rename_i will hget
      split at h
      · rename_i hnl
        refine skip h ⟨_, hget, ?_⟩ ?_
        · intro w hw
          simp only [Except.ok.injEq] at hw
          subst hw; exact hnl
        · intro w hw
          rw [hget] at hw
          simp only [Option.some.injEq, Except.ok.injEq] at hw
          subst hw; exact hnl
      · rename_i hlive'
        have hlive : will.Status = lit "live" := by simpa using hlive'
        obtain ⟨hrec, hown, hvalid⟩ := live_record env hlaw s hs id will hget hlive
        split at h
        · simp at h
        · rename_i rs hrs
          have hkey : env.GetWillKey (idString will.Creator will.Name will.Beneficiary
              will.Height) = env.GetWillKey id := hown.symm
          change (if (storeSet env s (env.GetWillKey (idString will.Creator will.Name
              will.Beneficiary will.Height)) (env.marshalWill (expireWith will rs.1))).2 = true
            then _ else processWills env host rest (storeSet env s (env.GetWillKey
              (idString will.Creator will.Name will.Beneficiary will.Height))
              (env.marshalWill (expireWith will rs.1))).1 rs.2) = _ at h
          rw [hkey, storeSet_valid env s _ _ hvalid] at h
          simp only [Bool.false_eq_true, if_false] at h
          have hs' : Consistent env (fun k => if k = env.GetWillKey id then
              some (env.marshalWill (expireWith will rs.1)) else s k) := by
            have := hs.set_will (expireWith will rs.1)
            have hk2 : ownKey env (expireWith will rs.1) = env.GetWillKey id := hown.symm
            rw [hk2, storeSet_valid env s _ _ hvalid] at this
            exact this
          obtain ⟨he, hp, hc, hsett, hrun⟩ := ih _ _ e s1 calls1 hs' h
          have hpre := runComponents_extends host will will.Components calls rs hrs
          -- the record written for the head id stays
          have hstay : s1 (env.GetWillKey id)
              = some (env.marshalWill (expireWith will rs.1)) := by
            rcases hc (env.GetWillKey id) with heq | ⟨w, w1, h0, hl, -, -, -⟩
            · rw [heq]; simp
            · simp only [if_true] at h0
              have := marshalWill_injective env hlaw _ _ (Option.some.inj h0)
              rw [← this] at hl
              exact absurd hl expired_ne_live
          refine ⟨he, hpre.trans hp, ?_, ?_, ?_⟩
          · intro k
            by_cases hk : k = env.GetWillKey id
            · subst hk
              exact Or.inr ⟨will, _, hrec, hlive, hown, hstay, rfl⟩
            · rcases hc k with heq | ⟨w, w1, h0, hl, ho, h1, hx⟩
              · left; rw [heq]; simp [hk]
              · right
                simp only [hk, if_false] at h0
                exact ⟨w, w1, h0, hl, ho, h1, hx⟩
          · intro id' hid'
            rcases List.mem_cons.1 hid' with rfl | hm
            · exact ⟨_, GetWillByID_of_record env hlaw s1 _ _ hvalid hstay, by
                intro w' hw'
                simp only [Except.ok.injEq] at hw'
                subst hw'
                exact expired_ne_live⟩
            · exact hsett id' hm
          · intro id' hid' w hgetw hlivew
            by_cases hk : env.GetWillKey id' = env.GetWillKey id
            · have hww : w = will := by
                have := GetWillByID_congr env s s id' id hk (by rw [hk])
                rw [hgetw, hget] at this
                simpa using this
              subst hww
              exact ⟨calls, rs, List.prefix_refl _, hp, hrs, by rw [hk]; exact hstay⟩
            · have hm : id' ∈ rest := by
                rcases List.mem_cons.1 hid' with rfl | hm
                · exact absurd rfl hk
                · exact hm
              have hget' : GetWillByID env (fun k => if k = env.GetWillKey id then
                  some (env.marshalWill (expireWith will rs.1)) else s k) id'
                  = some (Except.ok w) := by
                rw [← hgetw]
                exact GetWillByID_congr env _ s id' id' rfl (by simp [hk])
              obtain ⟨c0, rs', h1, h2, h3, h4⟩ := hrun id' hm w hget' hlivew
              exact ⟨c0, rs', hpre.trans h1, h2, h3, h4⟩

theorem toDigitsCore_digit (fuel : Nat) :
    ∀ (n : Nat) (ds : List Char) (c : Char), c ∈ Nat.toDigitsCore 10 fuel n ds →
      c ∈ ds ∨ ∃ d, d < 10 ∧ c = Nat.digitChar d := by
  induction fuel with
  | zero => intro n ds c h; exact Or.inl (by simpa [Nat.toDigitsCore] using h)
  | succ f ih =>
    intro n ds c h
    unfold Nat.toDigitsCore at h
    simp only at h
    split at h
    · rcases List.mem_cons.1 h with rfl | hm
      · exact Or.inr ⟨n % 10, Nat.mod_lt _ (by decide), rfl⟩
      · exact Or.inl hm
    · rcases ih _ _ c h with hm | hd
      · rcases List.mem_cons.1 hm with rfl | hm'
        · exact Or.inr ⟨n % 10, Nat.mod_lt _ (by decide), rfl⟩
        · exact Or.inl hm'
      · exact Or.inr hd

theorem digit_byte_ne_d : ∀ d, d < 10 → UInt8.ofNat (Nat.digitChar d).toNat ≠ 100 := by
  decide

theorem natDigits_ne_d (n : Nat) (x : UInt8) (h : x ∈ natDigits n) : x ≠ 100 := by
  unfold natDigits at h
  rcases List.mem_map.1 h with ⟨c, hc, rfl⟩
  unfold Nat.toDigits at hc
  rcases toDigitsCore_digit _ _ _ _ hc with hm | ⟨d, hd, rfl⟩
  · simp at hm
  · exact digit_byte_ne_d d hd

/-- The decimal string of a height has no byte 'd'. -/
theorem Itoa_ne_d (h : Int) (x : UInt8) (hx : x ∈ Itoa h) : x ≠ 100 := by
  cases h with
  | ofNat n => exact natDigits_ne_d n x hx
  | negSucc n =>
    simp only [Itoa] at hx
    rcases List.mem_cons.1 hx with rfl | hm
    · decide
    · exact natDigits_ne_d _ x hm

theorem hexEncode_mem (bs : Bytes) (x : UInt8) (h : x ∈ bs) :
    hexDigit (x.toNat % 16) ∈ hexEncode bs := by
  induction bs with
  | nil => simp at h
  | cons b rest ih =>
    rcases List.mem_cons.1 h with rfl | hm
    · simp [hexEncode]
    · simp [hexEncode, ih hm]

/-- A will id has the byte 'd': the second hex digit of a dash. -/
theorem idString_has_d (c n b : GoString) (h : Int) : (100 : UInt8) ∈ idString c n b h := by
  have h45 : (45 : UInt8) ∈ createWillId c n b h := by
    unfold createWillId
    have : lit "-" = [45] := by decide
    simp [this]
  have := hexEncode_mem _ _ h45
  have hd : hexDigit ((45 : UInt8).toNat % 16) = 100 := by decide
  rw [hd] at this
  exact this

/-- A will id is never the decimal string of a height, of its own or another. -/
theorem idString_ne_Itoa_any (c n b : GoString) (h h' : Int) : idString c n b h ≠ Itoa h' := by
  intro heq
  have := idString_has_d c n b h
  rw [heq] at this
  exact Itoa_ne_d h' _ this rfl

theorem processWills_settled (env : Env B E S P) (host : Host) (ids : List GoString) :
    ∀ (s : KVStore B) (calls : List Call), (∀ id ∈ ids, Settled env s id) →
      processWills env host ids s calls = some (none, s, calls) := by
  induction ids with
  | nil => intro s calls _; rfl
  | cons id rest ih =>
    intro s calls h
    obtain ⟨r, hr, hnl⟩ := h id (List.mem_cons_self _ _)
    have hrest := ih s calls (fun x hx => h x (List.mem_cons_of_mem _ hx))
    unfold processWills
    rw [hr]
    cases r with
    | error e => simpa using hrest
    | ok w =>
      have := hnl w rfl
      simp only [this, ne_eq, not_false_eq_true, if_true]
      exact hrest

theorem BeginBlocker_eq (env : Env B E S P) (host : Host) (s : KVStore B) (h : Int) :
    BeginBlocker env host s h =
      match heightIndex env s h with
      | none => some (none, s, [])
      | some ids => processWills env host ids s [] := by
  unfold BeginBlocker heightIndex storeGet
  by_cases hk : env.invalidKey (env.GetWillKey (Itoa h)) = true
  · simp [hk]
  · rcases Option.eq_none_or_eq_some (s (env.GetWillKey (Itoa h))) with hv | ⟨b, hv⟩
    · simp [hk, hv]
    · simp only [hk, hv, if_false]
      cases env.unmarshalIds b <;> rfl

theorem heightIndex_congr (env : Env B E S P) (s s' : KVStore B) (h : Int)
    (hv : s' (env.GetWillKey (Itoa h)) = s (env.GetWillKey (Itoa h))) :
    heightIndex env s' h = heightIndex env s h := by
  unfold heightIndex storeGet
  rw [hv]

theorem env0_lawful : Lawful env0 where
  keyInjective := fun _ _ hab => List.append_cancel_left hab
  willRoundTrip := fun _ => rfl
  idsNotLive := by
    intro l w h
    simp [env0] at h

theorem RunChange.heightIndex {env : Env B E S P} (hlaw : Lawful env) {s s1 : KVStore B}
    (hc : RunChange env s s1) (h : Int) : heightIndex env s1 h = heightIndex env s h := by
  apply heightIndex_congr
  rcases hc (env.GetWillKey (Itoa h)) with heq | ⟨w, w1, -, -, hk, -, -⟩
  · exact heq
  · exact absurd (hlaw.keyInjective hk).symm (idString_ne_Itoa_any _ _ _ _ _)

/-! ## The calls of the transfer primitive -/

theorem bankCall_transfer (host : Host) (w : Will) (c : ExecutionComponent)
    (t : TransferComponent) (ht : c.ComponentType = ComponentType.transfer t) :
    bankCall host w c =
      match amountCoins host t, host.accAddressFromBech32 w.Creator,
        host.accAddressFromBech32 t.To with
      | some coins, some fromAddr, some toAddr => some (Call.sendCoins fromAddr toAddr coins)
      | _, _, _ => none := by
  simp only [bankCall, ht]

theorem ExecuteTransfer_sends (host : Host) (calls : List Call) (c : ExecutionComponent)
    (w : Will) (r : Option Err × List Call) (h : ExecuteTransfer host calls c w = some r) :
    r.2.filter Call.isSendCoins
      = calls.filter Call.isSendCoins ++ (bankCall host w c).toList := by
  unfold ExecuteTransfer at h
  split at h
  · rename_i t ht
    rw [bankCall_transfer host w c t ht]
    rcases Option.eq_none_or_eq_some (amountCoins host t) with hc | ⟨coins, hc⟩
    · simp [hc] at h
    · rcases Option.eq_none_or_eq_some (host.accAddressFromBech32 w.Creator)
        with hf | ⟨fromAddr, hf⟩
      · simp only [hc, hf, Option.some.injEq] at h
        subst h
        simp [hc, hf]
      · rcases Option.eq_none_or_eq_some (host.accAddressFromBech32 t.To)
          with hto | ⟨toAddr, hto⟩
        · simp only [hc, hf, hto, Option.some.injEq] at h
          subst h
          simp [hc, hf, hto]
        · simp only [hc, hf, hto] at h
          split at h
          · simp only [Option.some.injEq] at h
            subst h
            simp [Call.isSendCoins, hc, hf, hto]
          · simp only [Option.some.injEq] at h
            subst h
            simp [Call.isSendCoins, hc, hf, hto]
  · rename_i hnt
    simp only [Option.some.injEq] at h
    subst h
    unfold bankCall
    split
    · rename_i t ht
      exact absurd ht (hnt t)
    · simp

theorem runComponent_sends (host : Host) (w : Will) (calls : List Call)
    (c : ExecutionComponent) (r : ExecutionComponent × List Call)
    (h : runComponent host w calls c = some r) :
    r.2.filter Call.isSendCoins
      = calls.filter Call.isSendCoins ++ (bankCall host w c).toList := by
  unfold runComponent at h
  split at h
  · split at h
    · simp at h
    · split at h
      · simp at h
      · rename_i r' hr
        simp only [Option.some.injEq] at h; subst h
        exact ExecuteTransfer_sends host calls c w r' hr
  · rename_i sch hty
    simp only [Option.some.injEq] at h; subst h
    simp [bankCall, hty]
  · rename_i cc hty
    have hb : bankCall host w c = none := by simp [bankCall, hty]
    have he : (ExecuteContract host calls cc).2.filter Call.isSendCoins
        = calls.filter Call.isSendCoins := by
      unfold ExecuteContract
      simp only
      split <;> simp [Call.isSendCoins]
    simp only at h
    split at h <;>
      (simp only [Option.some.injEq] at h; subst h; simp [hb, he])
  · rename_i m hty
    have hb : bankCall host w c = none := by simp [bankCall, hty]
    have he : (SendIBCMessage host calls devChannelID devPortID devData).2.filter
        Call.isSendCoins = calls.filter Call.isSendCoins := by
      unfold SendIBCMessage
      simp only
      split
      · simp [Call.isSendCoins]
      · split
        · simp [Call.isSendCoins]
        · split <;> simp [Call.isSendCoins]
    simp only [Option.some.injEq] at h; subst h
    simp [hb, he]
  · rename_i hty
    simp only [Option.some.injEq] at h; subst h
    simp [bankCall, hty]

theorem runComponents_sends (host : Host) (w : Will) (cs : List ExecutionComponent) :
    ∀ (calls : List Call) (rs : List ExecutionComponent × List Call),
      runComponents host w calls cs = some rs →
      rs.2.filter Call.isSendCoins
        = calls.filter Call.isSendCoins ++ cs.filterMap (bankCall host w) := by
  induction cs with
  | nil =>
    intro calls rs h
    simp only [runComponents, Option.some.injEq] at h
    subst h; simp
  | cons c rest ih =>
    intro calls rs h
    unfold runComponents at h
    split at h
    · simp at h
    · rename_i r1 h1
      split at h
      · simp at h
      · rename_i rs' hrs
        simp only [Option.some.injEq] at h; subst h
        simp only
        rw [ih _ rs' hrs, runComponent_sends host w calls c r1 h1, List.append_assoc]
        congr 1
        cases hb : bankCall host w c <;> simp [List.filterMap_cons, hb]

theorem runComponent_transfer_status (host : Host) (w : Will) (calls : List Call)
    (c : ExecutionComponent) (t : TransferComponent) (r : ExecutionComponent × List Call)
    (hty : c.ComponentType = ComponentType.transfer t)
    (h : runComponent host w calls c = some r) :
    r.1 = { c with Status := lit "executed" } := by
  unfold runComponent at h
  split at h
  · split at h
    · simp at h
    · split at h
      · simp at h
      · simp only [Option.some.injEq] at h; subst h; rfl
  · rename_i hh; rw [hty] at hh; simp at hh
  · rename_i hh; rw [hty] at hh; simp at hh
  · rename_i hh; rw [hty] at hh; simp at hh
  · rename_i hh; rw [hty] at hh; simp at hh

theorem runComponents_transfer_status (host : Host) (w : Will)
    (cs : List ExecutionComponent) :
    ∀ (calls : List Call) (rs : List ExecutionComponent × List Call),
      runComponents host w calls cs = some rs →
      ∀ i c t, cs.get? i = some c → c.ComponentType = ComponentType.transfer t →
        rs.1.get? i = some { c with Status := lit "executed" } := by
  induction cs with
  | nil => intro calls rs _ i c t hi; simp at hi
  | cons c0 rest ih =>
    intro calls rs h i c t hi hty
    unfold runComponents at h
    split at h
    · simp at h
    · rename_i r1 h1
      split at h
      · simp at h
      · rename_i rs' hrs
        simp only [Option.some.injEq] at h; subst h
        cases i with
        | zero =>
          simp only [List.get?_cons_zero, Option.some.injEq] at hi
          subst hi
          simp only [List.get?_cons_zero, Option.some.injEq]
          exact runComponent_transfer_status host w calls _ t r1 hty h1
        | succ n =>
          simp only [List.get?_cons_succ] at hi ⊢
          exact ih _ rs' hrs n c t hi hty

theorem traceOf_sends (host : Host) (ws : List Will) :
    ∀ (calls calls1 : List Call), traceOf host ws calls = some calls1 →
      calls1.filter Call.isSendCoins
        = calls.filter Call.isSendCoins
          ++ ws.flatMap (fun w => w.Components.filterMap (bankCall host w)) := by
  induction ws with
  | nil =>
    intro calls calls1 h
    simp only [traceOf, Option.some.injEq] at h
    subst h; simp
  | cons w rest ih =>
    intro calls calls1 h
    unfold traceOf at h
    split at h
    · simp at h
    · rename_i rs hrs
      rw [ih _ _ h, runComponents_sends host w _ calls rs hrs]
      simp [List.flatMap_cons]

theorem processWills_skip (env : Env B E S P) (host : Host) (id : GoString)
    (rest : List GoString) (s : KVStore B) (calls : List Call) (h : Settled env s id) :
    processWills env host (id :: rest) s calls = processWills env host rest s calls := by
  obtain ⟨r, hr, hnl⟩ := h
  rw [processWills, hr]
  cases r with
  | error e => rfl
  | ok w => simp only [hnl w rfl, ne_eq, not_false_eq_true, if_true]

/-- The calls of a run of the will loop are the calls of running, one after the
other, the components of the live wills of the listed ids. -/
theorem processWills_trace {env : Env B E S P} (hlaw : Lawful env) (host : Host)
    (s0 : KVStore B) (ids : List GoString) :
    ∀ (s : KVStore B) (calls : List Call) (seen : List GoString) (e : Option Err)
      (s1 : KVStore B) (calls1 : List Call),
      Consistent env s → (∀ id ∈ seen, Settled env s id) →
      (∀ id, id ∉ seen → s (env.GetWillKey id) = s0 (env.GetWillKey id)) →
      processWills env host ids s calls = some (e, s1, calls1) →
      traceOf host (liveWills env s0 ids seen) calls = some calls1 := by
  induction ids with
  | nil =>
    intro s calls seen e s1 calls1 _ _ _ h
    simp only [processWills, Option.some.injEq, Prod.mk.injEq] at h
    simp [liveWills, traceOf, h.2.2]
  | cons id rest ih =>
    intro s calls seen e s1 calls1 hs hseen hsame h
    by_cases hin : id ∈ seen
    · rw [processWills_skip env host id rest s calls (hseen id hin)] at h
      simp only [liveWills, hin, if_true]
      exact ih s calls seen e s1 calls1 hs hseen hsame h
    · have hg : GetWillByID env s id = GetWillByID env s0 id :=
        GetWillByID_congr env s s0 id id rfl (hsame id hin)
      simp only [liveWills, hin, if_false]
      unfold processWills at h
      split at h
      · simp at h
      · rename_i err hget
        rw [← hg, hget]
        exact ih s calls seen e s1 calls1 hs hseen hsame h
      · rename_i will hget
        rw [← hg, hget]
        simp only
        split at h
        · rename_i hnl
          simp only [ne_eq] at hnl
          simp only [hnl, if_false]
          exact ih s calls seen e s1 calls1 hs hseen hsame h
        · rename_i hlive'
          have hlive : will.Status = lit "live" := by simpa using hlive'
          simp only [hlive, if_true]
          obtain ⟨hrec, hown, hvalid⟩ := live_record env hlaw s hs id will hget hlive
          split at h
          · simp at h
          · rename_i rs hrs
            have hkey : env.GetWillKey (idString will.Creator will.Name will.Beneficiary
                will.Height) = env.GetWillKey id := hown.symm
            change (if (storeSet env s (env.GetWillKey (idString will.Creator will.Name
                will.Beneficiary will.Height)) (env.marshalWill (expireWith will rs.1))).2
                = true
              then _ else processWills env host rest (storeSet env s (env.GetWillKey
                (idString will.Creator will.Name will.Beneficiary will.Height))
                (env.marshalWill (expireWith will rs.1))).1 rs.2) = _ at h
            rw [hkey, storeSet_valid env s _ _ hvalid] at h
            simp only [Bool.false_eq_true, if_false] at h
            have hs' : Consistent env (fun k => if k = env.GetWillKey id then
                some (env.marshalWill (expireWith will rs.1)) else s k) := by
              have := hs.set_will (expireWith will rs.1)
              have hk2 : ownKey env (expireWith will rs.1) = env.GetWillKey id := hown.symm
              rw [hk2, storeSet_valid env s _ _ hvalid] at this
              exact this
            simp only [traceOf, hrs]
            refine ih _ rs.2 (id :: seen) e s1 calls1 hs' ?_ ?_ h
            · intro id' hid'
              by_cases hk : env.GetWillKey id' = env.GetWillKey id
              · refine ⟨_, GetWillByID_of_record env hlaw _ id' (expireWith will rs.1)
                  (by rw [hk]; exact hvalid) (by simp [hk]), ?_⟩
                intro w' hw'
                simp only [Except.ok.injEq] at hw'
                subst hw'
                exact expired_ne_live
              · have hm : id' ∈ seen := by
                  rcases List.mem_cons.1 hid' with rfl | hm
                  · exact absurd rfl hk
                  · exact hm
                obtain ⟨r, hr, hnl⟩ := hseen id' hm
                refine ⟨r, ?_, hnl⟩
                rw [← hr]
                exact GetWillByID_congr env _ s id' id' rfl (by simp [hk])
            · intro id' hid'
              have hne : id' ≠ id := fun hh => hid' (hh ▸ List.mem_cons_self _ _)
              have hk : env.GetWillKey id' ≠ env.GetWillKey id :=
                fun hh => hne (hlaw.keyInjective hh)
              have hns : id' ∉ seen := fun hh => hid' (List.mem_cons_of_mem _ hh)
              simp only [hk, if_false]
              exact hsame id' hns

theorem liveWills_mem (env : Env B E S P) (s : KVStore B) (ids : List GoString) :
    ∀ (seen : List GoString) (w : Will),
      w ∈ liveWills env s ids seen ↔
        ∃ id ∈ ids, id ∉ seen ∧ GetWillByID env s id = some (Except.ok w) ∧
          w.Status = lit "live" := by
  induction ids with
  | nil => intro seen w; simp [liveWills]
  | cons id rest ih =>
    intro seen w
    by_cases hin : id ∈ seen
    · simp only [liveWills, hin, if_true, ih]
      constructor
      · rintro ⟨id', hm, hr⟩
        exact ⟨id', List.mem_cons_of_mem _ hm, hr⟩
      · rintro ⟨id', hm, hns, hr⟩
        rcases List.mem_cons.1 hm with rfl | hm'
        · exact absurd hin hns
        · exact ⟨id', hm', hns, hr⟩
    · simp only [liveWills, hin, if_false]
      rcases hget : GetWillByID env s id with _ | r
      · simp only [ih]
        constructor
        · rintro ⟨id', hm, hr⟩
          exact ⟨id', List.mem_cons_of_mem _ hm, hr⟩
        · rintro ⟨id', hm, hns, hg, hl⟩
          rcases List.mem_cons.1 hm with rfl | hm'
          · rw [hget] at hg; simp at hg
          · exact ⟨id', hm', hns, hg, hl⟩
      · cases r with
        | error e =>
          simp only [ih]
          constructor
          · rintro ⟨id', hm, hr⟩
            exact ⟨id', List.mem_cons_of_mem _ hm, hr⟩
          · rintro ⟨id', hm, hns, hg, hl⟩
            rcases List.mem_cons.1 hm with rfl | hm'
            · rw [hget] at hg; simp at hg
            · exact ⟨id', hm', hns, hg, hl⟩
        | ok w0 =>
          simp only
          by_cases hl0 : w0.Status = lit "live"
          · simp only [hl0, if_true, List.mem_cons, ih]
            constructor
            · rintro (rfl | ⟨id', hm, hns, hr⟩)
              · exact ⟨id, Or.inl rfl, hin, hget, hl0⟩
              · exact ⟨id', Or.inr hm, fun hh => hns (Or.inr hh), hr⟩
            · rintro ⟨id', hm, hns, hg, hl⟩
              rcases hm with rfl | hm'
              · rw [hget] at hg
                simp only [Option.some.injEq, Except.ok.injEq] at hg
                exact Or.inl hg.symm
              · by_cases hii : id' = id
                · subst hii
                  rw [hget] at hg
                  simp only [Option.some.injEq, Except.ok.injEq] at hg
                  exact Or.inl hg.symm
                · right
                  refine ⟨id', hm', ?_, hg, hl⟩
                  intro hh
                  rcases hh with h1 | h1
                  · exact hii h1
                  · exact hns h1
          · simp only [hl0, if_false, ih]
            constructor
            · rintro ⟨id', hm, hr⟩
              exact ⟨id', List.mem_cons_of_mem _ hm, hr⟩
            · rintro ⟨id', hm, hns, hg, hl⟩
              rcases List.mem_cons.1 hm with rfl | hm'
              · rw [hget] at hg
                simp only [Option.some.injEq, Except.ok.injEq] at hg
                subst hg
                exact absurd hl hl0
              · exact ⟨id', hm', hns, hg, hl⟩

theorem liveWills_nodup {env : Env B E S P} (hlaw : Lawful env) (s : KVStore B)
    (hs : Consistent env s) (ids : List GoString) :
    ∀ seen : List GoString, (liveWills env s ids seen).Nodup := by
  induction ids with
  | nil => intro seen; simp [liveWills]
  | cons id rest ih =>
    intro seen
    by_cases hin : id ∈ seen
    · simp only [liveWills, hin, if_true]; exact ih seen
    · simp only [liveWills, hin, if_false]
      rcases hget : GetWillByID env s id with _ | r
      · exact ih seen
      · cases r with
        | error e => exact ih seen
        | ok w0 =>
          simp only
          by_cases hl0 : w0.Status = lit "live"
          · simp only [hl0, if_true]
            refine List.nodup_cons.2 ⟨?_, ih _⟩
            intro hmem
            obtain ⟨id', -, hns, hg, hl⟩ := (liveWills_mem env s rest _ w0).1 hmem
            have h1 := (live_record env hlaw s hs id w0 hget hl0).2.1
            have h2 := (live_record env hlaw s hs id' w0 hg hl).2.1
            have : id' = id := hlaw.keyInjective (h2.trans h1.symm)
            exact hns (this ▸ List.mem_cons_self _ _)
          · simp only [hl0, if_false]; exact ih seen

theorem runComponent_coins (host : Host) (w : Will) (calls : List Call)
    (c : ExecutionComponent) (t : TransferComponent) (r : ExecutionComponent × List Call)
    (hty : c.ComponentType = ComponentType.transfer t)
    (h : runComponent host w calls c = some r) :
    ∃ coins, amountCoins host t = some coins := by
  rw [runComponent_transfer_eq host w calls c t hty] at h
  rcases Option.eq_none_or_eq_some (amountCoins host t) with hc | ⟨coins, hc⟩
  · unfold ExecuteTransfer at h
    rw [hty] at h
    simp [hc] at h
  · exact ⟨coins, hc⟩

theorem runComponents_coins (host : Host) (w : Will) (cs : List ExecutionComponent) :
    ∀ (calls : List Call) (rs : List ExecutionComponent × List Call),
      runComponents host w calls cs = some rs →
      ∀ i c t, cs.get? i = some c → c.ComponentType = ComponentType.transfer t →
        ∃ coins, amountCoins host t = some coins := by
  induction cs with
  | nil => intro calls rs _ i c t hi; simp at hi
  | cons c0 rest ih =>
    intro calls rs h i c t hi hty
    unfold runComponents at h
    split at h
    · simp at h
    · rename_i r1 h1
      split at h
      · simp at h
      · rename_i rs' hrs
        cases i with
        | zero =>
          simp only [List.get?_cons_zero, Option.some.injEq] at hi
          subst hi
          exact runComponent_coins host w calls _ t r1 hty h1
        | succ n =>
          simp only [List.get?_cons_succ] at hi
          exact ih _ rs' hrs n c t hi hty

/-! ## Pedersen claims -/

theorem getPedersen_eq_some (c : ExecutionComponent) (spec : PedersenSpec) :
    getPedersen c = some spec ↔
      c.ComponentType = ComponentType.claim (SchemeType.pedersen spec) := by
  unfold getPedersen
  split
  · rename_i sp h; rw [h]; simp
  · rename_i h
    constructor
    · intro hh; simp at hh
    · intro hh; exact absurd hh (h spec)

theorem setStatusAt_get (cs : List ExecutionComponent) (i : Nat) (c : ExecutionComponent)
    (st : GoString) (h : cs.get? i = some c) :
    (setStatusAt cs i st).get? i = some { c with Status := st } := by
  induction cs generalizing i with
  | nil => simp at h
  | cons x xs ih =>
    cases i with
    | zero => simp at h; subst h; rfl
    | succ n =>
      have h' : xs.get? n = some c := by simpa using h
      simpa [setStatusAt] using ih n h' 

theorem updateWillStatusAndStore_ok (env : Env B E S P)
    (hcodec : ∀ w, env.unmarshalWill (env.marshalWill w) = some w)
    (s : KVStore B) (w : Will) (hk : env.invalidKey (ownKey env w) = false) :
    (updateWillStatusAndStore env s w).2 = none ∧
      GetWillByID env (updateWillStatusAndStore env s w).1
          (idString w.Creator w.Name w.Beneficiary w.Height) = some (Except.ok w) := by
  unfold ownKey at hk
  unfold updateWillStatusAndStore GetWillByID storeGet storeSet
  simp [hk, hcodec]

theorem updateWillStatusAndStore_fail (env : Env B E S P) (s : KVStore B) (w : Will)
    (hk : env.invalidKey (ownKey env w) = true) :
    updateWillStatusAndStore env s w = (s, some Err.storeSet) := by
  unfold ownKey at hk
  unfold updateWillStatusAndStore storeSet
  simp [hk, errorsWrap]

theorem processPedersenClaim_cases (env : Env B E S P) (s : KVStore B) (will : Will)
    (i : Nat) (c : ExecutionComponent) (claim : PedersenClaim) :
    (getPedersen c = none →
      processPedersenClaim env s will i c claim = (s, some Err.pedersenNotFound)) ∧
    (∀ spec, getPedersen c = some spec →
      (env.ristrettoUnmarshal spec.Commitment = none →
        processPedersenClaim env s will i c claim = (s, some Err.deserializeStored)) ∧
      (∀ a, env.ristrettoUnmarshal spec.Commitment = some a →
        (env.ristrettoUnmarshal claim.Commitment = none →
          processPedersenClaim env s will i c claim = (s, some Err.deserializeClaimed)) ∧
        (∀ b, env.ristrettoUnmarshal claim.Commitment = some b →
          (env.ristrettoUnmarshal spec.TargetCommitment = none →
            processPedersenClaim env s will i c claim = (s, some Err.deserializeTarget)) ∧
          (∀ t, env.ristrettoUnmarshal spec.TargetCommitment = some t →
            (env.ristrettoEquals (env.ristrettoAdd a b) t = false →
              processPedersenClaim env s will i c claim
                = (s, some Err.commitmentVerificationFailed)) ∧
            (env.ristrettoEquals (env.ristrettoAdd a b) t = true →
              processPedersenClaim env s will i c claim
                = updateWillStatusAndStore env s (markClaimed will i)))))) := by
  unfold processPedersenClaim DeserializeCommitment AddCommitments
  refine ⟨fun h => by simp [h], fun spec hs => ⟨fun h => by simp [hs, h], fun a ha =>
    ⟨fun h => by simp [hs, ha, h], fun b hb => ⟨fun h => by simp [hs, ha, hb, h], fun t ht =>
      ⟨fun h => by simp [hs, ha, hb, ht, h], fun h => by simp [hs, ha, hb, ht, h]⟩⟩⟩⟩⟩

theorem runComponent_claim (host : Host) (w : Will) (calls : List Call)
    (c : ExecutionComponent) (sch : SchemeType)
    (hty : c.ComponentType = ComponentType.claim sch) :
    runComponent host w calls c = some ({ c with Status := lit "active" }, calls) := by
  unfold runComponent
  rw [hty]

theorem runComponent_contract (host : Host) (w : Will) (calls : List Call)
    (c : ExecutionComponent) (cc : ContractComponent)
    (hty : c.ComponentType = ComponentType.contract cc) :
    runComponent host w calls c
      = some (if (ExecuteContract host calls cc).1 = none
          then { c with Status := lit "executed" } else c,
        (ExecuteContract host calls cc).2) := by
  unfold runComponent
  rw [hty]
  simp only
  cases (ExecuteContract host calls cc).1 <;> simp

theorem runComponent_returns (host : Host) (w : Will) (calls : List Call)
    (c : ExecutionComponent)
    (hcoin : ∀ t, c.ComponentType = ComponentType.transfer t →
      amountCoins host t ≠ none) :
    ∃ r, runComponent host w calls c = some r := by
  cases hty : c.ComponentType with
  | transfer t =>
    have hc := hcoin t hty
    rcases Option.eq_none_or_eq_some (amountCoins host t) with h0 | ⟨coins, h0⟩
    · exact absurd h0 hc
    · have : ∃ r, ExecuteTransfer host calls c w = some r := by
        unfold ExecuteTransfer
        rw [hty]
        simp only [h0]
        split
        · exact ⟨_, rfl⟩
        · split
          · exact ⟨_, rfl⟩
          · split <;> exact ⟨_, rfl⟩
      obtain ⟨r, hr⟩ := this
      rw [runComponent_transfer_eq host w calls c t hty, hr]
      exact ⟨_, rfl⟩
  | claim scheme => exact ⟨_, runComponent_claim host w calls c scheme hty⟩
  | contract cc => exact ⟨_, runComponent_contract host w calls c cc hty⟩
  | ibcMsg m =>
    unfold runComponent
    rw [hty]
    exact ⟨_, rfl⟩
  | unset =>
    unfold runComponent
    rw [hty]
    exact ⟨_, rfl⟩

theorem runComponents_returns (host : Host) (w : Will) (cs : List ExecutionComponent) :
    ∀ (calls : List Call),
      (∀ c ∈ cs, ∀ t, c.ComponentType = ComponentType.transfer t →
        amountCoins host t ≠ none) →
      ∃ rs, runComponents host w calls cs = some rs := by
  induction cs with
  | nil => intro calls _; exact ⟨_, rfl⟩
  | cons c rest ih =>
    intro calls hcoin
    obtain ⟨r, hr⟩ := runComponent_returns host w calls c
      (hcoin c (List.mem_cons_self _ _))
    obtain ⟨rs, hrs⟩ := ih r.2 (fun c' hc' => hcoin c' (List.mem_cons_of_mem _ hc'))
    exact ⟨(r.1 :: rs.1, rs.2), by rw [runComponents, hr]; simp only [hrs]⟩

/-- Each component of a run is the result of one pass of the component loop on
the component stored at the same place. -/
theorem runComponents_each (host : Host) (w : Will) (cs : List ExecutionComponent) :
    ∀ (c0 : List Call) (rs : List ExecutionComponent × List Call),
      runComponents host w c0 cs = some rs →
      rs.1.length = cs.length ∧
        ∀ i c, cs.get? i = some c →
          ∃ before r, c0 <+: before ∧ r.2 <+: rs.2 ∧
            runComponent host w before c = some r ∧ rs.1.get? i = some r.1 := by
  induction cs with
  | nil =>
    intro c0 rs h
    simp only [runComponents, Option.some.injEq] at h
    subst h
    exact ⟨rfl, by intro i c hi; simp at hi⟩
  | cons x rest ih =>
    intro c0 rs h
    unfold runComponents at h
    split at h
    · simp at h
    · rename_i r1 h1
      split at h
      · simp at h
      · rename_i rs' hrs
        simp only [Option.some.injEq] at h
        subst h
        obtain ⟨hlen, hrest⟩ := ih r1.2 rs' hrs
        refine ⟨by simp [hlen], ?_⟩
        intro i c hi
        cases i with
        | zero =>
          simp only [List.get?_cons_zero, Option.some.injEq] at hi
          subst hi
          exact ⟨c0, r1, List.prefix_refl _, runComponents_extends host w rest _ rs' hrs, h1,
            rfl⟩
        | succ n =>
          have hi' : rest.get? n = some c := by simpa using hi
          obtain ⟨before, r, hb, ha, hr, hg⟩ := hrest n c hi'
          exact ⟨before, r, (runComponent_extends host w c0 x r1 h1).trans hb, ha, hr,
            by simpa using hg⟩

/-- The will loop returns when every listed record decodes and every coin of a
listed live will is valid: on a consistent store these are the only panics. -/
theorem processWills_returns {env : Env B E S P} (hlaw : Lawful env) (host : Host)
    (ids : List GoString) :
    ∀ (s : KVStore B) (calls : List Call), Consistent env s →
      (∀ id ∈ ids, GetWillByID env s id ≠ none) →
      (∀ id ∈ ids, ∀ w, GetWillByID env s id = some (Except.ok w) → w.Status = lit "live" →
        ∀ c ∈ w.Components, ∀ t, c.ComponentType = ComponentType.transfer t →
          amountCoins host t ≠ none) →
      ∃ r, processWills env host ids s calls = some r := by
  induction ids with
  | nil => intro s calls _ _ _; exact ⟨_, rfl⟩
  | cons id rest ih =>
    intro s calls hs hdec hcoin
    have hdec' : ∀ id' ∈ rest, GetWillByID env s id' ≠ none :=
      fun id' h => hdec id' (List.mem_cons_of_mem _ h)
    have hcoin' : ∀ id' ∈ rest, ∀ w, GetWillByID env s id' = some (Except.ok w) →
        w.Status = lit "live" → ∀ c ∈ w.Components, ∀ t,
        c.ComponentType = ComponentType.transfer t → amountCoins host t ≠ none :=
      fun id' h => hcoin id' (List.mem_cons_of_mem _ h)
    rcases Option.eq_none_or_eq_some (GetWillByID env s id) with hget | ⟨r, hget⟩
    · exact absurd hget (hdec id (List.mem_cons_self _ _))
    · cases r with
      | error e =>
        rw [processWills, hget]
        exact ih s calls hs hdec' hcoin'
      | ok will =>
        by_cases hlive : will.Status = lit "live"
        · obtain ⟨hrec, hown, hvalid⟩ := live_record env hlaw s hs id will hget hlive
          obtain ⟨rs, hrs⟩ := runComponents_returns host will will.Components calls
            (hcoin id (List.mem_cons_self _ _) will hget hlive)
          have hkey : env.GetWillKey (idString will.Creator will.Name will.Beneficiary
              will.Height) = env.GetWillKey id := hown.symm
          have hstep : processWills env host (id :: rest) s calls
              = processWills env host rest (fun k => if k = env.GetWillKey id then
                  some (env.marshalWill (expireWith will rs.1)) else s k) rs.2 := by
            rw [processWills, hget]
            simp only [hlive, ne_eq, not_true_eq_false, if_false, hrs]
            change (if (storeSet env s (env.GetWillKey (idString will.Creator will.Name
                will.Beneficiary will.Height)) (env.marshalWill (expireWith will rs.1))).2
                = true
              then _ else processWills env host rest (storeSet env s (env.GetWillKey
                (idString will.Creator will.Name will.Beneficiary will.Height))
                (env.marshalWill (expireWith will rs.1))).1 rs.2) = _
            rw [hkey, storeSet_valid env s _ _ hvalid]
            simp only [Bool.false_eq_true, if_false]
          rw [hstep]
          have hs' : Consistent env (fun k => if k = env.GetWillKey id then
              some (env.marshalWill (expireWith will rs.1)) else s k) := by
            have := hs.set_will (expireWith will rs.1)
            have hk2 : ownKey env (expireWith will rs.1) = env.GetWillKey id := hown.symm
            rw [hk2, storeSet_valid env s _ _ hvalid] at this
            exact this
          refine ih _ rs.2 hs' ?_ ?_
          · intro id' hid'
            by_cases hk : env.GetWillKey id' = env.GetWillKey id
            · rw [GetWillByID_of_record env hlaw _ id' (expireWith will rs.1)
                (by rw [hk]; exact hvalid) (by simp [hk])]
              simp
            · rw [GetWillByID_congr env _ s id' id' rfl (by simp [hk])]
              exact hdec' id' hid'
          · intro id' hid' w hw hl
            by_cases hk : env.GetWillKey id' = env.GetWillKey id
            · rw [GetWillByID_of_record env hlaw _ id' (expireWith will rs.1)
                (by rw [hk]; exact hvalid) (by simp [hk])] at hw
              simp only [Option.some.injEq, Except.ok.injEq] at hw
              rw [← hw] at hl
              exact absurd hl expired_ne_live
            · rw [GetWillByID_congr env _ s id' id' rfl (by simp [hk])] at hw
              exact hcoin' id' hid' w hw hl
        · rw [processWills, hget]
          simp only [hlive, ne_eq, not_false_eq_true, if_true]
          exact ih s calls hs hdec' hcoin'

theorem storeSet_get (env : Env B E S P) (s : KVStore B) (key : Bytes) (v : B)
    (hk : env.invalidKey key = false) : (storeSet env s key v).1 key = some v := by
  rw [storeSet_valid env s key v hk]
  simp

theorem contains_append_self (l : List GoString) (x : GoString) :
    contains (l ++ [x]) x = true := by
  induction l with
  | nil => simp [contains]
  | cons a rest ih =>
    simp only [List.cons_append, contains]
    split
    · rfl
    · exact ih

/-- When `CreateWill` returns a will, the id list under the key of its height
is the list that was there with the new id appended at the end. -/
theorem CreateWill_appends (env : Env B E S P) (hkey : Function.Injective env.GetWillKey)
    (hids : ∀ l, env.unmarshalIds (env.marshalIds l) = some l)
    (s s' : KVStore B) (msg : MsgCreateWillRequest) (w : Will) (e : Option Err)
    (hvalid : env.invalidKey (env.GetWillKey (Itoa msg.Height)) = false)
    (h : CreateWill env s msg = some ((some w, e), s')) :
    ∃ old, readIds env (s (env.GetWillKey (Itoa msg.Height))) = some old ∧
      heightIndex env s' msg.Height = some (old ++ [w.ID]) := by
  unfold CreateWill at h
  simp only at h
  split at h
  · simp [errorsWrap] at h
  · rename_i hset
    simp only [Bool.not_eq_true] at hset
    split at h
    · simp at h
    · rename_i old hold
      split at h
      · simp at h
      · split at h
        · simp at h
        · rename_i idsC hC
          simp only [Option.some.injEq, Prod.mk.injEq] at h
          obtain ⟨⟨hw, -⟩, hs⟩ := h
          subst hw
          have k2 : env.GetWillKey (Itoa msg.Height)
              ≠ env.GetWillKey (idString msg.Creator msg.Name msg.Beneficiary msg.Height) :=
            fun hh => idString_ne_Itoa _ _ _ _ (hkey hh).symm
          have hg1 : (storeGet env (storeSet env s (env.GetWillKey (idString msg.Creator
              msg.Name msg.Beneficiary msg.Height)) (env.marshalWill
                { ID := idString msg.Creator msg.Name msg.Beneficiary msg.Height,
                  Creator := msg.Creator, Name := msg.Name, Beneficiary := msg.Beneficiary,
                  Height := msg.Height, Status := lit "live",
                  Components := msg.Components })).1 (env.GetWillKey (Itoa msg.Height))).1
              = s (env.GetWillKey (Itoa msg.Height)) := by
            unfold storeGet
            simp only [hvalid, Bool.false_eq_true, if_false]
            exact storeSet_other env _ _ _ _ k2
          rw [hg1] at hold
          refine ⟨old, hold, ?_⟩
          have hsame := storeSet_get env (storeSet env s (env.GetWillKey (idString msg.Creator
              msg.Name msg.Beneficiary msg.Height)) (env.marshalWill
                { ID := idString msg.Creator msg.Name msg.Beneficiary msg.Height,
                  Creator := msg.Creator, Name := msg.Name, Beneficiary := msg.Beneficiary,
                  Height := msg.Height, Status := lit "live",
                  Components := msg.Components })).1 (env.GetWillKey (Itoa msg.Height))
              (env.marshalIds (old ++ [idString msg.Creator msg.Name msg.Beneficiary
                msg.Height])) hvalid
          have hfin : s' (env.GetWillKey (Itoa msg.Height))
              = some (env.marshalIds (old ++ [idString msg.Creator msg.Name msg.Beneficiary
                msg.Height])) := by
            rw [← hs]
            by_cases hck : env.GetWillKey msg.Creator = env.GetWillKey (Itoa msg.Height)
            · rw [hck] at hC ⊢
              unfold storeGet at hC
              simp only [hvalid, Bool.false_eq_true, if_false] at hC
              rw [hsame] at hC
              simp only [readIds, hids, Option.some.injEq] at hC
              subst hC
              simp only [contains_append_self, Bool.not_true, Bool.false_eq_true, if_false]
              exact storeSet_get env _ _ _ hvalid
            · rw [storeSet_other env _ _ _ _ (Ne.symm hck)]
              exact hsame
          unfold heightIndex storeGet
          simp only [hvalid, Bool.false_eq_true, if_false, hfin, hids]

/-- The live wills taken from an id list come in the order of the list. -/
theorem liveWills_sublist {env : Env B E S P} (hlaw : Lawful env) (s : KVStore B)
    (hs : Consistent env s) (ids : List GoString) :
    ∀ seen : List GoString, ((liveWills env s ids seen).map ownId).Sublist ids := by
  induction ids with
  | nil => intro seen; simp [liveWills]
  | cons id rest ih =>
    intro seen
    by_cases hin : id ∈ seen
    · simp only [liveWills, hin, if_true]; exact (ih seen).cons _
    · simp only [liveWills, hin, if_false]
      rcases hget : GetWillByID env s id with _ | r
      · exact (ih seen).cons _
      · cases r with
        | error e => exact (ih seen).cons _
        | ok w0 =>
          simp only
          by_cases hl0 : w0.Status = lit "live"
          · simp only [hl0, if_true, List.map_cons]
            have h1 := (live_record env hlaw s hs id w0 hget hl0).2.1
            have : ownId w0 = id := (hlaw.keyInjective h1).symm
            rw [this]
            exact (ih _).cons₂ _
          · simp only [hl0, if_false]; exact (ih seen).cons _

/-- One step of the will loop on a live will of a consistent store: the will
is written back expired under the key it was read from, and the loop goes on. -/
theorem processWills_live_step {env : Env B E S P} (hlaw : Lawful env) (host : Host)
    (id : GoString) (rest : List GoString) (s : KVStore B) (calls : List Call)
    (hs : Consistent env s) (will : Will)
    (hget : GetWillByID env s id = some (Except.ok will)) (hlive : will.Status = lit "live")
    (rs : List ExecutionComponent × List Call)
    (hrs : runComponents host will calls will.Components = some rs) :
    processWills env host (id :: rest) s calls
        = processWills env host rest (fun k => if k = env.GetWillKey id then
            some (env.marshalWill (expireWith will rs.1)) else s k) rs.2 ∧
      Consistent env (fun k => if k = env.GetWillKey id then
        some (env.marshalWill (expireWith will rs.1)) else s k) := by
  obtain ⟨-, hown, hvalid⟩ := live_record env hlaw s hs id will hget hlive
  have hkey : env.GetWillKey (idString will.Creator will.Name will.Beneficiary
      will.Height) = env.GetWillKey id := hown.symm
  constructor
  · rw [processWills, hget]
    simp only [hlive, ne_eq, not_true_eq_false, if_false, hrs]
    change (if (storeSet env s (env.GetWillKey (idString will.Creator will.Name
        will.Beneficiary will.Height)) (env.marshalWill (expireWith will rs.1))).2
        = true
      then _ else processWills env host rest (storeSet env s (env.GetWillKey
        (idString will.Creator will.Name will.Beneficiary will.Height))
        (env.marshalWill (expireWith will rs.1))).1 rs.2) = _
    rw [hkey, storeSet_valid env s _ _ hvalid]
    simp only [Bool.false_eq_true, if_false]
  · have := hs.set_will (expireWith will rs.1)
    have hk2 : ownKey env (expireWith will rs.1) = env.GetWillKey id := hown.symm
    rw [hk2, storeSet_valid env s _ _ hvalid] at this
    exact this

/-- The will loop over a list in two parts is the loop over the first part
followed by the loop over the second. -/
theorem processWills_append {env : Env B E S P} (hlaw : Lawful env) (host : Host)
    (a b : List GoString) :
    ∀ (s : KVStore B) (calls : List Call), Consistent env s →
      processWills env host (a ++ b) s calls
        = match processWills env host a s calls with
          | none => none
          | some r => processWills env host b r.2.1 r.2.2 := by
  induction a with
  | nil => intro s calls _; simp [processWills]
  | cons id rest ih =>
    intro s calls hs
    rcases Option.eq_none_or_eq_some (GetWillByID env s id) with hget | ⟨r, hget⟩
    · simp only [List.cons_append, processWills, hget]
    · cases r with
      | error e =>
        simp only [List.cons_append, processWills, hget]
        exact ih s calls hs
      | ok will =>
        by_cases hlive : will.Status = lit "live"
        · rcases Option.eq_none_or_eq_some (runComponents host will calls will.Components)
            with hrs | ⟨rs, hrs⟩
          · simp only [List.cons_append, processWills, hget, hlive, ne_eq, not_true_eq_false,
              if_false, hrs]
          · obtain ⟨h1, hs'⟩ := processWills_live_step hlaw host id (rest ++ b) s calls hs
              will hget hlive rs hrs
            obtain ⟨h2, -⟩ := processWills_live_step hlaw host id rest s calls hs
              will hget hlive rs hrs
            rw [List.cons_append, h1, h2]
            exact ih _ _ hs'
        · simp only [List.cons_append, processWills, hget, hlive, ne_eq, not_false_eq_true,
            if_true]
          exact ih s calls hs

/-- A later occurrence of an id in the list adds nothing to the will loop. -/
theorem processWills_repeated {env : Env B E S P} (hlaw : Lawful env) (host : Host)
    (pre post : List GoString) (id : GoString) (hmem : id ∈ pre) (s : KVStore B)
    (calls : List Call) (hs : Consistent env s) :
    processWills env host (pre ++ id :: post) s calls
      = processWills env host (pre ++ post) s calls := by
  rw [processWills_append hlaw host pre (id :: post) s calls hs,
    processWills_append hlaw host pre post s calls hs]
  rcases Option.eq_none_or_eq_some (processWills env host pre s calls) with hp | ⟨r, hp⟩
  · rw [hp]
  · rw [hp]
    obtain ⟨e, s1, calls1⟩ := r
    obtain ⟨-, -, -, hsett, -⟩ := processWills_run hlaw host pre s calls e s1 calls1 hs hp
    exact processWills_skip env host id post s1 calls1 (hsett id hmem)

theorem zero_not_expired : Will.zero.Status ≠ lit "expired" := by decide

/-- In a consistent store an expired will is read from its own record, stored
under the key of its own fields, provided an id list is never read back as an
expired will. -/
theorem expired_record (env : Env B E S P) (hlaw : Lawful env)
    (hids : ∀ l w, env.unmarshalWill (env.marshalIds l) = some w → w.Status ≠ lit "expired")
    (s : KVStore B) (hs : Consistent env s) (id : GoString) (w : Will)
    (hget : GetWillByID env s id = some (Except.ok w)) (hexp : w.Status = lit "expired") :
    s (env.GetWillKey id) = some (env.marshalWill w) ∧ env.GetWillKey id = ownKey env w ∧
      env.invalidKey (env.GetWillKey id) = false := by
  by_cases hk : env.invalidKey (env.GetWillKey id) = true
  · rw [GetWillByID_invalid env s id hk] at hget
    simp at hget
  · have hk' : env.invalidKey (env.GetWillKey id) = false := by simpa using hk
    rcases Option.eq_none_or_eq_some (s (env.GetWillKey id)) with hv | ⟨b, hv⟩
    · rw [GetWillByID_absent env s id hk' hv] at hget
      simp only [Option.some.injEq, Except.ok.injEq] at hget
      rw [← hget] at hexp
      exact absurd hexp zero_not_expired
    · rw [GetWillByID_present env s id b hk' hv] at hget
      rcases Option.eq_none_or_eq_some (env.unmarshalWill b) with hu | ⟨w', hu⟩
      · rw [hu] at hget; simp at hget
      · rw [hu] at hget
        simp only [Option.map_some', Option.some.injEq, Except.ok.injEq] at hget
        subst hget
        rcases hs _ _ hv with ⟨w0, hb, hk0⟩ | ⟨l, hb⟩
        · rw [hb, hlaw.willRoundTrip] at hu
          have := Option.some.inj hu
          subst this
          exact ⟨by rw [hv, hb], hk0, hk'⟩
        · rw [hb] at hu
          exact absurd hexp (hids l _ hu)

/-- A claim that returns no error went through every check of `Claim`. -/
theorem Claim_ok_cases (env : Env B E S P) (s s' : KVStore B) (msg : MsgClaimRequest)
    (h : Claim env s msg = some (none, s')) :
    ∃ will i c, GetWillByID env s msg.WillId = some (Except.ok will) ∧
      will.ID ≠ [] ∧ will.Creator ≠ [] ∧ will.Status = lit "expired" ∧
      findComponent will.Components msg.ComponentId = some i ∧
      will.Components.get? i = some c ∧ c.Status = lit "active" ∧
      dispatchClaim env s msg will i c = some (s', none) := by
  unfold Claim at h
  split at h
  · simp at h
  · simp at h
  · rename_i will hget
    split at h
    · simp at h
    · rename_i hblank
      split at h
      · simp at h
      · rename_i hexp
        split at h
        · simp at h
        · rename_i i hfind
          split at h
          · simp at h
          · rename_i c hc
            split at h
            · simp at h
            · rename_i hact
              split at h
              · simp at h
              · rename_i r hd
                simp only [Option.some.injEq, Prod.mk.injEq] at h
                simp only [not_or] at hblank
                refine ⟨will, i, c, hget, hblank.1, hblank.2, by simpa using hexp, hfind, hc,
                  by simpa using hact, ?_⟩
                rw [hd]
                exact congrArg some (Prod.ext h.2 h.1)

theorem processSchnorrClaim_ok (env : Env B E S P) (s s' : KVStore B) (claim : SchnorrClaim)
    (will : Will) (i : Nat) (h : processSchnorrClaim env s claim will i = some (s', none)) :
    updateWillStatusAndStore env s (markClaimed will i) = (s', none) := by
  rcases processSchnorrClaim_result env s claim will i _ h with h1 | h1 | h1 | h1
  · simp at h1
  · simp at h1
  · simp at h1
  · exact h1.symm

theorem processPedersenClaim_ok (env : Env B E S P) (s s' : KVStore B) (will : Will)
    (i : Nat) (c : ExecutionComponent) (claim : PedersenClaim)
    (h : processPedersenClaim env s will i c claim = (s', none)) :
    updateWillStatusAndStore env s (markClaimed will i) = (s', none) := by
  unfold processPedersenClaim at h
  split at h
  · simp at h
  · split at h
    · simp at h
    · split at h
      · simp at h
      · split at h
        · simp at h
        · simp only at h
          split at h
          · simp at h
          · exact h

theorem updateWillStatusAndStore_none (env : Env B E S P) (s s' : KVStore B) (w : Will)
    (h : updateWillStatusAndStore env s w = (s', none)) :
    env.invalidKey (ownKey env w) = false ∧
      s' = fun k => if k = ownKey env w then some (env.marshalWill w) else s k := by
  unfold updateWillStatusAndStore at h
  simp only at h
  split at h
  · simp [errorsWrap] at h
  · rename_i hok
    simp only [Bool.not_eq_true] at hok
    have hv := (storeSet_same env s _ _ hok).2
    rw [storeSet_valid env s _ _ hv] at h
    simp only [Prod.mk.injEq, and_true] at h
    exact ⟨hv, h.symm⟩

theorem findComponent_some (cs : List ExecutionComponent) (id : GoString) :
    ∀ i, findComponent cs id = some i →
      ∃ c, cs.get? i = some c ∧ c.Id = id ∧
        ∀ j cj, j < i → cs.get? j = some cj → cj.Id ≠ id := by
  induction cs with
  | nil => intro i h; simp [findComponent] at h
  | cons x rest ih =>
    intro i h
    unfold findComponent at h
    split at h
    · rename_i hx
      simp only [Option.some.injEq] at h
      subst h
      exact ⟨x, rfl, hx, by intro j cj hj; omega⟩
    · rename_i hx
      split at h
      · simp at h
      · rename_i n hn
        simp only [Option.some.injEq] at h
        subst h
        obtain ⟨c, hc, hid, hfirst⟩ := ih n hn
        refine ⟨c, by simpa using hc, hid, ?_⟩
        intro j cj hj hcj
        cases j with
        | zero =>
          simp only [List.get?_cons_zero, Option.some.injEq] at hcj
          subst hcj; exact hx
        | succ m =>
          exact hfirst m cj (by omega) (by simpa using hcj)

theorem setStatusAt_length (cs : List ExecutionComponent) (i : Nat) (st : GoString) :
    (setStatusAt cs i st).length = cs.length := by
  induction cs generalizing i with
  | nil => rfl
  | cons x xs ih =>
    cases i with
    | zero => rfl
    | succ n => simp [setStatusAt, ih]

theorem setStatusAt_other (cs : List ExecutionComponent) (i j : Nat) (st : GoString)
    (hne : j ≠ i) : (setStatusAt cs i st).get? j = cs.get? j := by
  induction cs generalizing i j with
  | nil => rfl
  | cons x xs ih =>
    cases i with
    | zero =>
      cases j with
      | zero => exact absurd rfl hne
      | succ m => rfl
    | succ n =>
      cases j with
      | zero => rfl
      | succ m =>
        simp only [setStatusAt, List.get?_cons_succ]
        exact ih n m (by omega)

/-- The will that `CreateWill` returns is built from the request, components
included, and is read back under its id. -/
theorem CreateWill_read_back (env : Env B E S P)
    (hkey : Function.Injective env.GetWillKey)
    (hcodec : ∀ w, env.unmarshalWill (env.marshalWill w) = some w)
    (s s' : KVStore B) (msg : MsgCreateWillRequest) (w : Will) (e : Option Err)
    (h : CreateWill env s msg = some ((some w, e), s')) :
    GetWillByID env s' w.ID = some (Except.ok w) ∧ w.Components = msg.Components := by
  unfold CreateWill at h
  simp only at h
  split at h
  · simp [errorsWrap] at h
  · rename_i hset
    simp only [Bool.not_eq_true] at hset
    split at h
    · simp at h
    · split at h
      · simp at h
      · split at h
        · simp at h
        · simp only [Option.some.injEq, Prod.mk.injEq] at h
          obtain ⟨⟨hw, -⟩, hs⟩ := h
          subst hw
          refine ⟨?_, rfl⟩
          have hsame := storeSet_same env s _ _ hset
          have k1 : env.GetWillKey (idString msg.Creator msg.Name msg.Beneficiary msg.Height)
              ≠ env.GetWillKey msg.Creator :=
            fun hh => idString_ne_creator _ _ _ _ (hkey hh)
          have k2 : env.GetWillKey (idString msg.Creator msg.Name msg.Beneficiary msg.Height)
              ≠ env.GetWillKey (Itoa msg.Height) :=
            fun hh => idString_ne_Itoa _ _ _ _ (hkey hh)
          unfold GetWillByID storeGet
          simp only [hsame.2]
          rw [← hs, storeSet_other env _ _ _ _ k1, storeSet_other env _ _ _ _ k2, hsame.1]
          simp [hcodec]

/-! ## The identifier is injective on fields without a dash -/

theorem hexDigit_injective : ∀ a, a < 16 → ∀ b, b < 16 → hexDigit a = hexDigit b → a = b := by
  decide

theorem hexEncode_injective : ∀ (x y : Bytes), hexEncode x = hexEncode y → x = y := by
  intro x
  induction x with
  | nil =>
    intro y h
    cases y with
    | nil => rfl
    | cons b bs => simp [hexEncode] at h
  | cons a as ih =>
    intro y h
    cases y with
    | nil => simp [hexEncode] at h
    | cons b bs =>
      simp only [hexEncode, List.cons.injEq] at h
      obtain ⟨h1, h2, h3⟩ := h
      have hd := hexDigit_injective _ (Nat.div_lt_of_lt_mul (by
        have := a.toNat_lt; omega)) _ (Nat.div_lt_of_lt_mul (by
        have := b.toNat_lt; omega)) h1
      have hm := hexDigit_injective _ (Nat.mod_lt _ (by decide)) _ (Nat.mod_lt _ (by decide)) h2
      have hab : a.toNat = b.toNat := by omega
      have : a = b := by
        cases a; cases b
        simp only [UInt8.toNat] at hab
        congr
        exact BitVec.eq_of_toNat_eq hab
      rw [this, ih bs h3]

/-- Two strings cut at their first dash agree part by part. -/
theorem append_sep_cancel (sep : UInt8) :
    ∀ (a a' r r' : GoString), sep ∉ a → sep ∉ a' → a ++ sep :: r = a' ++ sep :: r' →
      a = a' ∧ r = r' := by
  intro a
  induction a with
  | nil =>
    intro a' r r' _ ha' h
    cases a' with
    | nil => simpa using h
    | cons c cs =>
      simp only [List.nil_append, List.cons_append, List.cons.injEq] at h
      exact absurd (h.1 ▸ List.mem_cons_self _ _) ha'
  | cons x xs ih =>
    intro a' r r' ha ha' h
    cases a' with
    | nil =>
      simp only [List.nil_append, List.cons_append, List.cons.injEq] at h
      exact absurd (h.1 ▸ List.mem_cons_self _ _) ha
    | cons c cs =>
      simp only [List.cons_append, List.cons.injEq] at h
      obtain ⟨hx, hrest⟩ := h
      obtain ⟨h1, h2⟩ := ih cs r r' (fun hh => ha (List.mem_cons_of_mem _ hh))
        (fun hh => ha' (List.mem_cons_of_mem _ hh)) hrest
      exact ⟨by rw [hx, h1], h2⟩

theorem toDigitsCore_append (fuel : Nat) :
    ∀ (n : Nat) (ds : List Char),
      Nat.toDigitsCore 10 fuel n ds = Nat.toDigitsCore 10 fuel n [] ++ ds := by
  induction fuel with
  | zero => intro n ds; simp [Nat.toDigitsCore]
  | succ f ih =>
    intro n ds
    unfold Nat.toDigitsCore
    simp only
    split
    · simp
    · rw [ih _ (_ :: ds), ih _ [_]]
      simp

/-- The byte written for the decimal digit `d`. -/
theorem digit_byte : ∀ d, d < 10 → (UInt8.ofNat (Nat.digitChar d).toNat).toNat = 48 + d := by
  decide

theorem parseDigits_append_digit (d : Nat) (hd : d < 10) :
    ∀ (xs : List UInt8) (acc : Nat),
      parseDigits (xs ++ [UInt8.ofNat (Nat.digitChar d).toNat]) acc
        = (parseDigits xs acc).map (fun v => v * 10 + d) := by
  intro xs
  induction xs with
  | nil =>
    intro acc
    have h1 : 48 + d ≤ 57 := by omega
    simp [parseDigits, digit_byte d hd, h1]
  | cons x rest ih =>
    intro acc
    simp only [List.cons_append, parseDigits]
    split
    · exact ih _
    · rfl

/-- The digit loop reads a number back from the digits written for it. -/
theorem parseDigits_toDigitsCore (fuel : Nat) :
    ∀ n, n < fuel →
      parseDigits ((Nat.toDigitsCore 10 fuel n []).map (fun c => UInt8.ofNat c.toNat)) 0
        = some n := by
  induction fuel with
  | zero => intro n h; omega
  | succ f ih =>
    intro n hn
    unfold Nat.toDigitsCore
    simp only
    split
    · rename_i h0
      have hlt : n < 10 := by omega
      have := parseDigits_append_digit (n % 10) (Nat.mod_lt _ (by decide)) [] 0
      simp only [List.nil_append] at this
      simp only [List.map_cons, List.map_nil]
      rw [this]
      simp [parseDigits, Nat.mod_eq_of_lt hlt]
    · rename_i h0
      rw [toDigitsCore_append]
      simp only [List.map_append, List.map_cons, List.map_nil]
      rw [parseDigits_append_digit (n % 10) (Nat.mod_lt _ (by decide)), ih (n / 10) (by omega)]
      simp only [Option.map_some', Option.some.injEq]
      omega

theorem parseDigits_natDigits (n : Nat) : parseDigits (natDigits n) 0 = some n := by
  unfold natDigits Nat.toDigits
  exact parseDigits_toDigitsCore (n + 1) n (by omega)

theorem natDigits_injective (n m : Nat) (h : natDigits n = natDigits m) : n = m := by
  have h1 := parseDigits_natDigits n
  rw [h, parseDigits_natDigits m] at h1
  exact (Option.some.inj h1).symm

theorem natDigits_ne_nil (n : Nat) : natDigits n ≠ [] := by
  intro h
  have := parseDigits_natDigits (n + 10)
  have h2 := parseDigits_natDigits n
  rw [h] at h2
  simp [parseDigits] at h2
  subst h2
  unfold natDigits Nat.toDigits Nat.toDigitsCore at h
  simp at h

theorem natDigits_ne_dash (n : Nat) (x : UInt8) (h : x ∈ natDigits n) : x ≠ 45 := by
  unfold natDigits at h
  rcases List.mem_map.1 h with ⟨c, hc, rfl⟩
  unfold Nat.toDigits at hc
  rcases toDigitsCore_digit _ _ _ _ hc with hm | ⟨d, hd, rfl⟩
  · simp at hm
  · intro hh
    have := digit_byte d hd
    rw [hh] at this
    have h45 : (45 : UInt8).toNat = 45 := by decide
    omega

theorem Itoa_injective (h h' : Int) (heq : Itoa h = Itoa h') : h = h' := by
  cases h with
  | ofNat n =>
    cases h' with
    | ofNat m =>
      simp only [Itoa] at heq
      rw [natDigits_injective n m heq]
    | negSucc m =>
      simp only [Itoa] at heq
      have : (45 : UInt8) ∈ natDigits n := by rw [heq]; exact List.mem_cons_self _ _
      exact absurd rfl (natDigits_ne_dash n 45 this)
  | negSucc n =>
    cases h' with
    | ofNat m =>
      simp only [Itoa] at heq
      have : (45 : UInt8) ∈ natDigits m := by rw [← heq]; exact List.mem_cons_self _ _
      exact absurd rfl (natDigits_ne_dash m 45 this)
    | negSucc m =>
      simp only [Itoa, List.cons.injEq, true_and] at heq
      have := natDigits_injective _ _ heq
      have : n = m := by omega
      rw [this]

/-! ## The splits of the command-line parser -/

theorem cutAt_none (sep : UInt8) : ∀ s : GoString, cutAt sep s = none ↔ sep ∉ s := by
  intro s
  induction s with
  | nil => simp [cutAt]
  | cons c rest ih =>
    unfold cutAt
    by_cases hc : c = sep
    · simp [hc]
    · simp only [hc, if_false]
      rcases hr : cutAt sep rest with _ | r
      · have := ih.1 hr
        simp [this, Ne.symm hc]
      · have : ¬ sep ∉ rest := fun hh => by rw [ih.2 hh] at hr; simp at hr
        simp only [reduceCtorEq, List.mem_cons, not_or, false_iff, not_and]
        intro _
        exact this

theorem cutAt_some (sep : UInt8) :
    ∀ (s a b : GoString), cutAt sep s = some (a, b) ↔ sep ∉ a ∧ s = a ++ sep :: b := by
  intro s
  induction s with
  | nil =>
    intro a b
    simp [cutAt]
  | cons c rest ih =>
    intro a b
    unfold cutAt
    by_cases hc : c = sep
    · subst hc
      simp only [if_true, Option.some.injEq, Prod.mk.injEq]
      constructor
      · rintro ⟨rfl, rfl⟩
        simp
      · rintro ⟨hna, heq⟩
        cases a with
        | nil => simpa using heq
        | cons x xs =>
          simp only [List.cons_append, List.cons.injEq] at heq
          exact absurd (heq.1 ▸ List.mem_cons_self _ _) hna
    · simp only [hc, if_false]
      rcases hr : cutAt sep rest with _ | r
      · simp only [reduceCtorEq, false_iff, not_and]
        intro hna heq
        cases a with
        | nil =>
          simp only [List.nil_append, List.cons.injEq] at heq
          exact hc heq.1
        | cons x xs =>
          simp only [List.cons_append, List.cons.injEq] at heq
          have := (ih xs b).2 ⟨fun hh => hna (List.mem_cons_of_mem _ hh), heq.2⟩
          rw [hr] at this
          simp at this
      · obtain ⟨r1, r2⟩ := r
        have hr' := (ih r1 r2).1 hr
        simp only [Option.some.injEq, Prod.mk.injEq]
        constructor
        · rintro ⟨rfl, rfl⟩
          refine ⟨?_, by rw [hr'.2]; rfl⟩
          intro hh
          rcases List.mem_cons.1 hh with h1 | h1
          · exact hc h1.symm
          · exact hr'.1 h1
        · rintro ⟨hna, heq⟩
          cases a with
          | nil =>
            simp only [List.nil_append, List.cons.injEq] at heq
            exact absurd heq.1 hc
          | cons x xs =>
            simp only [List.cons_append, List.cons.injEq] at heq
            have := (ih xs b).2 ⟨fun hh => hna (List.mem_cons_of_mem _ hh), heq.2⟩
            rw [hr] at this
            simp only [Option.some.injEq, Prod.mk.injEq] at this
            exact ⟨by rw [heq.1, this.1], this.2⟩

theorem SplitN2_two (s a b : GoString) (sep : UInt8) :
    SplitN2 s sep = [a, b] ↔ sep ∉ a ∧ s = a ++ sep :: b := by
  unfold SplitN2
  rcases hr : cutAt sep s with _ | r
  · simp only [List.cons.injEq, reduceCtorEq, and_false, false_iff, not_and]
    intro hna heq
    have := (cutAt_some sep s a b).2 ⟨hna, heq⟩
    rw [hr] at this
    simp at this
  · obtain ⟨r1, r2⟩ := r
    rw [← cutAt_some sep s a b, hr]
    simp only [List.cons.injEq, and_true, Option.some.injEq, Prod.mk.injEq]

theorem Split_ne_nil (sep : UInt8) : ∀ s : GoString, Split sep s ≠ [] := by
  intro s
  induction s with
  | nil => simp [Split]
  | cons c rest ih =>
    unfold Split
    split
    · simp
    · split <;> simp

theorem Split_one (sep : UInt8) :
    ∀ (s x : GoString), Split sep s = [x] ↔ sep ∉ s ∧ x = s := by
  intro s
  induction s with
  | nil => intro x; simp [Split, eq_comm]
  | cons c rest ih =>
    intro x
    unfold Split
    by_cases hc : c = sep
    · simp only [hc, if_true, List.cons.injEq, List.mem_cons, true_or, not_true_eq_false,
        false_and, iff_false, not_and]
      intro _
      exact Split_ne_nil sep rest
    · simp only [hc, if_false]
      rcases hs : Split sep rest with _ | ⟨piece, pieces⟩
      · exact absurd hs (Split_ne_nil sep rest)
      · simp only [List.cons.injEq]
        constructor
        · rintro ⟨rfl, rfl⟩
          have := (ih piece).1 hs
          refine ⟨?_, by rw [this.2]⟩
          intro hh
          rcases List.mem_cons.1 hh with h1 | h1
          · exact hc h1.symm
          · exact this.1 h1
        · rintro ⟨hns, rfl⟩
          have := (ih rest).2 ⟨fun hh => hns (List.mem_cons_of_mem _ hh), rfl⟩
          rw [hs] at this
          simp only [List.cons.injEq] at this
          exact ⟨by rw [this.1], this.2⟩

theorem Split_two (sep : UInt8) :
    ∀ (s x y : GoString),
      Split sep s = [x, y] ↔ sep ∉ x ∧ sep ∉ y ∧ s = x ++ sep :: y := by
  intro s
  induction s with
  | nil => intro x y; simp [Split]
  | cons c rest ih =>
    intro x y
    unfold Split
    by_cases hc : c = sep
    · subst hc
      simp only [if_true, List.cons.injEq]
      constructor
      · rintro ⟨rfl, hy⟩
        have := (Split_one c rest y).1 hy
        exact ⟨by simp, by rw [this.2]; exact this.1, by rw [this.2]; rfl⟩
      · rintro ⟨hnx, hny, heq⟩
        cases x with
        | nil =>
          simp only [List.nil_append, List.cons.injEq, true_and] at heq
          exact ⟨rfl, (Split_one c rest y).2 ⟨by rw [heq]; exact hny, heq.symm⟩⟩
        | cons a as =>
          simp only [List.cons_append, List.cons.injEq] at heq
          exact absurd (heq.1 ▸ List.mem_cons_self _ _) hnx
    · simp only [hc, if_false]
      rcases hs : Split sep rest with _ | ⟨piece, pieces⟩
      · exact absurd hs (Split_ne_nil sep rest)
      · simp only [List.cons.injEq]
        constructor
        · rintro ⟨rfl, rfl⟩
          have := (ih piece y).1 hs
          refine ⟨?_, this.2.1, by rw [this.2.2]; rfl⟩
          intro hh
          rcases List.mem_cons.1 hh with h1 | h1
          · exact hc h1.symm
          · exact this.1 h1
        · rintro ⟨hnx, hny, heq⟩
          cases x with
          | nil =>
            simp only [List.nil_append, List.cons.injEq] at heq
            exact absurd heq.1 hc
          | cons a as =>
            simp only [List.cons_append, List.cons.injEq] at heq
            have := (ih as y).2 ⟨fun hh => hnx (List.mem_cons_of_mem _ hh), hny, heq.2⟩
            rw [hs] at this
            simp only [List.cons.injEq] at this
            exact ⟨by rw [heq.1, this.1], this.2⟩

theorem NewInt64Coin_w3ll (n : Int) :
    NewInt64Coin (lit "w3ll") n
      = if 0 ≤ n then some { Denom := lit "w3ll", Amount := n } else none := by
  have hv : ValidateDenom (lit "w3ll") = true := by decide
  unfold NewInt64Coin
  simp [hv]

/-- On an argument of the form `transfer:<to>,<amount>` with one comma the
parser goes on to the amount. -/
theorem parseComponentFromString_form (recipient amountStr : GoString)
    (hr : (44 : UInt8) ∉ recipient) (ha : (44 : UInt8) ∉ amountStr) :
    parseComponentFromString (lit "transfer:" ++ recipient ++ 44 :: amountStr)
      = match Atoi amountStr with
        | none => some (Except.error CliErr.invalidAmount)
        | some n =>
          if 0 ≤ n then
            some (Except.ok (transferTo recipient { Denom := lit "w3ll", Amount := n }))
          else none := by
  have h1 : SplitN2 (lit "transfer:" ++ recipient ++ 44 :: amountStr) 58
      = [lit "transfer", recipient ++ 44 :: amountStr] := by
    rw [SplitN2_two]
    refine ⟨by decide, ?_⟩
    have : lit "transfer:" = lit "transfer" ++ [58] := by decide
    rw [this]
    simp
  have h2 : Split 44 (recipient ++ 44 :: amountStr) = [recipient, amountStr] :=
    (Split_two 44 _ _ _).2 ⟨hr, ha, rfl⟩
  unfold parseComponentFromString
  rw [h1]
  simp only [if_true, h2]
  cases Atoi amountStr with
  | none => rfl
  | some n =>
    simp only [NewInt64Coin_w3ll]
    by_cases hn : 0 ≤ n <;> simp [hn]

/-- Every argument that is not answered with an error has the form
`transfer:<to>,<amount>` with one comma. -/
theorem parseComponentFromString_no_error (compArg : GoString)
    (h : ∀ e, parseComponentFromString compArg ≠ some (Except.error e)) :
    ∃ recipient amountStr, compArg = lit "transfer:" ++ recipient ++ 44 :: amountStr ∧
      (44 : UInt8) ∉ recipient ∧ (44 : UInt8) ∉ amountStr := by
  unfold parseComponentFromString at h
  split at h
  · rename_i componentType paramsStr hsplit
    split at h
    · rename_i hty
      split at h
      · rename_i recipient amountStr hparams
        obtain ⟨-, h1⟩ := (SplitN2_two _ _ _ _).1 hsplit
        obtain ⟨hr, ha, h2⟩ := (Split_two 44 _ _ _).1 hparams
        refine ⟨recipient, amountStr, ?_, hr, ha⟩
        have : lit "transfer:" = lit "transfer" ++ [58] := by decide
        rw [h1, hty, h2, this]
        simp
      · exact absurd rfl (h _)
    · exact absurd rfl (h _)
  · exact absurd rfl (h _)

theorem natDigits_digit (n : Nat) (x : UInt8) (h : x ∈ natDigits n) :
    48 ≤ x.toNat ∧ x.toNat ≤ 57 := by
  unfold natDigits at h
  rcases List.mem_map.1 h with ⟨c, hc, rfl⟩
  unfold Nat.toDigits at hc
  rcases toDigitsCore_digit _ _ _ _ hc with hm | ⟨d, hd, rfl⟩
  · simp at hm
  · have := digit_byte d hd
    omega

/-- What `strconv.Itoa` writes for a value of `int64`, `strconv.Atoi` reads
back. -/
theorem Atoi_Itoa (n : Int) (hlo : -(2 : Int) ^ 63 ≤ n) (hhi : n ≤ (2 : Int) ^ 63 - 1) :
    Atoi (Itoa n) = some n := by
  cases n with
  | ofNat m =>
    simp only [Itoa]
    rcases hs : natDigits m with _ | ⟨c, rest⟩
    · exact absurd hs (natDigits_ne_nil m)
    · have hc := natDigits_digit m c (by rw [hs]; exact List.mem_cons_self _ _)
      have h45 : c ≠ 45 := by
        intro hh; rw [hh] at hc
        have h0 : (45 : UInt8).toNat = 45 := by decide
        omega
      have h43 : c ≠ 43 := by
        intro hh; rw [hh] at hc
        have h0 : (43 : UInt8).toNat = 43 := by decide
        omega
      have hp := parseDigits_natDigits m
      rw [hs] at hp
      unfold Atoi
      simp only [h45, h43, or_self, if_false, decide_False, reduceCtorEq, hp,
        Bool.false_eq_true]
      have h1 : -(2 : Int) ^ 63 ≤ (m : Int) := hlo
      have h2 : (m : Int) ≤ (2 : Int) ^ 63 - 1 := hhi
      simp only [h1, h2, and_self, if_true]
      rfl
  | negSucc m =>
    simp only [Itoa]
    have hne := natDigits_ne_nil (m + 1)
    have hp := parseDigits_natDigits (m + 1)
    unfold Atoi
    simp only [true_or, if_true, decide_True, hne, if_false, hp]
    have hv : -(((m + 1 : Nat)) : Int) = Int.negSucc m := rfl
    rw [hv]
    simp only [hlo, hhi, and_self, if_true]

theorem Itoa_no_comma (n : Int) : (44 : UInt8) ∉ Itoa n := by
  have h44 : (44 : UInt8).toNat = 44 := by decide
  intro h
  cases n with
  | ofNat m =>
    have := natDigits_digit m 44 h
    omega
  | negSucc m =>
    simp only [Itoa] at h
    rcases List.mem_cons.1 h with h1 | h1
    · revert h1; decide
    · have := natDigits_digit _ 44 h1
      omega

/-! ## Schnorr claims -/

/-- The outcome of `processSchnorrClaim`, case by case. -/
theorem processSchnorrClaim_cases (env : Env B E S P) (s : KVStore B) (claim : SchnorrClaim)
    (will : Will) (i : Nat) :
    (env.edUnmarshal (publicKeyBytes claim) = none →
      processSchnorrClaim env s claim will i = some (s, some Err.unmarshalPublicKey)) ∧
    (∀ pk, env.edUnmarshal (publicKeyBytes claim) = some pk →
      (env.edUnmarshal (rBytes claim) = none →
        processSchnorrClaim env s claim will i = some (s, some Err.unmarshalR)) ∧
      (∀ r, env.edUnmarshal (rBytes claim) = some r →
        (env.schnorrVerify
            (env.schnorrHash (claim.Message ++ hexEncode (publicKeyBytes claim)))
            r (env.scalarSetBytes (sBytes claim)) pk = false →
          processSchnorrClaim env s claim will i
            = some (s, some Err.schnorrVerificationFailed)) ∧
        (env.schnorrVerify
            (env.schnorrHash (claim.Message ++ hexEncode (publicKeyBytes claim)))
            r (env.scalarSetBytes (sBytes claim)) pk = true →
          (i < will.Components.length →
            processSchnorrClaim env s claim will i
              = some (updateWillStatusAndStore env s (markClaimed will i))) ∧
          (will.Components.length ≤ i →
            processSchnorrClaim env s claim will i = none)))) := by
  unfold publicKeyBytes rBytes sBytes processSchnorrClaim
  simp only [sliceTo_half, sliceFrom_half]
  refine ⟨fun h => by simp only [h], fun pk hp => ⟨fun h => by simp only [hp, h], fun r hr =>
    ⟨fun h => by simp [hp, hr, h], fun h => ⟨fun hi => by simp [hp, hr, h, hi],
      fun hi => by simp [hp, hr, h, Nat.not_lt.2 hi]⟩⟩⟩⟩

theorem get?_lt (cs : List ExecutionComponent) (i : Nat) (c : ExecutionComponent)
    (h : cs.get? i = some c) : i < cs.length := by
  by_contra hn
  rw [List.get?_eq_none.2 (Nat.not_lt.1 hn)] at h
  simp at h

/-- A claim with a Schnorr proof panics only where the lookup of the will does:
the split of the signature is within bounds and the index is the one `Claim`
found. -/
theorem Claim_schnorr_no_panic (env : Env B E S P) (s : KVStore B) (msg : MsgClaimRequest)
    (claim : SchnorrClaim) (hmsg : msg.ClaimType = ClaimType.schnorrClaim claim)
    (h : Claim env s msg = none) : GetWillByID env s msg.WillId = none := by
  unfold Claim at h
  split at h
  · assumption
  · simp at h
  · rename_i will hget
    split at h
    · simp at h
    · split at h
      · simp at h
      · split at h
        · simp at h
        · rename_i i hfind
          obtain ⟨c, hc, -⟩ := findComponent_some will.Components msg.ComponentId i hfind
          split at h
          · rename_i hnone
            rw [hc] at hnone
            simp at hnone
          · split at h
            · simp at h
            · split at h
              · rename_i hd
                unfold dispatchClaim at hd
                rw [hmsg] at hd
                simp only at hd
                exfalso
                have hlt := get?_lt _ _ _ hc
                have hcases := processSchnorrClaim_cases env s claim will i
                rcases Option.eq_none_or_eq_some (env.edUnmarshal (publicKeyBytes claim))
                  with hp | ⟨pk, hp⟩
                · rw [hcases.1 hp] at hd; simp at hd
                · rcases Option.eq_none_or_eq_some (env.edUnmarshal (rBytes claim))
                    with hr | ⟨r, hr⟩
                  · rw [(hcases.2 pk hp).1 hr] at hd; simp at hd
                  · rcases Bool.eq_false_or_eq_true (env.schnorrVerify
                      (env.schnorrHash (claim.Message ++ hexEncode (publicKeyBytes claim)))
                      r (env.scalarSetBytes (sBytes claim)) pk) with hv | hv
                    · rw [(((hcases.2 pk hp).2 r hr).2 hv).1 hlt] at hd; simp at hd
                    · rw [((hcases.2 pk hp).2 r hr).1 hv] at hd; simp at hd
              · simp at h

/-! ## One flipped bit of a signature -/

theorem fromHexChar_hexDigit : ∀ n, n < 16 → fromHexChar (hexDigit n) = some n := by
  decide

theorem UInt8_ofNat_toNat (b : UInt8) : UInt8.ofNat b.toNat = b := by
  cases b with
  | mk v =>
    cases v with
    | ofFin f =>
      apply congrArg UInt8.mk
      apply BitVec.eq_of_toNat_eq
      simp [UInt8.toNat, BitVec.toNat_ofNat, Nat.mod_eq_of_lt f.isLt]

theorem hexDecode_hexEncode (bs : Bytes) : hexDecode (hexEncode bs) = (bs, false) := by
  induction bs with
  | nil => rfl
  | cons b rest ih =>
    have h1 : b.toNat / 16 < 16 := Nat.div_lt_of_lt_mul (by have := b.toNat_lt; omega)
    have h2 : b.toNat % 16 < 16 := Nat.mod_lt _ (by decide)
    have h3 : b.toNat / 16 * 16 + b.toNat % 16 = b.toNat := by omega
    simp only [hexEncode, hexDecode, fromHexChar_hexDigit _ h1, fromHexChar_hexDigit _ h2, ih,
      h3, UInt8_ofNat_toNat]

end Lemmas

/-! ## Claims -/

section Claims

variable {B E S P : Type}

/-- C1: whenever `Claim` returns an error, the store after the call is the
store before it, so the will record read back for the claim is what it was; a
failed Schnorr or Pedersen verification therefore leaves the component Active. -/
theorem Claim_error_leaves_store (env : Env B E S P) (s s' : KVStore B)
    (msg : MsgClaimRequest) (e : Err) (h : Claim env s msg = some (some e, s')) :
    s' = s ∧ GetWillByID env s' msg.WillId = GetWillByID env s msg.WillId := by
  have hs : s' = s := by
    unfold Claim at h
    split at h
    · simp at h
    · simp at h; exact h.2.symm
    · split at h
      · simp at h; exact h.2.symm
      · split at h
        · simp at h; exact h.2.symm
        · split at h
          · simp at h; exact h.2.symm
          · split at h
            · simp at h
            · split at h
              · simp at h; exact h.2.symm
              · split at h
                · simp at h
                · rename_i r hd
                  simp only [Option.some.injEq, Prod.mk.injEq] at h
                  rw [← h.2]
                  exact dispatchClaim_err env s msg _ _ _ e r hd h.1
  subst hs
  exact ⟨rfl, rfl⟩

/-- A failed Schnorr verification on the Active component of alice's expired
will: the claim returns the verification error, the store is the same and the
component is still Active. -/
theorem Claim_error_leaves_store_witness :
    Claim env0 aliceExpired schnorrBad
        = some (some Err.schnorrVerificationFailed, aliceExpired) ∧
      componentStatuses (GetWillByID env0 aliceExpired aliceId) = some [lit "active"] ∧
      (aliceExpired = aliceExpired ∧
        GetWillByID env0 aliceExpired schnorrBad.WillId
          = GetWillByID env0 aliceExpired schnorrBad.WillId) :=
  ⟨by rfl, by decide,
    Claim_error_leaves_store env0 aliceExpired aliceExpired schnorrBad
      Err.schnorrVerificationFailed (by rfl)⟩

/-- C2, at the failing input: a claim with a proof of the third scheme on the
Active component of alice's expired will returns no error although nothing was
verified, and the component is stored as Active, not Claimed, afterwards. -/
theorem Claim_gnark_returns_success :
    componentStatuses (GetWillByID env0 aliceExpired aliceId) = some [lit "active"] ∧
      (Claim env0 aliceExpired gnarkRequest).map Prod.fst = some none ∧
      componentStatuses (GetWillByID env0 (storeAfterClaim aliceExpired gnarkRequest) aliceId)
        = some [lit "active"] := by
  decide

/-- C3, at the failing input: the only component of alice's expired will
requires a Pedersen proof, yet a Schnorr proof made with an unrelated key pair
is accepted and the component is stored as Claimed. -/
theorem Claim_schnorr_ignores_requirement :
    (GetWillByID env0 aliceExpired aliceId).map
        (fun r => r.map (fun w => w.Components.map (fun c => (c.Status, getPedersen c))))
      = some (Except.ok
          [(lit "active", some { Commitment := [5], TargetCommitment := [12] })]) ∧
      (Claim env0 aliceExpired schnorrGood).map Prod.fst = some none ∧
      componentStatuses (GetWillByID env0 (storeAfterClaim aliceExpired schnorrGood) aliceId)
        = some [lit "claimed"] := by
  decide

/-- C5, at the failing input: alice's will is stored as expired; `CreateWill`
with her request once more returns a will and after it the same id is stored
as live, and the scheduler at height 7 expires it a second time. -/
theorem CreateWill_revives_expired_will :
    statusAndHeight (GetWillByID env0 aliceExpired aliceId) = some (lit "expired", 7) ∧
      (CreateWill env0 aliceExpired aliceRequest).map Prod.fst = some (some aliceWill, none) ∧
      statusAndHeight (GetWillByID env0 (storeAfterCreate aliceExpired aliceRequest) aliceId)
        = some (lit "live", 7) ∧
      statusAndHeight
          (GetWillByID env0 (storeAfterBlock (storeAfterCreate aliceExpired aliceRequest) 7)
            aliceId)
        = some (lit "expired", 7) := by
  decide

/-- C6, at the failing input: a will of maturity height 7 created by the
address "5" is listed under the key of height 5, and `BeginBlocker` at height 5
changes it from live to expired. -/
theorem BeginBlocker_expires_other_height :
    idsUnder fiveLive (Itoa 5) = some [fiveId] ∧
      statusAndHeight (GetWillByID env0 fiveLive fiveId) = some (lit "live", 7) ∧
      statusAndHeight (GetWillByID env0 (storeAfterBlock fiveLive 5) fiveId)
        = some (lit "expired", 7) := by
  decide

/-- C7, at the failing input: with ten wills listed at height 7, `CreateWill`
at height 7 returns an eleventh will and no error, and lists it. -/
theorem CreateWill_accepts_eleventh :
    (idsUnder (bucket 10) (Itoa 7)).map List.length = some 10 ∧
      (CreateWill env0 (bucket 10) (numbered 10)).map
          (fun r => (r.1.1.map (fun w => w.ID), r.1.2))
        = some (some (numberedId 10), none) ∧
      (idsUnder (storeAfterCreate (bucket 10) (numbered 10)) (Itoa 7)).map List.length
        = some 11 := by
  decide

/-- C8, at the failing input: with eleven wills listed at height 7,
`CreateWill` returns neither a will nor an error, yet the record of the
refused will has been written: the store is not the one before the call. -/
theorem CreateWill_refusal_writes_record :
    (idsUnder (bucket 11) (Itoa 7)).map List.length = some 11 ∧
      (CreateWill env0 (bucket 11) (numbered 11)).map Prod.fst = some (none, none) ∧
      GetWillByID env0 (bucket 11) (numberedId 11) = some (Except.ok Will.zero) ∧
      statusAndHeight (GetWillByID env0 (storeAfterCreate (bucket 11) (numbered 11))
          (numberedId 11)) = some (lit "live", 7) ∧
      storeAfterCreate (bucket 11) (numbered 11) ≠ bucket 11 := by
  refine ⟨by decide, by decide, by decide, by decide, ?_⟩
  intro h
  have hk := congrFun h (env0.GetWillKey (numberedId 11))
  revert hk
  decide

/-- C9: when `CreateWill` returns a will, `GetWillByID` on its id right after
returns that will, with the creator, beneficiary, height and components of the
request and status live, provided the key function is injective and the codec
reads back what it wrote. -/
theorem CreateWill_then_GetWillByID (env : Env B E S P)
    (hkey : Function.Injective env.GetWillKey)
    (hcodec : ∀ w, env.unmarshalWill (env.marshalWill w) = some w)
    (s s' : KVStore B) (msg : MsgCreateWillRequest) (w : Will) (e : Option Err)
    (h : CreateWill env s msg = some ((some w, e), s')) :
    GetWillByID env s' w.ID = some (Except.ok w) ∧ w.Creator = msg.Creator ∧
      w.Beneficiary = msg.Beneficiary ∧ w.Height = msg.Height ∧
      w.Components = msg.Components ∧ w.Status = lit "live" := by
  unfold CreateWill at h
  simp only at h
  split at h
  · simp [errorsWrap] at h
  · rename_i hset
    simp only [Bool.not_eq_true] at hset
    split at h
    · simp at h
    · split at h
      · simp at h
      · split at h
        · simp at h
        · simp only [Option.some.injEq, Prod.mk.injEq] at h
          obtain ⟨⟨hw, -⟩, hs⟩ := h
          subst hw
          refine ⟨?_, rfl, rfl, rfl, rfl, rfl⟩
          have hsame := storeSet_same env s _ _ hset
          have k1 : env.GetWillKey (idString msg.Creator msg.Name msg.Beneficiary msg.Height)
              ≠ env.GetWillKey msg.Creator :=
            fun hh => idString_ne_creator _ _ _ _ (hkey hh)
          have k2 : env.GetWillKey (idString msg.Creator msg.Name msg.Beneficiary msg.Height)
              ≠ env.GetWillKey (Itoa msg.Height) :=
            fun hh => idString_ne_Itoa _ _ _ _ (hkey hh)
          unfold GetWillByID storeGet
          simp only [hsame.2]
          rw [← hs, storeSet_other env _ _ _ _ k1, storeSet_other env _ _ _ _ k2, hsame.1]
          simp [hcodec]

/-- Alice's will, created in the empty store, is read back as created. -/
theorem CreateWill_then_GetWillByID_witness :
    CreateWill env0 (emptyStore Val) aliceRequest = some ((some aliceWill, none), aliceLive) ∧
      (GetWillByID env0 aliceLive aliceWill.ID = some (Except.ok aliceWill) ∧
        aliceWill.Creator = aliceRequest.Creator ∧
        aliceWill.Beneficiary = aliceRequest.Beneficiary ∧
        aliceWill.Height = aliceRequest.Height ∧
        aliceWill.Components = aliceRequest.Components ∧ aliceWill.Status = lit "live") :=
  ⟨by rfl,
    CreateWill_then_GetWillByID env0 (fun _ _ hab => List.append_cancel_left hab)
      (fun _ => rfl) (emptyStore Val) aliceLive aliceRequest aliceWill none (by rfl)⟩

/-- C10, at the failing input: nothing is stored under the id "nope" in the
empty store, and `GetWillByID` returns the zero will without an error. -/
theorem GetWillByID_absent_returns_zero_will :
    emptyStore Val (env0.GetWillKey (lit "nope")) = none ∧
      GetWillByID env0 (emptyStore Val) (lit "nope") = some (Except.ok Will.zero) := by
  decide

/-- C11: a claim on a will id under which nothing is stored returns an error
and leaves the store as it is, whatever the proof. -/
theorem Claim_absent_will_rejected (env : Env B E S P) (s : KVStore B)
    (msg : MsgClaimRequest) (h : s (env.GetWillKey msg.WillId) = none) :
    ∃ e, Claim env s msg = some (some e, s) ∧ (e = Err.willNotFound ∨ e = Err.willBlank) := by
  unfold Claim GetWillByID storeGet
  by_cases hk : env.invalidKey (env.GetWillKey msg.WillId) = true
  · exact ⟨Err.willNotFound, by simp [hk], Or.inl rfl⟩
  · exact ⟨Err.willBlank, by simp [hk, h, Will.zero], Or.inr rfl⟩

/-- A claim on the empty store is refused. -/
theorem Claim_absent_will_rejected_witness :
    ∃ e, Claim env0 (emptyStore Val) schnorrGood = some (some e, emptyStore Val) ∧
      (e = Err.willNotFound ∨ e = Err.willBlank) :=
  Claim_absent_will_rejected env0 (emptyStore Val) schnorrGood rfl

/-- The outcome of a Pedersen claim on a will that is not blank: for a stored
expired will with an id and a creator and an active component found by the
claim's component id, the claim returns no error exactly when the component is
a claim component with a Pedersen requirement, the three commitments
deserialize, stored plus submitted is the target point, and the store accepts
the write. -/
theorem Claim_pedersen_nonblank (env : Env B E S P)
    (hEq : ∀ a b, env.ristrettoEquals a b = true ↔ a = b)
    (hcodec : ∀ w, env.unmarshalWill (env.marshalWill w) = some w)
    (s : KVStore B) (msg : MsgClaimRequest) (will : Will) (i : Nat)
    (c : ExecutionComponent) (claim : PedersenClaim)
    (hget : GetWillByID env s msg.WillId = some (Except.ok will))
    (hid : will.ID ≠ []) (hcr : will.Creator ≠ [])
    (hexp : will.Status = lit "expired")
    (hfind : findComponent will.Components msg.ComponentId = some i)
    (hc : will.Components.get? i = some c)
    (hact : c.Status = lit "active")
    (hmsg : msg.ClaimType = ClaimType.pedersenClaim claim) :
    ((∃ s', Claim env s msg = some (none, s')) ↔
      ∃ spec a b t, c.ComponentType = ComponentType.claim (SchemeType.pedersen spec) ∧
        env.ristrettoUnmarshal spec.Commitment = some a ∧
        env.ristrettoUnmarshal claim.Commitment = some b ∧
        env.ristrettoUnmarshal spec.TargetCommitment = some t ∧
        env.ristrettoAdd a b = t ∧ env.invalidKey (ownKey env will) = false) ∧
      (∀ s', Claim env s msg = some (none, s') →
        GetWillByID env s' (idString will.Creator will.Name will.Beneficiary will.Height)
            = some (Except.ok (markClaimed will i)) ∧
          (markClaimed will i).Components.get? i
            = some { c with Status := lit "claimed" }) ∧
      ((¬ ∃ s', Claim env s msg = some (none, s')) →
        ∃ e, Claim env s msg = some (some e, s)) ∧
      (∀ spec a b t, c.ComponentType = ComponentType.claim (SchemeType.pedersen spec) →
        env.ristrettoUnmarshal spec.Commitment = some a →
        env.ristrettoUnmarshal claim.Commitment = some b →
        env.ristrettoUnmarshal spec.TargetCommitment = some t →
        env.ristrettoAdd a b ≠ t →
        Claim env s msg = some (some Err.commitmentVerificationFailed, s)) := by
  have hclaim : Claim env s msg
      = some ((processPedersenClaim env s will i c claim).2,
          (processPedersenClaim env s will i c claim).1) := by
    unfold Claim
    rw [hget]
    simp only [hid, hcr, hexp, hfind, hc, hact, or_self, if_false, ne_eq, not_true_eq_false,
      dispatchClaim, hmsg]
  have hown : ownKey env (markClaimed will i) = ownKey env will := rfl
  have hidm : idString (markClaimed will i).Creator (markClaimed will i).Name
      (markClaimed will i).Beneficiary (markClaimed will i).Height
      = idString will.Creator will.Name will.Beneficiary will.Height := rfl
  have hcomp : (markClaimed will i).Components.get? i
      = some { c with Status := lit "claimed" } := setStatusAt_get _ _ _ _ hc
  -- the outcome of the Pedersen check, case by case
  have key : (∃ spec a b t,
        c.ComponentType = ComponentType.claim (SchemeType.pedersen spec) ∧
        env.ristrettoUnmarshal spec.Commitment = some a ∧
        env.ristrettoUnmarshal claim.Commitment = some b ∧
        env.ristrettoUnmarshal spec.TargetCommitment = some t ∧
        env.ristrettoAdd a b = t ∧ env.invalidKey (ownKey env will) = false ∧
        processPedersenClaim env s will i c claim
          = ((updateWillStatusAndStore env s (markClaimed will i)).1, none) ∧
        GetWillByID env (updateWillStatusAndStore env s (markClaimed will i)).1
            (idString will.Creator will.Name will.Beneficiary will.Height)
          = some (Except.ok (markClaimed will i))) ∨
      ((∃ e, processPedersenClaim env s will i c claim = (s, some e)) ∧
        ¬ ∃ spec a b t,
          c.ComponentType = ComponentType.claim (SchemeType.pedersen spec) ∧
          env.ristrettoUnmarshal spec.Commitment = some a ∧
          env.ristrettoUnmarshal claim.Commitment = some b ∧
          env.ristrettoUnmarshal spec.TargetCommitment = some t ∧
          env.ristrettoAdd a b = t ∧ env.invalidKey (ownKey env will) = false) := by
    have hcases := processPedersenClaim_cases env s will i c claim
    rcases Option.eq_none_or_eq_some (getPedersen c) with hp | ⟨spec, hp⟩
    · right
      refine ⟨⟨_, hcases.1 hp⟩, ?_⟩
      rintro ⟨spec, a, b, t, h1, -⟩
      rw [(getPedersen_eq_some c spec).2 h1] at hp
      simp at hp
    have hty := (getPedersen_eq_some c spec).1 hp
    have hspec : ∀ sp, c.ComponentType = ComponentType.claim (SchemeType.pedersen sp) →
        sp = spec := by
      intro sp h; rw [hty] at h; injection h with h; injection h with h; exact h.symm
    have h1 := hcases.2 spec hp
    rcases Option.eq_none_or_eq_some (env.ristrettoUnmarshal spec.Commitment) with ha | ⟨a, ha⟩
    · right
      refine ⟨⟨_, h1.1 ha⟩, ?_⟩
      rintro ⟨sp, a, b, t, h1, h2, -⟩
      rw [hspec sp h1, ha] at h2; simp at h2
    have h2 := h1.2 a ha
    rcases Option.eq_none_or_eq_some (env.ristrettoUnmarshal claim.Commitment) with hb | ⟨b, hb⟩
    · right
      refine ⟨⟨_, h2.1 hb⟩, ?_⟩
      rintro ⟨sp, a', b, t, -, -, h3, -⟩
      rw [hb] at h3; simp at h3
    have h3 := h2.2 b hb
    rcases Option.eq_none_or_eq_some (env.ristrettoUnmarshal spec.TargetCommitment)
      with ht | ⟨t, ht⟩
    · right
      refine ⟨⟨_, h3.1 ht⟩, ?_⟩
      rintro ⟨sp, a', b', t, h1, -, -, h4, -⟩
      rw [hspec sp h1, ht] at h4; simp at h4
    have h4 := h3.2 t ht
    by_cases heq : env.ristrettoAdd a b = t
    · have hE : env.ristrettoEquals (env.ristrettoAdd a b) t = true := (hEq _ _).2 heq
      by_cases hk : env.invalidKey (ownKey env will) = false
      · left
        have hu := updateWillStatusAndStore_ok env hcodec s (markClaimed will i)
          (by rw [hown]; exact hk)
        refine ⟨spec, a, b, t, hty, ha, hb, ht, heq, hk, ?_, ?_⟩
        · rw [h4.2 hE]
          exact Prod.ext rfl hu.1
        · rw [← hidm]; exact hu.2
      · right
        have hk' : env.invalidKey (ownKey env will) = true := by
          simpa using hk
        refine ⟨⟨Err.storeSet, ?_⟩, ?_⟩
        · rw [h4.2 hE]
          exact updateWillStatusAndStore_fail env s _ (by rw [hown]; exact hk')
        · rintro ⟨_, _, _, _, -, -, -, -, -, h6⟩
          exact hk h6
    · right
      have hE : env.ristrettoEquals (env.ristrettoAdd a b) t = false := by
        cases h : env.ristrettoEquals (env.ristrettoAdd a b) t
        · rfl
        · exact absurd ((hEq _ _).1 h) heq
      refine ⟨⟨Err.commitmentVerificationFailed, h4.1 hE⟩, ?_⟩
      rintro ⟨sp, a', b', t', h1, h2, h3, h4, h5, -⟩
      rw [hspec sp h1, ha] at h2
      rw [hb] at h3
      rw [hspec sp h1, ht] at h4
      simp only [Option.some.injEq] at h2 h3 h4
      subst h2 h3 h4
      exact heq h5
  refine ⟨?_, ?_, ?_, ?_⟩
  · constructor
    · rintro ⟨s', hs'⟩
      rcases key with ⟨spec, a, b, t, h1, h2, h3, h4, h5, h6, -, -⟩ | ⟨⟨e, he⟩, -⟩
      · exact ⟨spec, a, b, t, h1, h2, h3, h4, h5, h6⟩
      · rw [hclaim, he] at hs'; simp at hs'
    · rintro hcond
      rcases key with ⟨_, _, _, _, -, -, -, -, -, -, hp, -⟩ | ⟨-, hn⟩
      · exact ⟨_, by rw [hclaim, hp]⟩
      · exact absurd hcond hn
  · intro s' hs'
    rcases key with ⟨_, _, _, _, -, -, -, -, -, -, hp, hg⟩ | ⟨⟨e, he⟩, -⟩
    · rw [hclaim, hp] at hs'
      simp only [Option.some.injEq, Prod.mk.injEq, true_and] at hs'
      rw [← hs']
      exact ⟨hg, hcomp⟩
    · rw [hclaim, he] at hs'; simp at hs'
  · intro hno
    rcases key with ⟨_, _, _, _, -, -, -, -, -, -, hp, -⟩ | ⟨⟨e, he⟩, -⟩
    · exact absurd ⟨_, by rw [hclaim, hp]⟩ hno
    · exact ⟨e, by rw [hclaim, he]⟩
  · intro spec a b t h1 h2 h3 h4 h5
    rw [hclaim]
    have hE : env.ristrettoEquals (env.ristrettoAdd a b) t = false := by
      cases h : env.ristrettoEquals (env.ristrettoAdd a b) t
      · rfl
      · exact absurd ((hEq _ _).1 h) h5
    have hp := (getPedersen_eq_some c spec).2 h1
    rw [((((processPedersenClaim_cases env s will i c claim).2 spec hp).2 a h2).2 b h3).2 t h4
      |>.1 hE]

/-- C12, counterexample: a will created with an empty creator is stored,
expires at its height and has an active Pedersen component; the stored
commitment 5, the submitted 7 and the target 12 deserialize, 5 + 7 is 12 and
the write key is valid, yet the claim returns the blank-will error. -/
theorem Claim_pedersen_rejects_blank_will :
    CreateWill env0 (emptyStore Val) nobodyRequest
        = some ((some nobodyWill, none), nobodyLive) ∧
      statusAndHeight (GetWillByID env0 nobodyExpired nobodyId) = some (lit "expired", 7) ∧
      componentStatuses (GetWillByID env0 nobodyExpired nobodyId) = some [lit "active"] ∧
      env0.ristrettoUnmarshal [5] = some 5 ∧ env0.ristrettoUnmarshal [7] = some 7 ∧
      env0.ristrettoUnmarshal [12] = some 12 ∧ env0.ristrettoAdd 5 7 = 12 ∧
      env0.invalidKey (env0.GetWillKey nobodyId) = false ∧
      Claim env0 nobodyExpired (claimOn nobodyId (ClaimType.pedersenClaim
          { Commitment := [7], BlindingFactor := [], Value := [] }))
        = some (some Err.willBlank, nobodyExpired) := by
  refine ⟨by rfl, by decide, by decide, by decide, by decide, by decide, by decide,
    by decide, by rfl⟩

/-- C12, amended: for a stored expired will and an active component found by
the claim's component id, a claim with a Pedersen proof returns no error
exactly when the will's id and creator are not empty, the component is a claim
component with a Pedersen requirement, its stored commitment, the submitted
commitment and its target commitment all deserialize, stored plus submitted is
the target point, and the store accepts the write; then the will read back has
that component claimed; otherwise the claim returns an error and the store is
as before, in particular for a target that deserializes to another point.
Point equality is the library's `Equals`, taken to be exact equality. -/
theorem Claim_pedersen_iff (env : Env B E S P)
    (hEq : ∀ a b, env.ristrettoEquals a b = true ↔ a = b)
    (hcodec : ∀ w, env.unmarshalWill (env.marshalWill w) = some w)
    (s : KVStore B) (msg : MsgClaimRequest) (will : Will) (i : Nat)
    (c : ExecutionComponent) (claim : PedersenClaim)
    (hget : GetWillByID env s msg.WillId = some (Except.ok will))
    (hexp : will.Status = lit "expired")
    (hfind : findComponent will.Components msg.ComponentId = some i)
    (hc : will.Components.get? i = some c)
    (hact : c.Status = lit "active")
    (hmsg : msg.ClaimType = ClaimType.pedersenClaim claim) :
    ((∃ s', Claim env s msg = some (none, s')) ↔
      will.ID ≠ [] ∧ will.Creator ≠ [] ∧
      ∃ spec a b t, c.ComponentType = ComponentType.claim (SchemeType.pedersen spec) ∧
        env.ristrettoUnmarshal spec.Commitment = some a ∧
        env.ristrettoUnmarshal claim.Commitment = some b ∧
        env.ristrettoUnmarshal spec.TargetCommitment = some t ∧
        env.ristrettoAdd a b = t ∧ env.invalidKey (ownKey env will) = false) ∧
      (∀ s', Claim env s msg = some (none, s') →
        GetWillByID env s' (idString will.Creator will.Name will.Beneficiary will.Height)
            = some (Except.ok (markClaimed will i)) ∧
          (markClaimed will i).Components.get? i
            = some { c with Status := lit "claimed" }) ∧
      ((¬ ∃ s', Claim env s msg = some (none, s')) →
        ∃ e, Claim env s msg = some (some e, s)) ∧
      (∀ spec a b t, c.ComponentType = ComponentType.claim (SchemeType.pedersen spec) →
        env.ristrettoUnmarshal spec.Commitment = some a →
        env.ristrettoUnmarshal claim.Commitment = some b →
        env.ristrettoUnmarshal spec.TargetCommitment = some t →
        env.ristrettoAdd a b ≠ t →
        ∃ e, Claim env s msg = some (some e, s) ∧
          (will.ID ≠ [] → will.Creator ≠ [] → e = Err.commitmentVerificationFailed)) := by
  by_cases hblank : will.ID = [] ∨ will.Creator = []
  · have hclaim : Claim env s msg = some (some Err.willBlank, s) := by
      unfold Claim
      rw [hget]
      simp only [hblank, if_true]
    have hno : ¬ ∃ s', Claim env s msg = some (none, s') := by
      rintro ⟨s', hs'⟩
      rw [hclaim] at hs'
      simp at hs'
    refine ⟨⟨fun h => absurd h hno, ?_⟩, fun s' hs' => absurd ⟨s', hs'⟩ hno,
      fun _ => ⟨_, hclaim⟩, ?_⟩
    · rintro ⟨h1, h2, -⟩
      rcases hblank with hb | hb
      · exact absurd hb h1
      · exact absurd hb h2
    · intro spec a b t _ _ _ _ _
      refine ⟨_, hclaim, ?_⟩
      intro h1 h2
      rcases hblank with hb | hb
      · exact absurd hb h1
      · exact absurd hb h2
  · simp only [not_or] at hblank
    obtain ⟨hid, hcr⟩ := hblank
    obtain ⟨h1, h2, h3, h4⟩ := Claim_pedersen_nonblank env hEq hcodec s msg will i c claim
      hget hid hcr hexp hfind hc hact hmsg
    refine ⟨?_, h2, h3, ?_⟩
    · rw [h1]
      constructor
      · intro h; exact ⟨hid, hcr, h⟩
      · rintro ⟨-, -, h⟩; exact h
    · intro spec a b t e1 e2 e3 e4 e5
      exact ⟨_, h4 spec a b t e1 e2 e3 e4 e5, fun _ _ => rfl⟩

/-- On alice's expired will the commitment 7 completes the stored 5 to the
target 12, so the Pedersen claim is accepted. -/
theorem Claim_pedersen_iff_witness :
    ∃ s', Claim env0 aliceExpired pedersenGood = some (none, s') :=
  (Claim_pedersen_iff env0 (fun _ _ => decide_eq_true_iff) (fun _ => rfl) aliceExpired
    pedersenGood aliceExpiredWill 0 pedersenActive
    { Commitment := [7], BlindingFactor := [], Value := [] }
    (by decide) (by decide) (by decide) (by decide) (by decide)
    rfl).1.2
    ⟨by decide, by decide, { Commitment := [5], TargetCommitment := [12] }, 5, 7, 12, rfl,
      by decide, by decide, by decide, by decide, by decide⟩

/-- C13: for every public-key field, signature field and message, of any length
and content, the two slices of the decoded signature at half its length are
within bounds and lose nothing; `processSchnorrClaim` returns, with one of its
three error returns and the store untouched or with the result of the final
write, for every index within the will's components, and it panics only at
the final assignment with an index out of range; `Claim` passes the index it
found, so a claim with a Schnorr proof panics only where the lookup of the will
does; and a public key or an `R` part that does not deserialize gives an error
return. -/
theorem processSchnorrClaim_total (env : Env B E S P) (s : KVStore B)
    (claim : SchnorrClaim) (will : Will) (i : Nat) :
    (sliceTo (hexDecode claim.Signature).1 ((hexDecode claim.Signature).1.length / 2)
        = some (rBytes claim) ∧
      sliceFrom (hexDecode claim.Signature).1 ((hexDecode claim.Signature).1.length / 2)
        = some (sBytes claim) ∧
      rBytes claim ++ sBytes claim = (hexDecode claim.Signature).1) ∧
      (i < will.Components.length →
        ∃ r, processSchnorrClaim env s claim will i = some r ∧
          (r = (s, some Err.unmarshalPublicKey) ∨ r = (s, some Err.unmarshalR) ∨
            r = (s, some Err.schnorrVerificationFailed) ∨
            r = updateWillStatusAndStore env s (markClaimed will i))) ∧
      (processSchnorrClaim env s claim will i = none → will.Components.length ≤ i) ∧
      (∀ (st : KVStore B) (msg : MsgClaimRequest),
        msg.ClaimType = ClaimType.schnorrClaim claim → Claim env st msg = none →
        GetWillByID env st msg.WillId = none) ∧
      (env.edUnmarshal (publicKeyBytes claim) = none →
        processSchnorrClaim env s claim will i = some (s, some Err.unmarshalPublicKey)) ∧
      (env.edUnmarshal (rBytes claim) = none →
        processSchnorrClaim env s claim will i = some (s, some Err.unmarshalPublicKey) ∨
          processSchnorrClaim env s claim will i = some (s, some Err.unmarshalR)) := by
  have hcases := processSchnorrClaim_cases env s claim will i
  have hret : i < will.Components.length →
      ∃ r, processSchnorrClaim env s claim will i = some r := by
    intro hlt
    rcases Option.eq_none_or_eq_some (env.edUnmarshal (publicKeyBytes claim))
      with hp | ⟨pk, hp⟩
    · exact ⟨_, hcases.1 hp⟩
    · rcases Option.eq_none_or_eq_some (env.edUnmarshal (rBytes claim)) with hr | ⟨r, hr⟩
      · exact ⟨_, (hcases.2 pk hp).1 hr⟩
      · rcases Bool.eq_false_or_eq_true (env.schnorrVerify
          (env.schnorrHash (claim.Message ++ hexEncode (publicKeyBytes claim)))
          r (env.scalarSetBytes (sBytes claim)) pk) with hv | hv
        · exact ⟨_, (((hcases.2 pk hp).2 r hr).2 hv).1 hlt⟩
        · exact ⟨_, ((hcases.2 pk hp).2 r hr).1 hv⟩
  refine ⟨⟨sliceTo_half _, sliceFrom_half _, List.take_append_drop _ _⟩, ?_, ?_, ?_,
    hcases.1, ?_⟩
  · intro hlt
    obtain ⟨r, hr⟩ := hret hlt
    exact ⟨r, hr, processSchnorrClaim_result env s claim will i r hr⟩
  · intro hnone
    by_contra hn
    obtain ⟨r, hr⟩ := hret (Nat.lt_of_not_le hn)
    rw [hnone] at hr
    simp at hr
  · intro st msg hmsg h
    exact Claim_schnorr_no_panic env st msg claim hmsg h
  · intro h
    rcases Option.eq_none_or_eq_some (env.edUnmarshal (publicKeyBytes claim))
      with hp | ⟨pk, hp⟩
    · exact Or.inl (hcases.1 hp)
    · exact Or.inr ((hcases.2 pk hp).1 h)

/-- A public key field that is not hex decodes to no bytes, which is not a
point: the Schnorr check returns the public-key error and the store as it was;
and the Schnorr claim on alice's expired will returns. -/
theorem processSchnorrClaim_total_witness :
    processSchnorrClaim env0 aliceExpired schnorrNoKey aliceExpiredWill 0
        = some (aliceExpired, some Err.unmarshalPublicKey) ∧
      ∃ r, processSchnorrClaim env0 aliceExpired schnorrNoKey aliceExpiredWill 0 = some r ∧
        (r = (aliceExpired, some Err.unmarshalPublicKey) ∨
          r = (aliceExpired, some Err.unmarshalR) ∨
          r = (aliceExpired, some Err.schnorrVerificationFailed) ∨
          r = updateWillStatusAndStore env0 aliceExpired (markClaimed aliceExpiredWill 0)) :=
  ⟨(processSchnorrClaim_total env0 aliceExpired schnorrNoKey aliceExpiredWill 0).2.2.2.2.1
      (by decide),
    (processSchnorrClaim_total env0 aliceExpired schnorrNoKey aliceExpiredWill 0).2.1
      (by decide)⟩

/-- C14, at the failing input: both hex fields of the claim are malformed
(`hex.DecodeString` reports an error for each), yet the claim is accepted on
the bytes decoded before the error and the component is stored as Claimed. -/
theorem Claim_accepts_malformed_hex :
    (hexDecode (lit "03zz")).2 = true ∧ (hexDecode (lit "0a21z")).2 = true ∧
      componentStatuses (GetWillByID env0 carolExpired carolId) = some [lit "active"] ∧
      (Claim env0 carolExpired schnorrMalformed).map Prod.fst = some none ∧
      componentStatuses (GetWillByID env0 (storeAfterClaim carolExpired schnorrMalformed)
          carolId) = some [lit "claimed"] := by
  decide

/-- C15, at the failing input: after the single creation of alice's will at
height 5, `ListWillsByAddress` of the address "5" returns that will, whose
creator is "alice". -/
theorem ListWillsByAddress_returns_other_creator :
    (CreateWill env0 (emptyStore Val) aliceAtFive).map (fun r => r.1.1.isSome) = some true ∧
      (ListWillsByAddress env0 aliceAtFiveLive (lit "5")).map
          (fun r => r.map (fun ws => ws.map (fun w => (w.Creator, w.Height))))
        = some (Except.ok [(lit "alice", 5)]) := by
  decide

/-- C16, at the failing input: the creator index of "alice" lists alice's will
and an id without a record; `ListWillsByAddress` returns two elements, the
second being the zero will read for the missing id. -/
theorem ListWillsByAddress_lists_missing_record :
    idsUnder ghostStore (lit "alice") = some [aliceId, lit "ghost"] ∧
      ghostStore (env0.GetWillKey (lit "ghost")) = none ∧
      ListWillsByAddress env0 ghostStore (lit "alice")
        = some (Except.ok [aliceWill, Will.zero]) := by
  decide

/-- C17: in a store reachable from the empty store, after a `BeginBlocker` at
height `h` has returned, a second `BeginBlocker` at `h` makes no external call
and returns the store it was given, provided the key function is injective and
the codec reads a will back as written and never reads an id list as a live
will. -/
theorem BeginBlocker_second_run_idle (env : Env B E S P) (hlaw : Lawful env)
    (host host' : Host) (s : KVStore B) (hs : Reachable env s) (h : Int)
    (r : Option Err × KVStore B × List Call) (hrun : BeginBlocker env host s h = some r) :
    BeginBlocker env host' r.2.1 h = some (none, r.2.1, []) := by
  rw [BeginBlocker_eq] at hrun
  rcases Option.eq_none_or_eq_some (heightIndex env s h) with hi | ⟨ids, hi⟩
  · rw [hi] at hrun
    simp only [Option.some.injEq] at hrun
    subst hrun
    rw [BeginBlocker_eq, hi]
  · rw [hi] at hrun
    obtain ⟨e, s1, calls1⟩ := r
    obtain ⟨-, -, hc, hsett, -⟩ :=
      processWills_run hlaw host ids s [] e s1 calls1 hs.consistent hrun
    rw [BeginBlocker_eq, hc.heightIndex hlaw h, hi]
    exact processWills_settled env host' ids s1 [] hsett

/-- After alice's will expired at height 7, the scheduler run again at height
7 makes no call and leaves the store as it is. -/
theorem BeginBlocker_second_run_idle_witness :
    BeginBlocker env0 host0 aliceLive 7 = some (none, aliceExpired, []) ∧
      BeginBlocker env0 host0 aliceExpired 7 = some (none, aliceExpired, []) :=
  ⟨by rfl,
    BeginBlocker_second_run_idle env0 env0_lawful host0 host0 aliceLive
      (Reachable.create (emptyStore Val) aliceRequest ((some aliceWill, none), aliceLive)
        Reachable.empty (by rfl))
      7 (none, aliceExpired, []) (by rfl)⟩

/-- C18, at the failing input: the bank refuses the transfer of dave's will
(one `SendCoins` call, no transfer event), and after the run the transfer
component is stored as executed all the same. -/
theorem BeginBlocker_marks_failed_transfer_executed :
    ExecuteTransfer hostBankDown [] transferComponent daveWill
      = some (some Err.sendCoins,
          [Call.sendCoins (lit "dave") (lit "bob") [{ Denom := lit "w3ll", Amount := 5 }]]) ∧
      callsOf (BeginBlocker env0 hostBankDown daveLive 7)
        = some [Call.sendCoins (lit "dave") (lit "bob") [{ Denom := lit "w3ll", Amount := 5 }]] ∧
      (storeOf (BeginBlocker env0 hostBankDown daveLive 7)).map
          (fun s => componentStatuses (GetWillByID env0 s daveId))
        = some (some [lit "executed"]) := by
  decide

/-- When `BeginBlocker` at height `h` returns from a consistent store (as
every reachable store is), its calls of the transfer primitive are, in order,
exactly one per transfer component of each live will listed at `h` (each will
once); for a will whose creator and recipient addresses parse, that call sends
the component's amount from the will's creator to the component's `To`, and the
component is stored as executed in the expired will. -/
theorem BeginBlocker_transfers_once (env : Env B E S P) (hlaw : Lawful env) (host : Host)
    (s : KVStore B) (hs : Consistent env s) (h : Int) (ids : List GoString)
    (hidx : heightIndex env s h = some ids) (e : Option Err) (s1 : KVStore B)
    (calls : List Call) (hrun : BeginBlocker env host s h = some (e, s1, calls)) :
    calls.filter Call.isSendCoins
        = (liveWills env s ids []).flatMap
            (fun w => w.Components.filterMap (bankCall host w)) ∧
      (liveWills env s ids []).Nodup ∧
      (∀ w, w ∈ liveWills env s ids [] ↔
        ∃ id ∈ ids, GetWillByID env s id = some (Except.ok w) ∧ w.Status = lit "live") ∧
      (∀ id ∈ ids, ∀ w, GetWillByID env s id = some (Except.ok w) → w.Status = lit "live" →
        ∃ comps1, GetWillByID env s1 id = some (Except.ok (expireWith w comps1)) ∧
          ∀ i c t, w.Components.get? i = some c →
            c.ComponentType = ComponentType.transfer t →
            comps1.get? i = some { c with Status := lit "executed" } ∧
            ∀ fromAddr toAddr, host.accAddressFromBech32 w.Creator = some fromAddr →
              host.accAddressFromBech32 t.To = some toAddr →
              ∃ coins, amountCoins host t = some coins ∧
                bankCall host w c = some (Call.sendCoins fromAddr toAddr coins)) := by
  rw [BeginBlocker_eq, hidx] at hrun
  simp only at hrun
  have htrace := processWills_trace hlaw host s ids s [] [] e s1 calls hs
    (by simp) (fun _ _ => rfl) hrun
  obtain ⟨-, -, -, -, hper⟩ := processWills_run hlaw host ids s [] e s1 calls hs hrun
  refine ⟨?_, liveWills_nodup hlaw s hs ids [], ?_, ?_⟩
  · have := traceOf_sends host _ _ _ htrace
    simpa using this
  · intro w
    rw [liveWills_mem]
    simp
  · intro id hid w hget hlive
    obtain ⟨c0, rs, -, -, hrs, hrec⟩ := hper id hid w hget hlive
    have hvalid := (live_record env hlaw s hs id w hget hlive).2.2
    refine ⟨rs.1, GetWillByID_of_record env hlaw s1 id _ hvalid hrec, ?_⟩
    intro i c t hi hty
    refine ⟨runComponents_transfer_status host w _ c0 rs hrs i c t hi hty, ?_⟩
    intro fromAddr toAddr hf hto
    obtain ⟨coins, hc⟩ := runComponents_coins host w _ c0 rs hrs i c t hi hty
    refine ⟨coins, hc, ?_⟩
    rw [bankCall_transfer host w c t hty]
    simp [hc, hf, hto]

/-- The run at height 7 over dave's live will makes the one bank call of its
transfer component, from "dave" to "bob", and stores the component as
executed. -/
theorem BeginBlocker_transfers_once_witness :
    (liveWills env0 daveLive [daveId] []).flatMap
        (fun w => w.Components.filterMap (bankCall host0 w))
      = [Call.sendCoins (lit "dave") (lit "bob") [{ Denom := lit "w3ll", Amount := 5 }]] ∧
    callsOf (BeginBlocker env0 host0 daveLive 7)
      = some [Call.sendCoins (lit "dave") (lit "bob") [{ Denom := lit "w3ll", Amount := 5 }],
          Call.emitEvent (lit "pay") daveId (lit "dave") (lit "bob")
            [{ Denom := lit "w3ll", Amount := 5 }]] ∧
    (storeOf (BeginBlocker env0 host0 daveLive 7)).map
        (fun s => componentStatuses (GetWillByID env0 s daveId))
      = some (some [lit "executed"]) ∧
    [Call.sendCoins (lit "dave") (lit "bob") [{ Denom := lit "w3ll", Amount := 5 }],
        Call.emitEvent (lit "pay") daveId (lit "dave") (lit "bob")
          [{ Denom := lit "w3ll", Amount := 5 }]].filter Call.isSendCoins
      = (liveWills env0 daveLive [daveId] []).flatMap
          (fun w => w.Components.filterMap (bankCall host0 w)) :=
  ⟨by decide, by decide, by decide,
    (BeginBlocker_transfers_once env0 env0_lawful host0 daveLive
      (Reachable.consistent (Reachable.create (emptyStore Val) daveRequest
        ((some daveWill, none), daveLive) Reachable.empty (by rfl)))
      7 [daveId] (by decide) none (storeAfterBlock daveLive 7) _ (by rfl)).1⟩

/-- C19, at the failing input: mallory's will, whose transfer carries -5 w3ll,
is created and listed at height 7 before dave's; dave's will is live, its
addresses parse and its transfer stands for one call of the bank; the run at
height 7 panics in `sdk.NewCoins` on mallory's coin, so it makes no call for
dave's transfer and stores nothing. -/
theorem BeginBlocker_panic_skips_transfer :
    CreateWill env0 (emptyStore Val) malloryRequest
        = some ((some malloryWill, none), storeAfterCreate (emptyStore Val) malloryRequest) ∧
      heightIndex env0 malloryAndDave 7 = some [malloryId, daveId] ∧
      GetWillByID env0 malloryAndDave daveId = some (Except.ok daveWill) ∧
      bankCall hostChecked daveWill transferComponent
        = some (Call.sendCoins (lit "dave") (lit "bob") [{ Denom := lit "w3ll", Amount := 5 }]) ∧
      ExecuteTransfer hostChecked [] badCoinComponent malloryWill = none ∧
      BeginBlocker env0 hostChecked malloryAndDave 7 = none := by
  refine ⟨by rfl, by decide, by decide, by decide, by decide, by rfl⟩

/-- C20, at the failing input: the component asks for channel "channel-7",
port "transfer" and payload "hello"; the scheduler calls the messenger on the
fixed development channel, port and payload instead. -/
theorem BeginBlocker_sends_fixed_packet :
    callsOf (BeginBlocker env0 host0 erinLive 7)
      = some [Call.getNextSequenceSend devPortID devChannelID,
          Call.getCapability devPortID devChannelID,
          Call.sendPacket devPortID devChannelID devData] ∧
      devChannelID ≠ lit "channel-7" ∧ devPortID ≠ lit "transfer" ∧ devData ≠ lit "hello" := by
  decide

/-- On a consistent store (as every reachable store is, so that the
writes succeed) whose listed records decode and whose listed live wills carry
valid coins, `BeginBlocker` at height `h` returns without error for every
behaviour of the collaborators, and every will listed at `h` that was live is
read back expired; each of its components is the result of one pass of the
component loop on the stored component, the passes being made in order on the
calls so far; a contract component whose call returned an error is stored as
it was and the components after it are passed all the same. -/
theorem BeginBlocker_continues_after_failure (env : Env B E S P) (hlaw : Lawful env)
    (host : Host) (s : KVStore B) (hs : Consistent env s) (h : Int) (ids : List GoString)
    (hidx : heightIndex env s h = some ids)
    (hdec : ∀ id ∈ ids, GetWillByID env s id ≠ none)
    (hcoin : ∀ id ∈ ids, ∀ w, GetWillByID env s id = some (Except.ok w) →
      w.Status = lit "live" → ∀ c ∈ w.Components, ∀ t,
      c.ComponentType = ComponentType.transfer t → amountCoins host t ≠ none) :
    ∃ s1 calls, BeginBlocker env host s h = some (none, s1, calls) ∧
      ∀ id ∈ ids, ∀ w, GetWillByID env s id = some (Except.ok w) → w.Status = lit "live" →
        ∃ comps1, GetWillByID env s1 id = some (Except.ok (expireWith w comps1)) ∧
          (expireWith w comps1).Status = lit "expired" ∧
          comps1.length = w.Components.length ∧
          ∀ i c, w.Components.get? i = some c →
            ∃ before r, runComponent host w before c = some r ∧ r.2 <+: calls ∧
              comps1.get? i = some r.1 ∧
              ∀ cc, c.ComponentType = ComponentType.contract cc →
                ((ExecuteContract host before cc).1 ≠ none → r.1 = c) ∧
                ((ExecuteContract host before cc).1 = none →
                  r.1 = { c with Status := lit "executed" }) := by
  obtain ⟨⟨e, s1, calls⟩, hrun⟩ := processWills_returns hlaw host ids s [] hs hdec hcoin
  obtain ⟨he, -, -, -, hper⟩ := processWills_run hlaw host ids s [] e s1 calls hs hrun
  subst he
  refine ⟨s1, calls, by rw [BeginBlocker_eq, hidx]; exact hrun, ?_⟩
  intro id hid w hget hlive
  obtain ⟨c0, rs, -, hpre, hrs, hrec⟩ := hper id hid w hget hlive
  have hvalid := (live_record env hlaw s hs id w hget hlive).2.2
  obtain ⟨hlen, heach⟩ := runComponents_each host w w.Components c0 rs hrs
  refine ⟨rs.1, GetWillByID_of_record env hlaw s1 id _ hvalid hrec, rfl, hlen, ?_⟩
  intro i c hi
  obtain ⟨before, r, -, ha, hr, hg⟩ := heach i c hi
  refine ⟨before, r, hr, ha.trans hpre, hg, ?_⟩
  intro cc hty
  rw [runComponent_contract host w before c cc hty] at hr
  simp only [Option.some.injEq] at hr
  constructor
  · intro hf
    rw [← hr]
    simp [hf]
  · intro hf
    rw [← hr]
    simp [hf]

/-- With a contract engine that refuses every call, the run at height 7 over
grace's and dave's wills returns: grace's contract component keeps its status,
her transfer after it is made and her claim component becomes active, and
dave's will after hers is run as well. -/
theorem BeginBlocker_continues_after_failure_witness :
    (∃ s1 calls, BeginBlocker env0 hostContractDown graceAndDave 7 = some (none, s1, calls) ∧
      ∀ id ∈ [graceId, daveId], ∀ w,
        GetWillByID env0 graceAndDave id = some (Except.ok w) → w.Status = lit "live" →
        ∃ comps1, GetWillByID env0 s1 id = some (Except.ok (expireWith w comps1)) ∧
          (expireWith w comps1).Status = lit "expired" ∧
          comps1.length = w.Components.length ∧
          ∀ i c, w.Components.get? i = some c →
            ∃ before r, runComponent hostContractDown w before c = some r ∧ r.2 <+: calls ∧
              comps1.get? i = some r.1 ∧
              ∀ cc, c.ComponentType = ComponentType.contract cc →
                ((ExecuteContract hostContractDown before cc).1 ≠ none → r.1 = c) ∧
                ((ExecuteContract hostContractDown before cc).1 = none →
                  r.1 = { c with Status := lit "executed" })) ∧
    callsOf (BeginBlocker env0 hostContractDown graceAndDave 7)
      = some [Call.execute (lit "vault") [] (lit "run") [],
          Call.sendCoins (lit "grace") (lit "bob") [{ Denom := lit "w3ll", Amount := 5 }],
          Call.emitEvent (lit "pay") graceId (lit "grace") (lit "bob")
            [{ Denom := lit "w3ll", Amount := 5 }],
          Call.sendCoins (lit "dave") (lit "bob") [{ Denom := lit "w3ll", Amount := 5 }],
          Call.emitEvent (lit "pay") daveId (lit "dave") (lit "bob")
            [{ Denom := lit "w3ll", Amount := 5 }]] ∧
    (storeOf (BeginBlocker env0 hostContractDown graceAndDave 7)).map
        (fun s => (statusAndHeight (GetWillByID env0 s graceId),
          componentStatuses (GetWillByID env0 s graceId),
          statusAndHeight (GetWillByID env0 s daveId),
          componentStatuses (GetWillByID env0 s daveId)))
      = some (some (lit "expired", 7), some [lit "pending", lit "executed", lit "active"],
          some (lit "expired", 7), some [lit "executed"]) :=
  ⟨BeginBlocker_continues_after_failure env0 env0_lawful hostContractDown graceAndDave
      (Reachable.consistent (Reachable.create graceLive daveRequest
        ((some daveWill, none), graceAndDave)
        (Reachable.create (emptyStore Val) graceRequest ((some graceWill, none), graceLive)
          Reachable.empty (by rfl)) (by rfl)))
      7 [graceId, daveId] (by decide) (by decide)
      (by
        intro id hid w hw _ c hc t ht
        have hg : GetWillByID env0 graceAndDave graceId = some (Except.ok graceWill) := by
          decide
        have hd : GetWillByID env0 graceAndDave daveId = some (Except.ok daveWill) := by
          decide
        have hcomp : c = transferComponent ∨ (∀ t', c.ComponentType ≠ ComponentType.transfer t') := by
          simp only [List.mem_cons, List.mem_singleton, List.not_mem_nil, or_false] at hid
          rcases hid with rfl | rfl
          · rw [hg] at hw
            simp only [Option.some.injEq, Except.ok.injEq] at hw
            subst hw
            simp only [graceWill, List.mem_cons, List.mem_singleton, List.not_mem_nil,
              or_false] at hc
            rcases hc with rfl | rfl | rfl
            · right; intro t' h'; simp [contractComponent] at h'
            · left; rfl
            · right; intro t' h'; simp [schnorrComponent] at h'
          · rw [hd] at hw
            simp only [Option.some.injEq, Except.ok.injEq] at hw
            subst hw
            simp only [daveWill, List.mem_cons, List.mem_singleton, List.not_mem_nil,
              or_false] at hc
            left; exact hc
        rcases hcomp with rfl | hno
        · simp only [transferComponent, ComponentType.transfer.injEq] at ht
          subst ht
          decide
        · exact absurd ht (hno t)),
    by decide, by rfl⟩

/-- C21, at the failing input: the wills of mallory (a transfer of -5 w3ll) and
of dave are created and listed at height 7, both live; `sdk.NewCoins` panics on
mallory's coin and the run at height 7 panics with it, so neither will is
stored as expired and dave's will is not processed.  A transfer without an
amount (nemo's will) stops the run in the same way, for every host. -/
theorem BeginBlocker_panics_on_bad_coin :
    heightIndex env0 malloryAndDave 7 = some [malloryId, daveId] ∧
      GetWillByID env0 malloryAndDave malloryId = some (Except.ok malloryWill) ∧
      GetWillByID env0 malloryAndDave daveId = some (Except.ok daveWill) ∧
      malloryWill.Status = lit "live" ∧ daveWill.Status = lit "live" ∧
      hostChecked.newCoins [{ Denom := lit "w3ll", Amount := -5 }] = none ∧
      runComponent hostChecked malloryWill [] badCoinComponent = none ∧
      BeginBlocker env0 hostChecked malloryAndDave 7 = none ∧
      heightIndex env0 nemoAndDave 7 = some [nemoId, daveId] ∧
      GetWillByID env0 nemoAndDave nemoId = some (Except.ok nemoWill) ∧
      (∀ host calls, runComponent host nemoWill calls noAmountComponent = none) ∧
      (∀ host, BeginBlocker env0 host nemoAndDave 7 = none) := by
  refine ⟨by decide, by decide, by decide, by decide, by decide, by decide, by decide,
    by rfl, by decide, by decide, fun _ _ => rfl, fun _ => rfl⟩

/-- Under the conditions of a returning run (consistent store, listed
records decode, coins of listed live wills valid), `BeginBlocker` at height `h`
returns, and for every live will listed at `h` every claim component is stored
with status "active" in the expired will; the pass of the component loop on a
claim component returns the calls it was given, whatever they are, so no
collaborator is called for it. -/
theorem BeginBlocker_activates_claims (env : Env B E S P) (hlaw : Lawful env)
    (host : Host) (s : KVStore B) (hs : Consistent env s) (h : Int) (ids : List GoString)
    (hidx : heightIndex env s h = some ids)
    (hdec : ∀ id ∈ ids, GetWillByID env s id ≠ none)
    (hcoin : ∀ id ∈ ids, ∀ w, GetWillByID env s id = some (Except.ok w) →
      w.Status = lit "live" → ∀ c ∈ w.Components, ∀ t,
      c.ComponentType = ComponentType.transfer t → amountCoins host t ≠ none) :
    ∃ s1 calls, BeginBlocker env host s h = some (none, s1, calls) ∧
      ∀ id ∈ ids, ∀ w, GetWillByID env s id = some (Except.ok w) → w.Status = lit "live" →
        ∃ comps1, GetWillByID env s1 id = some (Except.ok (expireWith w comps1)) ∧
          ∀ i c scheme, w.Components.get? i = some c →
            c.ComponentType = ComponentType.claim scheme →
            comps1.get? i = some { c with Status := lit "active" } ∧
            ∀ before, runComponent host w before c
              = some ({ c with Status := lit "active" }, before) := by
  obtain ⟨⟨e, s1, calls⟩, hrun⟩ := processWills_returns hlaw host ids s [] hs hdec hcoin
  obtain ⟨he, -, -, -, hper⟩ := processWills_run hlaw host ids s [] e s1 calls hs hrun
  subst he
  refine ⟨s1, calls, by rw [BeginBlocker_eq, hidx]; exact hrun, ?_⟩
  intro id hid w hget hlive
  obtain ⟨c0, rs, -, -, hrs, hrec⟩ := hper id hid w hget hlive
  have hvalid := (live_record env hlaw s hs id w hget hlive).2.2
  obtain ⟨-, heach⟩ := runComponents_each host w w.Components c0 rs hrs
  refine ⟨rs.1, GetWillByID_of_record env hlaw s1 id _ hvalid hrec, ?_⟩
  intro i c scheme hi hty
  obtain ⟨before, r, -, -, hr, hg⟩ := heach i c hi
  rw [runComponent_claim host w before c scheme hty] at hr
  simp only [Option.some.injEq] at hr
  refine ⟨by rw [hg, ← hr], fun before' => runComponent_claim host w before' c scheme hty⟩

/-- The run at height 7 over alice's will, whose one component is a claim
component, makes no call and stores the component as active. -/
theorem BeginBlocker_activates_claims_witness :
    (∃ s1 calls, BeginBlocker env0 host0 aliceLive 7 = some (none, s1, calls) ∧
      ∀ id ∈ [aliceId], ∀ w, GetWillByID env0 aliceLive id = some (Except.ok w) →
        w.Status = lit "live" →
        ∃ comps1, GetWillByID env0 s1 id = some (Except.ok (expireWith w comps1)) ∧
          ∀ i c scheme, w.Components.get? i = some c →
            c.ComponentType = ComponentType.claim scheme →
            comps1.get? i = some { c with Status := lit "active" } ∧
            ∀ before, runComponent host0 w before c
              = some ({ c with Status := lit "active" }, before)) ∧
    callsOf (BeginBlocker env0 host0 aliceLive 7) = some [] ∧
    (storeOf (BeginBlocker env0 host0 aliceLive 7)).map
        (fun s => componentStatuses (GetWillByID env0 s aliceId))
      = some (some [lit "active"]) :=
  ⟨BeginBlocker_activates_claims env0 env0_lawful host0 aliceLive
      (Reachable.consistent (Reachable.create (emptyStore Val) aliceRequest
        ((some aliceWill, none), aliceLive) Reachable.empty (by rfl)))
      7 [aliceId] (by decide) (by decide)
      (by
        intro id hid w hw _ c hc t ht
        have hg : GetWillByID env0 aliceLive aliceId = some (Except.ok aliceWill) := by
          decide
        simp only [List.mem_singleton] at hid
        subst hid
        rw [hg] at hw
        simp only [Option.some.injEq, Except.ok.injEq] at hw
        subst hw
        simp only [aliceWill, List.mem_singleton] at hc
        subst hc
        revert ht
        simp [pedersenComponent]),
    by decide, by decide⟩

/-- C22, at the failing input: alice's will, whose one component is a claim
component with status "pending", is live and listed at height 7 before
mallory's will with its transfer of -5 w3ll; the run at height 7 panics on
mallory's coin, so alice's claim component is not stored as active. -/
theorem BeginBlocker_panic_leaves_claim_pending :
    heightIndex env0 aliceAndMallory 7 = some [aliceId, malloryId] ∧
      GetWillByID env0 aliceAndMallory aliceId = some (Except.ok aliceWill) ∧
      aliceWill.Status = lit "live" ∧
      componentStatuses (GetWillByID env0 aliceAndMallory aliceId) = some [lit "pending"] ∧
      BeginBlocker env0 hostChecked aliceAndMallory 7 = none := by
  refine ⟨by decide, by decide, by decide, by decide, by rfl⟩

/-- On a consistent store, `BeginBlocker` at height `h` returns when the
listed records decode and the coins of the listed live wills are valid, and
whenever it returns its calls are the calls of running, one will after the
other and within a will one component after the other in stored order, the
wills that are live when their id is reached in the id list of `h`: these are
the live wills of the list in list order, each once; and the list is in the
order of creation, because a `CreateWill` that returns a will puts its id at
the end of the list of its height. -/
theorem BeginBlocker_call_order (env : Env B E S P) (hlaw : Lawful env) (host : Host)
    (s : KVStore B) (hs : Consistent env s) (h : Int) (ids : List GoString)
    (hidx : heightIndex env s h = some ids) :
    ((∀ id ∈ ids, GetWillByID env s id ≠ none) →
      (∀ id ∈ ids, ∀ w, GetWillByID env s id = some (Except.ok w) →
        w.Status = lit "live" → ∀ c ∈ w.Components, ∀ t,
        c.ComponentType = ComponentType.transfer t → amountCoins host t ≠ none) →
      ∃ s1 calls, BeginBlocker env host s h = some (none, s1, calls)) ∧
      (∀ e s1 calls, BeginBlocker env host s h = some (e, s1, calls) →
        traceOf host (liveWills env s ids []) [] = some calls) ∧
      ((liveWills env s ids []).map ownId).Sublist ids ∧
      (liveWills env s ids []).Nodup ∧
      (∀ w, w ∈ liveWills env s ids [] ↔
        ∃ id ∈ ids, GetWillByID env s id = some (Except.ok w) ∧ w.Status = lit "live") ∧
      (∀ (msg : MsgCreateWillRequest) (w : Will) (e' : Option Err) (s' : KVStore B),
        (∀ l, env.unmarshalIds (env.marshalIds l) = some l) →
        env.invalidKey (env.GetWillKey (Itoa msg.Height)) = false →
        CreateWill env s msg = some ((some w, e'), s') →
        ∃ old, readIds env (s (env.GetWillKey (Itoa msg.Height))) = some old ∧
          heightIndex env s' msg.Height = some (old ++ [w.ID])) := by
  refine ⟨?_, ?_, liveWills_sublist hlaw s hs ids [], liveWills_nodup hlaw s hs ids [],
    ?_, ?_⟩
  · intro hdec hcoin
    obtain ⟨⟨e, s1, calls⟩, hrun⟩ := processWills_returns hlaw host ids s [] hs hdec hcoin
    obtain ⟨he, -⟩ := processWills_run hlaw host ids s [] e s1 calls hs hrun
    subst he
    exact ⟨s1, calls, by rw [BeginBlocker_eq, hidx]; exact hrun⟩
  · intro e s1 calls hrun
    rw [BeginBlocker_eq, hidx] at hrun
    simp only at hrun
    exact processWills_trace hlaw host s ids s [] [] e s1 calls hs (by simp)
      (fun _ _ => rfl) hrun
  · intro w
    rw [liveWills_mem]
    simp
  · intro msg w e' s' hids hvalid hc
    exact CreateWill_appends env hlaw.keyInjective hids s s' msg w e' hvalid hc

/-- Grace's will was created before dave's: the run at height 7 makes the
calls of grace's components in stored order (contract call, transfer; none for
the claim component), then those of dave's transfer. -/
theorem BeginBlocker_call_order_witness :
    heightIndex env0 graceLive 7 = some [graceId] ∧
    heightIndex env0 graceAndDave 7 = some [graceId, daveId] ∧
    liveWills env0 graceAndDave [graceId, daveId] [] = [graceWill, daveWill] ∧
    BeginBlocker env0 host0 graceAndDave 7
      = some (none, storeAfterBlock graceAndDave 7,
          [Call.execute (lit "vault") [] (lit "run") [],
            Call.sendCoins (lit "grace") (lit "bob") [{ Denom := lit "w3ll", Amount := 5 }],
            Call.emitEvent (lit "pay") graceId (lit "grace") (lit "bob")
              [{ Denom := lit "w3ll", Amount := 5 }],
            Call.sendCoins (lit "dave") (lit "bob") [{ Denom := lit "w3ll", Amount := 5 }],
            Call.emitEvent (lit "pay") daveId (lit "dave") (lit "bob")
              [{ Denom := lit "w3ll", Amount := 5 }]]) ∧
    traceOf host0 (liveWills env0 graceAndDave [graceId, daveId] []) []
      = some [Call.execute (lit "vault") [] (lit "run") [],
          Call.sendCoins (lit "grace") (lit "bob") [{ Denom := lit "w3ll", Amount := 5 }],
          Call.emitEvent (lit "pay") graceId (lit "grace") (lit "bob")
            [{ Denom := lit "w3ll", Amount := 5 }],
          Call.sendCoins (lit "dave") (lit "bob") [{ Denom := lit "w3ll", Amount := 5 }],
          Call.emitEvent (lit "pay") daveId (lit "dave") (lit "bob")
            [{ Denom := lit "w3ll", Amount := 5 }]] :=
  ⟨by decide, by decide, by decide, by rfl,
    (BeginBlocker_call_order env0 env0_lawful host0 graceAndDave
      (Reachable.consistent (Reachable.create graceLive daveRequest
        ((some daveWill, none), graceAndDave)
        (Reachable.create (emptyStore Val) graceRequest ((some graceWill, none), graceLive)
          Reachable.empty (by rfl)) (by rfl)))
      7 [graceId, daveId] (by decide)).2.1 none (storeAfterBlock graceAndDave 7) _ (by rfl)⟩

/-- C23, at the failing input: the wills of grace, mallory and dave are live
and listed at height 7 in this order; the calls for grace's components and for
dave's are known, but the run at height 7 panics on mallory's transfer of -5
w3ll, so the calls made are not the calls of the three wills one after the
other: none is made for dave's will. -/
theorem BeginBlocker_panic_cuts_calls :
    heightIndex env0 graceMalloryDave 7 = some [graceId, malloryId, daveId] ∧
      liveWills env0 graceMalloryDave [graceId, malloryId, daveId] []
        = [graceWill, malloryWill, daveWill] ∧
      (runComponents hostChecked graceWill [] graceWill.Components).map (fun r => r.2)
        = some [Call.execute (lit "vault") [] (lit "run") [],
            Call.sendCoins (lit "grace") (lit "bob") [{ Denom := lit "w3ll", Amount := 5 }],
            Call.emitEvent (lit "pay") graceId (lit "grace") (lit "bob") [{ Denom := lit "w3ll", Amount := 5 }]] ∧
      (runComponents hostChecked daveWill [] daveWill.Components).map (fun r => r.2)
        = some [Call.sendCoins (lit "dave") (lit "bob") [{ Denom := lit "w3ll", Amount := 5 }],
            Call.emitEvent (lit "pay") daveId (lit "dave") (lit "bob") [{ Denom := lit "w3ll", Amount := 5 }]] ∧
      runComponents hostChecked malloryWill [] malloryWill.Components = none ∧
      BeginBlocker env0 hostChecked graceMalloryDave 7 = none := by
  refine ⟨by decide, by decide, by decide, by decide, by decide, by rfl⟩

/-- C24, counterexample: frank's request carries a component with status
"claimed"; `CreateWill` returns a will, and the component of the returned and
of the stored will has status "claimed", not "pending". -/
theorem CreateWill_keeps_preset_status :
    CreateWill env0 (emptyStore Val) frankRequest
        = some ((some frankWill, none), frankLive) ∧
      componentStatuses (some (Except.ok frankWill)) = some [lit "claimed"] ∧
      componentStatuses (GetWillByID env0 frankLive frankId) = some [lit "claimed"] ∧
      lit "claimed" ≠ lit "pending" := by
  refine ⟨by rfl, by decide, by decide, by decide⟩

/-- C24, amended: for every creation request for which `CreateWill` returns a
will, the components of the returned will and of the will read back from the
store are the components of the request, each with the status the request
carried (injective keys, a will read back as written). -/
theorem CreateWill_components_as_requested (env : Env B E S P)
    (hkey : Function.Injective env.GetWillKey)
    (hcodec : ∀ w, env.unmarshalWill (env.marshalWill w) = some w)
    (s s' : KVStore B) (msg : MsgCreateWillRequest) (w : Will) (e : Option Err)
    (h : CreateWill env s msg = some ((some w, e), s')) :
    w.Components = msg.Components ∧
      (∃ stored, GetWillByID env s' w.ID = some (Except.ok stored) ∧
        stored.Components = msg.Components) ∧
      ∀ i c, msg.Components.get? i = some c →
        (w.Components.get? i).map (fun x => x.Status) = some c.Status := by
  obtain ⟨hget, hcomp⟩ := CreateWill_read_back env hkey hcodec s s' msg w e h
  refine ⟨hcomp, ⟨w, hget, hcomp⟩, ?_⟩
  intro i c hi
  rw [hcomp, hi]
  rfl

/-- Frank's will is returned and stored with the components of his request,
the status "claimed" included. -/
theorem CreateWill_components_as_requested_witness :
    frankWill.Components = frankRequest.Components ∧
      (∃ stored, GetWillByID env0 frankLive frankWill.ID = some (Except.ok stored) ∧
        stored.Components = frankRequest.Components) ∧
      ∀ i c, frankRequest.Components.get? i = some c →
        (frankWill.Components.get? i).map (fun x => x.Status) = some c.Status :=
  CreateWill_components_as_requested env0 (fun _ _ hab => List.append_cancel_left hab)
    (fun _ => rfl) (emptyStore Val) frankLive frankRequest frankWill none (by rfl)

/-- C25, at the failing input: the tuples ("a-b", "c", "bob", 7) and
("a", "b-c", "bob", 7) differ and have the same identifier; the will created
for the second replaces the record of the first. -/
theorem createWillId_collision :
    hexEncode (createWillId (lit "a-b") (lit "c") (lit "bob") 7)
        = hexEncode (createWillId (lit "a") (lit "b-c") (lit "bob") 7) ∧
      (lit "a-b", lit "c", lit "bob", (7 : Int)) ≠ (lit "a", lit "b-c", lit "bob", 7) ∧
      (GetWillByID env0 (storeAfterCreate (emptyStore Val) dashCreator)
          (idString (lit "a-b") (lit "c") (lit "bob") 7)).map
            (fun r => r.map (fun w => w.Creator))
        = some (Except.ok (lit "a-b")) ∧
      (GetWillByID env0
          (storeAfterCreate (storeAfterCreate (emptyStore Val) dashCreator) dashName)
          (idString (lit "a-b") (lit "c") (lit "bob") 7)).map
            (fun r => r.map (fun w => w.Creator))
        = some (Except.ok (lit "a")) := by
  decide

/-- C26, at the failing input: alice's request is served twice from the empty
store; the id list of height 7 then names her will twice, while the id list of
her address names it once. -/
theorem CreateWill_lists_id_twice :
    CreateWill env0 (emptyStore Val) aliceRequest = some ((some aliceWill, none), aliceLive) ∧
      CreateWill env0 aliceLive aliceRequest = some ((some aliceWill, none), aliceTwice) ∧
      heightIndex env0 aliceTwice 7 = some [aliceId, aliceId] ∧
      idsUnder aliceTwice (lit "alice") = some [aliceId] := by
  refine ⟨by rfl, by rfl, by decide, by decide⟩

/-- C27: in a reachable store, a claim with a Schnorr or Pedersen proof that
returns no error changes the value of one key only, the key of the claimed
will, which then holds the will with the status of the first component with
the requested id set to "claimed": id, creator, name, beneficiary, height and
will status are as before, the components are as many as before and all others
are as before, every other will is read as before, the id list of every height
is as before, and no key loses its value.  Assumes injective keys, a will read
back as written and an id list never read back as a live or expired will. -/
theorem Claim_success_changes_one_status (env : Env B E S P) (hlaw : Lawful env)
    (hids : ∀ l w, env.unmarshalWill (env.marshalIds l) = some w → w.Status ≠ lit "expired")
    (s : KVStore B) (hs : Reachable env s) (msg : MsgClaimRequest) (s' : KVStore B)
    (hproof : (∃ c, msg.ClaimType = ClaimType.schnorrClaim c) ∨
      (∃ c, msg.ClaimType = ClaimType.pedersenClaim c))
    (hok : Claim env s msg = some (none, s')) :
    ∃ will i c, GetWillByID env s msg.WillId = some (Except.ok will) ∧
      findComponent will.Components msg.ComponentId = some i ∧
      will.Components.get? i = some c ∧ c.Id = msg.ComponentId ∧
      (∀ j cj, j < i → will.Components.get? j = some cj → cj.Id ≠ msg.ComponentId) ∧
      GetWillByID env s' msg.WillId = some (Except.ok (markClaimed will i)) ∧
      (markClaimed will i).ID = will.ID ∧ (markClaimed will i).Creator = will.Creator ∧
      (markClaimed will i).Name = will.Name ∧
      (markClaimed will i).Beneficiary = will.Beneficiary ∧
      (markClaimed will i).Height = will.Height ∧
      (markClaimed will i).Status = will.Status ∧
      (markClaimed will i).Components.length = will.Components.length ∧
      (markClaimed will i).Components.get? i = some { c with Status := lit "claimed" } ∧
      (∀ j, j ≠ i → (markClaimed will i).Components.get? j = will.Components.get? j) ∧
      (∀ k, k ≠ env.GetWillKey msg.WillId → s' k = s k) ∧
      (∀ id, id ≠ msg.WillId → GetWillByID env s' id = GetWillByID env s id) ∧
      (∀ h, heightIndex env s' h = heightIndex env s h) ∧
      (∀ k, s k ≠ none → s' k ≠ none) := by
  obtain ⟨will, i, c, hget, -, -, hexp, hfind, hc, -, hdisp⟩ := Claim_ok_cases env s s' msg hok
  have hupd : updateWillStatusAndStore env s (markClaimed will i) = (s', none) := by
    rcases hproof with ⟨cl, hcl⟩ | ⟨cl, hcl⟩
    · unfold dispatchClaim at hdisp
      rw [hcl] at hdisp
      exact processSchnorrClaim_ok env s s' cl will i hdisp
    · unfold dispatchClaim at hdisp
      rw [hcl] at hdisp
      simp only [Option.some.injEq] at hdisp
      exact processPedersenClaim_ok env s s' will i c cl hdisp
  obtain ⟨-, hs'⟩ := updateWillStatusAndStore_none env s s' _ hupd
  obtain ⟨-, hown, hvalid⟩ := expired_record env hlaw hids s hs.consistent msg.WillId will
    hget hexp
  have hkey : ownKey env (markClaimed will i) = env.GetWillKey msg.WillId := hown.symm
  rw [hkey] at hs'
  obtain ⟨c', hc', hcid, hfirst⟩ := findComponent_some will.Components msg.ComponentId i hfind
  rw [hc] at hc'
  simp only [Option.some.injEq] at hc'
  subst hc'
  have hframe : ∀ k, k ≠ env.GetWillKey msg.WillId → s' k = s k := by
    intro k hk
    rw [hs']
    simp [hk]
  have hwid : msg.WillId = ownId will := hlaw.keyInjective hown
  refine ⟨will, i, c, hget, hfind, hc, hcid, hfirst, ?_, rfl, rfl, rfl, rfl, rfl, rfl,
    setStatusAt_length _ _ _, setStatusAt_get _ _ _ _ hc,
    fun j hj => setStatusAt_other _ _ _ _ hj, hframe, ?_, ?_, ?_⟩
  · exact GetWillByID_of_record env hlaw s' msg.WillId _ hvalid (by rw [hs']; simp)
  · intro id hid
    have hk : env.GetWillKey id ≠ env.GetWillKey msg.WillId :=
      fun hh => hid (hlaw.keyInjective hh)
    exact GetWillByID_congr env s' s id id rfl (hframe _ hk)
  · intro h
    refine heightIndex_congr env s s' h (hframe _ ?_)
    intro hh
    have := hlaw.keyInjective hh
    rw [hwid] at this
    exact idString_ne_Itoa_any _ _ _ _ h this.symm
  · intro k hk
    by_cases hkk : k = env.GetWillKey msg.WillId
    · rw [hs']; simp [hkk]
    · rw [hframe k hkk]; exact hk

/-- The Pedersen claim on alice's expired will is accepted and changes the
status of component "c1" in her record, and nothing else. -/
theorem Claim_success_changes_one_status_witness :
    Claim env0 aliceExpired pedersenGood
        = some (none, storeAfterClaim aliceExpired pedersenGood) ∧
      componentStatuses (GetWillByID env0 aliceExpired aliceId) = some [lit "active"] ∧
      componentStatuses (GetWillByID env0 (storeAfterClaim aliceExpired pedersenGood) aliceId)
        = some [lit "claimed"] ∧
      ∀ k, k ≠ env0.GetWillKey pedersenGood.WillId →
        storeAfterClaim aliceExpired pedersenGood k = aliceExpired k :=
  ⟨by rfl, by decide, by decide,
    (Claim_success_changes_one_status env0 env0_lawful (fun _ _ hh => by simp [env0] at hh)
      aliceExpired
      (Reachable.block host0 aliceLive 7 (none, aliceExpired, [])
        (Reachable.create (emptyStore Val) aliceRequest ((some aliceWill, none), aliceLive)
          Reachable.empty (by rfl)) (by rfl))
      pedersenGood (storeAfterClaim aliceExpired pedersenGood)
      (Or.inr ⟨_, rfl⟩) (by rfl)).elim
      (fun _ hw => hw.elim (fun _ hi => hi.elim (fun _ hh =>
        hh.2.2.2.2.2.2.2.2.2.2.2.2.2.2.2.1)))⟩

/-- C29: in a reachable store whose id list of height `h` names an id a second
time, `BeginBlocker` at `h` returns what the will loop returns on the list
without the later occurrence (result, store and calls), so the later occurrence
makes no call: when the run returns, its calls are those of the live wills of
the list, each taken once, and the repeated id is read back as not live. -/
theorem BeginBlocker_skips_repeated_id (env : Env B E S P) (hlaw : Lawful env)
    (host : Host) (s : KVStore B) (hs : Reachable env s) (h : Int)
    (pre post : List GoString) (id : GoString) (hmem : id ∈ pre)
    (hidx : heightIndex env s h = some (pre ++ id :: post)) :
    BeginBlocker env host s h = processWills env host (pre ++ post) s [] ∧
      ∀ e s1 calls, BeginBlocker env host s h = some (e, s1, calls) →
        traceOf host (liveWills env s (pre ++ post) []) [] = some calls ∧
        traceOf host (liveWills env s (pre ++ id :: post) []) [] = some calls ∧
        (liveWills env s (pre ++ id :: post) []).Nodup ∧
        Settled env s1 id := by
  have hc := hs.consistent
  have heq : BeginBlocker env host s h = processWills env host (pre ++ post) s [] := by
    rw [BeginBlocker_eq, hidx]
    exact processWills_repeated hlaw host pre post id hmem s [] hc
  refine ⟨heq, ?_⟩
  intro e s1 calls hrun
  have hrun2 := hrun
  rw [heq] at hrun2
  rw [BeginBlocker_eq, hidx] at hrun
  simp only at hrun
  obtain ⟨-, -, -, hsett, -⟩ :=
    processWills_run hlaw host (pre ++ id :: post) s [] e s1 calls hc hrun
  exact ⟨processWills_trace hlaw host s (pre ++ post) s [] [] e s1 calls hc (by simp)
      (fun _ _ => rfl) hrun2,
    processWills_trace hlaw host s (pre ++ id :: post) s [] [] e s1 calls hc (by simp)
      (fun _ _ => rfl) hrun,
    liveWills_nodup hlaw s hc _ [], hsett id (by simp)⟩

/-- Dave's request served twice lists his will twice at height 7; the run makes
the calls of his transfer once. -/
theorem BeginBlocker_skips_repeated_id_witness :
    heightIndex env0 daveTwice 7 = some [daveId, daveId] ∧
    callsOf (BeginBlocker env0 host0 daveTwice 7)
      = some [Call.sendCoins (lit "dave") (lit "bob") [{ Denom := lit "w3ll", Amount := 5 }],
          Call.emitEvent (lit "pay") daveId (lit "dave") (lit "bob")
            [{ Denom := lit "w3ll", Amount := 5 }]] ∧
    BeginBlocker env0 host0 daveTwice 7 = processWills env0 host0 ([daveId] ++ []) daveTwice [] :=
  ⟨by decide, by decide,
    (BeginBlocker_skips_repeated_id env0 env0_lawful host0 daveTwice
      (Reachable.create daveLive daveRequest ((some daveWill, none), daveTwice)
        (Reachable.create (emptyStore Val) daveRequest ((some daveWill, none), daveLive)
          Reachable.empty (by rfl)) (by rfl))
      7 [daveId] [] daveId (by simp) (by decide)).1⟩

/-- C30: `Claim` never reads the claimer: two requests with the same will id,
component id and proof, whatever their claimers, return the same result and
the same store, from every store. -/
theorem Claim_ignores_claimer (env : Env B E S P) (s : KVStore B)
    (msg1 msg2 : MsgClaimRequest) (hw : msg1.WillId = msg2.WillId)
    (hc : msg1.ComponentId = msg2.ComponentId) (hp : msg1.ClaimType = msg2.ClaimType) :
    Claim env s msg1 = Claim env s msg2 := by
  unfold Claim dispatchClaim
  rw [hw, hc, hp]

/-- The beneficiary of alice's will is "bob"; the Pedersen claim made by "eve"
is accepted and gives what the same claim made by "bob" gives. -/
theorem Claim_ignores_claimer_witness :
    aliceExpiredWill.Beneficiary = lit "bob" ∧ pedersenGood.Claimer = lit "eve" ∧
      pedersenByBob.Claimer = lit "bob" ∧
      (Claim env0 aliceExpired pedersenGood).map (fun r => r.1) = some none ∧
      Claim env0 aliceExpired pedersenGood = Claim env0 aliceExpired pedersenByBob :=
  ⟨by decide, by decide, by decide, by decide,
    Claim_ignores_claimer env0 aliceExpired pedersenGood pedersenByBob rfl rfl rfl⟩

/-- C31: for two tuples whose creator, name and beneficiary have no '-', with
any heights, negative ones included, equal identifiers
`hex(createWillId(...))` imply equal creator, name, beneficiary and height. -/
theorem idString_injective_without_dash (c1 n1 b1 c2 n2 b2 : GoString) (h1 h2 : Int)
    (hc1 : (45 : UInt8) ∉ c1) (hn1 : (45 : UInt8) ∉ n1) (hb1 : (45 : UInt8) ∉ b1)
    (hc2 : (45 : UInt8) ∉ c2) (hn2 : (45 : UInt8) ∉ n2) (hb2 : (45 : UInt8) ∉ b2)
    (heq : hexEncode (createWillId c1 n1 b1 h1) = hexEncode (createWillId c2 n2 b2 h2)) :
    c1 = c2 ∧ n1 = n2 ∧ b1 = b2 ∧ h1 = h2 := by
  have h := hexEncode_injective _ _ heq
  have hdash : lit "-" = [45] := by decide
  unfold createWillId at h
  simp only [hdash, List.append_assoc, List.singleton_append] at h
  obtain ⟨e1, h⟩ := append_sep_cancel 45 _ _ _ _ hc1 hc2 h
  obtain ⟨e2, h⟩ := append_sep_cancel 45 _ _ _ _ hn1 hn2 h
  obtain ⟨e3, h⟩ := append_sep_cancel 45 _ _ _ _ hb1 hb2 h
  exact ⟨e1, e2, e3, Itoa_injective _ _ h⟩

/-- The fields "alice", "w", "bob" have no '-', so the identifier at the
negative height -7 determines them; with a '-' at the end of the beneficiary
the heights 5 and -5 give one identifier. -/
theorem idString_injective_without_dash_witness :
    (lit "alice" = lit "alice" ∧ lit "w" = lit "w" ∧ lit "bob" = lit "bob" ∧
      (-7 : Int) = -7) ∧
    hexEncode (createWillId (lit "a") (lit "b") (lit "c-") 5)
      = hexEncode (createWillId (lit "a") (lit "b") (lit "c") (-5)) :=
  ⟨idString_injective_without_dash (lit "alice") (lit "w") (lit "bob") (lit "alice") (lit "w")
      (lit "bob") (-7) (-7) (by decide) (by decide) (by decide) (by decide) (by decide)
      (by decide) rfl,
    by decide⟩

/-- C32, at the failing input: on "transfer:bob,-5" the amount parses to -5
and `sdk.NewInt64Coin` panics, so `parseComponentFromString` does not return.
In general it panics exactly on the arguments `transfer:<to>,<amount>` with
one comma whose amount `strconv.Atoi` reads as a negative number, which is the
case for every negative `int64` written in decimal; it returns a transfer
component exactly on those whose amount is read as a number that is not
negative, and an error on every other argument. -/
theorem parseComponentFromString_panics_on_negative_amount :
    Atoi (lit "-5") = some (-5) ∧ NewInt64Coin (lit "w3ll") (-5) = none ∧
      parseComponentFromString (lit "transfer:bob,-5") = none ∧
      (∀ compArg, parseComponentFromString compArg = none ↔
        ∃ recipient amountStr n,
          compArg = lit "transfer:" ++ recipient ++ 44 :: amountStr ∧
          (44 : UInt8) ∉ recipient ∧ (44 : UInt8) ∉ amountStr ∧
          Atoi amountStr = some n ∧ n < 0) ∧
      (∀ compArg c, parseComponentFromString compArg = some (Except.ok c) ↔
        ∃ recipient amountStr n,
          compArg = lit "transfer:" ++ recipient ++ 44 :: amountStr ∧
          (44 : UInt8) ∉ recipient ∧ (44 : UInt8) ∉ amountStr ∧
          Atoi amountStr = some n ∧ 0 ≤ n ∧
          c = transferTo recipient { Denom := lit "w3ll", Amount := n }) ∧
      (∀ (recipient : GoString) (n : Int), (44 : UInt8) ∉ recipient →
        -(2 : Int) ^ 63 ≤ n → n < 0 →
        parseComponentFromString (lit "transfer:" ++ recipient ++ 44 :: Itoa n) = none) := by
  refine ⟨by decide, by decide, by decide, ?_, ?_, ?_⟩
  · intro compArg
    constructor
    · intro h
      obtain ⟨r, a, hform, hr, ha⟩ := parseComponentFromString_no_error compArg
        (by intro e; rw [h]; simp)
      rw [hform, parseComponentFromString_form r a hr ha] at h
      rcases hat : Atoi a with _ | n
      · rw [hat] at h; simp at h
      · rw [hat] at h
        simp only at h
        by_cases hn : 0 ≤ n
        · simp [hn] at h
        · exact ⟨r, a, n, hform, hr, ha, hat, by omega⟩
    · rintro ⟨r, a, n, hform, hr, ha, hat, hn⟩
      rw [hform, parseComponentFromString_form r a hr ha, hat]
      have : ¬ 0 ≤ n := by omega
      simp [this]
  · intro compArg c
    constructor
    · intro h
      obtain ⟨r, a, hform, hr, ha⟩ := parseComponentFromString_no_error compArg
        (by intro e; rw [h]; simp)
      rw [hform, parseComponentFromString_form r a hr ha] at h
      rcases hat : Atoi a with _ | n
      · rw [hat] at h; simp at h
      · rw [hat] at h
        simp only at h
        by_cases hn : 0 ≤ n
        · simp only [hn, if_true, Option.some.injEq, Except.ok.injEq] at h
          exact ⟨r, a, n, hform, hr, ha, hat, hn, h.symm⟩
        · simp [hn] at h
    · rintro ⟨r, a, n, hform, hr, ha, hat, hn, hc⟩
      rw [hform, parseComponentFromString_form r a hr ha, hat, hc]
      simp [hn]
  · intro r n hr hlo hneg
    rw [parseComponentFromString_form r (Itoa n) hr (Itoa_no_comma n),
      Atoi_Itoa n hlo (by omega)]
    have : ¬ 0 ≤ n := by omega
    simp [this]

end Claims

end Keeper
